import Mathlib

/-!
# DPLL and WalkSAT (KefsenidisP/DPLL-WalkSAT)

A shallow embedding of `src/Algorithms/dpll.h`, `src/Algorithms/walksat.h` and of
the functions `same_val`, `random_problem` and `create_file` of
`src/InputGenerator/input-generator.c`.

* C arrays are functions from the index to the value; an array write is a
  pointwise update (`upd`, `upd2`).
* The global variables of each header are gathered in one record that the
  functions take and return.
* `int` fields that only ever hold `0` or `1` (`_truth_val`, `_assigned`,
  `_in_clauses`) are `Bool`; the enum `situation` is an inductive type.
* The input file is the sequence of items that successive calls
  `fscanf(infile, "%d", ...)` meet: `some z` for an item converted to the
  integer `z`, `none` for characters that `%d` cannot convert; the list ends
  where the file ends. `file_tokens` computes this sequence from the
  characters of a file.
* `dpll` is recursive in C without a bound on its depth: the model takes a
  bound on the nesting depth and returns `none` when the bound is reached.
* `rand()` is a function from the number of calls made so far to the value
  returned; the `do ... while` loop of the generator takes a bound on the
  number of draws and returns `none` when the bound is reached.
-/

/-- Array write `a[i] = x`. -/
def upd {α : Type} (a : Nat → α) (i : Nat) (x : α) : Nat → α :=
  fun k => if k = i then x else a k

/-- Array write `a[i][j] = x`. -/
def upd2 {α : Type} (a : Nat → Nat → α) (i j : Nat) (x : α) : Nat → Nat → α :=
  fun k l => if k = i ∧ l = j then x else a k l

/-- One item of the input file as a call of `fscanf("%d")` meets it: `some z`
for an item converted to the integer `z`, `none` for characters that `%d`
cannot convert. -/
abbrev Token := Option Int

/-- The call `fscanf(infile, "%d", &x)`: `none` stands for a result `< 1` (end
of file or characters that are not an integer), otherwise the integer read and
the rest of the input. -/
def fscanf_d : List Token → Option (Int × List Token)
  | [] => none
  | none :: _ => none
  | some z :: rest => some (z, rest)

/-- The index `abs(lit) - 1` of the symbol of a literal. -/
def sym_index (lit : Int) : Nat := lit.natAbs - 1

namespace DPLL

/-- The enum `situation` of dpll.h. -/
inductive situation where
  | SET
  | UNSET
  deriving DecidableEq, Repr

open situation

/-- The globals of dpll.h: `N`, `M`, `K`, the array `clauses` (fields
`_literals`, `_lit_situation`, `_clause_situation`) and the array `symbols`
(fields `_in_clauses`, `_in_clauses_loc`, `_truth_val`, `_assigned`). -/
structure State where
  N : Nat
  M : Nat
  K : Nat
  literals : Nat → Nat → Int
  lit_situation : Nat → Nat → situation
  clause_situation : Nat → situation
  in_clauses : Nat → Nat → Bool
  in_clauses_loc : Nat → Nat → Nat
  truth_val : Nat → Bool
  assigned : Nat → Bool

/-- The macro `_lit_truth(sym, lit)`. -/
def lit_truth (truth_val : Bool) (lit : Int) : Bool :=
  (decide (lit > 0) && truth_val) || (decide (lit < 0) && !truth_val)

/-- The memory right after the `calloc` calls of `dpll_init`: every field is
zero (`UNSET`, `false`, `0`). -/
def calloc_state (N M K : Nat) : State :=
  { N := N, M := M, K := K
    literals := fun _ _ => 0
    lit_situation := fun _ _ => UNSET
    clause_situation := fun _ => UNSET
    in_clauses := fun _ _ => false
    in_clauses_loc := fun _ _ => 0
    truth_val := fun _ => false
    assigned := fun _ => false }

/-- The body of the inner loop of `dpll_init` after a literal `z` passed the
range check: lines 183-188. -/
def store_literal (s : State) (i j : Nat) (z : Int) : State :=
  { s with
    literals := upd2 s.literals i j z
    lit_situation := upd2 s.lit_situation i j SET
    in_clauses := upd2 s.in_clauses (sym_index z) i true
    in_clauses_loc := upd2 s.in_clauses_loc (sym_index z) i j
    assigned := upd s.assigned (sym_index z) false }

/-- The inner loop `for(j=0;j<K;j++)` of `dpll_init` over the remaining
positions `js` of clause `i`; `none` is `return -1`. -/
def read_clause (i : Nat) : List Nat → State → List Token → Option (State × List Token)
  | [], s, toks => some (s, toks)
  | j :: js, s, toks =>
    match fscanf_d toks with
    | none => none
    | some (z, rest) =>
      if z = 0 ∨ z > (s.N : Int) ∨ z < -(s.N : Int) then none
      else read_clause i js (store_literal s i j z) rest

/-- The outer loop `for (i=0;i<M;i++)` of `dpll_init` over the remaining
clause indices. -/
def read_clauses : List Nat → State → List Token → Option (State × List Token)
  | [], s, toks => some (s, toks)
  | i :: is, s, toks =>
    match read_clause i (List.range s.K)
        { s with clause_situation := upd s.clause_situation i SET } toks with
    | none => none
    | some (s1, rest) => read_clauses is s1 rest

/-- The function `dpll_init` on an input file that could be opened: `none` is
the return value `-1`, `some s` is the return value `0` with the globals `s`. -/
def dpll_init (toks : List Token) : Option State :=
  match fscanf_d toks with
  | none => none
  | some (n, t1) =>
    if n < 1 then none else
    match fscanf_d t1 with
    | none => none
    | some (m, t2) =>
      if m < 1 then none else
      match fscanf_d t2 with
      | none => none
      | some (k, t3) =>
        if k < 2 then none else
        match read_clauses (List.range m.toNat) (calloc_state n.toNat m.toNat k.toNat) t3 with
        | none => none
        | some (s, _) => some s

/-- The value returned by `dpll_init`. -/
def dpll_init_ret (toks : List Token) : Int :=
  match dpll_init toks with
  | none => -1
  | some _ => 0

/-- The function `empty`. -/
def empty (s : State) : Bool :=
  !(List.range s.M).any fun i => decide (s.clause_situation i = SET)

/-- The function `false_exists`. -/
def false_exists (s : State) : Bool :=
  (List.range s.M).any fun i =>
    decide (s.clause_situation i = SET) &&
      !(List.range s.K).any fun j => decide (s.lit_situation i j = SET)

/-- The loop body of `unset` for clause `i` and symbol `v`. -/
def unset_clause (v : Nat) (s : State) (i : Nat) : State :=
  if s.in_clauses v i then
    let lit := s.literals i (s.in_clauses_loc v i)
    if s.truth_val v then
      let s1 := if lit > 0 then { s with clause_situation := upd s.clause_situation i UNSET } else s
      if lit < 0 then
        { s1 with lit_situation := upd2 s1.lit_situation i (s.in_clauses_loc v i) UNSET }
      else s1
    else
      let s1 := if lit < 0 then { s with clause_situation := upd s.clause_situation i UNSET } else s
      if lit > 0 then
        { s1 with lit_situation := upd2 s1.lit_situation i (s.in_clauses_loc v i) UNSET }
      else s1
  else s

/-- The function `unset` applied to `symbols[v]`. -/
def unset (s : State) (v : Nat) : State :=
  (List.range s.M).foldl (unset_clause v) s

/-- The function `true_lit_num`. -/
def true_lit_num (s : State) (clause_num : Nat) : Nat :=
  (List.range s.K).countP fun i =>
    s.assigned (sym_index (s.literals clause_num i)) &&
      lit_truth (s.truth_val (sym_index (s.literals clause_num i))) (s.literals clause_num i)

/-- The loop body of `set` for clause `i` and symbol `v`. -/
def set_clause (v : Nat) (s : State) (i : Nat) : State :=
  if s.in_clauses v i then
    let lit := s.literals i (s.in_clauses_loc v i)
    if s.truth_val v then
      let s1 := if lit > 0 ∧ true_lit_num s i = 1 then
          { s with clause_situation := upd s.clause_situation i SET } else s
      if lit < 0 then
        { s1 with lit_situation := upd2 s1.lit_situation i (s.in_clauses_loc v i) SET }
      else s1
    else
      let s1 := if lit < 0 ∧ true_lit_num s i = 1 then
          { s with clause_situation := upd s.clause_situation i SET } else s
      if lit > 0 then
        { s1 with lit_situation := upd2 s1.lit_situation i (s.in_clauses_loc v i) SET }
      else s1
  else s

/-- The function `set` applied to `symbols[v]`. -/
def set (s : State) (v : Nat) : State :=
  (List.range s.M).foldl (set_clause v) s

/-- The macro `_backtrack(sym)`: `set(*sym); sym->_assigned = 0;`. -/
def backtrack (s : State) (v : Nat) : State :=
  let s1 := set s v
  { s1 with assigned := upd s1.assigned v false }

/-- The function `pick_first`: the index of the symbol returned, `none` for
`NULL`. -/
def pick_first (s : State) : Option Nat :=
  (List.range s.N).find? fun i => !s.assigned i

/-- The function `first_occurence` applied to `symbols[v]`: the literal the
returned pointer points to, `none` for `NULL`. -/
def first_occurence (s : State) (v : Nat) : Option Int :=
  ((List.range s.M).find? fun i =>
      decide (s.clause_situation i = SET) && s.in_clauses v i).map
    fun i => s.literals i (s.in_clauses_loc v i)

/-- The inner loop of `find_pure_symbol` for symbol `v`: the final value of
`pure`. -/
def pure_scan (s : State) (v : Nat) (lit : Int) : Bool :=
  !(List.range s.M).any fun j =>
    (decide (s.clause_situation j = SET) && s.in_clauses v j) &&
      decide (lit ≠ s.literals j (s.in_clauses_loc v j))

/-- The outer loop of `find_pure_symbol` over the remaining symbol indices:
the index of the symbol returned together with the updated globals, `none` for
`NULL`. -/
def find_pure_symbol_loop (s : State) : List Nat → Option (Nat × State)
  | [] => none
  | i :: is =>
    if !s.assigned i then
      match first_occurence s i with
      | none => find_pure_symbol_loop s is
      | some lit =>
        if pure_scan s i lit then
          some (i, { s with truth_val := upd s.truth_val i (decide (lit > 0))
                            assigned := upd s.assigned i true })
        else find_pure_symbol_loop s is
    else find_pure_symbol_loop s is

/-- The function `find_pure_symbol`. -/
def find_pure_symbol (s : State) : Option (Nat × State) :=
  find_pure_symbol_loop s (List.range s.N)

/-- The inner loop of `find_unit_clause` for clause `i` over the remaining
positions, from the current `set_lit_num` and `lit`: the final `set_lit_num`
and `lit` (`set_in_clause` is `1` exactly when `set_lit_num` is not `0`). -/
def unit_scan (s : State) (i : Nat) : List Nat → Nat → Int → Nat × Int
  | [], set_lit_num, lit => (set_lit_num, lit)
  | j :: js, set_lit_num, lit =>
    if s.lit_situation i j = SET then
      if set_lit_num + 1 = 1 then unit_scan s i js (set_lit_num + 1) (s.literals i j)
      else (set_lit_num + 1, lit)
    else unit_scan s i js set_lit_num lit

/-- The outer loop of `find_unit_clause` over the remaining clause indices. -/
def find_unit_clause_loop (s : State) : List Nat → Option (Nat × State)
  | [] => none
  | i :: is =>
    if s.clause_situation i = SET then
      let r := unit_scan s i (List.range s.K) 0 0
      if r.1 = 1 then
        some (sym_index r.2,
          { s with truth_val := upd s.truth_val (sym_index r.2) (decide (r.2 > 0))
                   assigned := upd s.assigned (sym_index r.2) true })
      else find_unit_clause_loop s is
    else find_unit_clause_loop s is

/-- The function `find_unit_clause`. -/
def find_unit_clause (s : State) : Option (Nat × State) :=
  find_unit_clause_loop s (List.range s.M)

/-- The statements `sym->_truth_val = b; sym->_assigned = 1;` of `dpll`. -/
def assign (s : State) (v : Nat) (b : Bool) : State :=
  { s with truth_val := upd s.truth_val v b, assigned := upd s.assigned v true }

/-- The tail shared by the pure-symbol and the unit-clause branch of `dpll`:
the result of the nested call decides between `return 1` and
`_backtrack(sym); return 0`. -/
def forced (v : Nat) : Option (Bool × State) → Option (Bool × State)
  | none => none
  | some (true, s) => some (true, s)
  | some (false, s) => some (false, backtrack s v)

/-- The function `dpll`, with a bound on the nesting depth of its calls:
`some (true, s)` is `return 1` and `some (false, s)` is `return 0`, each with
the globals it leaves; `none` means the bound was reached. -/
def dpll : Nat → State → Option (Bool × State)
  | 0, _ => none
  | depth + 1, s =>
    if empty s then some (true, s)
    else if false_exists s then some (false, s)
    else
      match find_pure_symbol s with
      | some (v, s1) => forced v (dpll depth (unset s1 v))
      | none =>
        match find_unit_clause s with
        | some (v, s1) => forced v (dpll depth (unset s1 v))
        | none =>
          match pick_first s with
          | none => some (false, s)
          | some v =>
            match dpll depth (unset (assign s v true) v) with
            | none => none
            | some (true, s2) => some (true, s2)
            | some (false, s2) =>
              forced v (dpll depth (unset (assign (backtrack s2 v) v false) v))

/-- The integers `write_to_file` prints, in order, when the output file could
be opened. -/
def write_to_file (s : State) : List Int :=
  (List.range s.N).map fun i => if s.truth_val i then 1 else -1

end DPLL

namespace WalkSAT

/-- The struct `literal` of walksat.h. -/
structure literal where
  lit_num : Nat
  truth_val : Bool
  deriving DecidableEq, Repr

/-- The globals `N`, `M`, `K`, `Problem`, `pos_lit_in` and `neg_lit_in` of
walksat.h; a cell of `pos_lit_in` or `neg_lit_in` is `true` when it holds a
nonzero integer. -/
structure Globals where
  N : Nat
  M : Nat
  K : Nat
  Problem : Nat → Int
  pos_lit_in : Nat → Bool
  neg_lit_in : Nat → Bool

/-- What the `malloc` calls of `walk_init` return: memory that is not
initialised, so its content is arbitrary. -/
structure Malloc where
  Problem : Nat → Int
  pos_lit_in : Nat → Bool
  neg_lit_in : Nat → Bool

/-- What walksat.h takes from outside: `rand n` is the value of the `n`-th
call of `rand()`, `noise r` tells whether the float `p` computed from the draw
`r` in `pick_lit` satisfies `p >= P`, and `uninit` is the value of the local
`truth_val` of `satisfiable` before its first assignment. -/
structure Env where
  rand : Nat → Nat
  noise : Nat → Bool
  uninit : Bool

/-- The body of the inner loop of `walk_init` after a literal `z` passed the
range check: lines 493-498 (with `Problem[i*K+j]` already written). -/
def store_literal (g : Globals) (i j : Nat) (z : Int) : Globals :=
  let g1 := { g with Problem := upd g.Problem (i * g.K + j) z }
  if z > 0 then { g1 with pos_lit_in := upd g1.pos_lit_in (i * g.N + (z.toNat - 1)) true }
  else if z < 0 then { g1 with neg_lit_in := upd g1.neg_lit_in (i * g.N + sym_index z) true }
  else g1

/-- The inner loop `for(j=0;j<K;j++)` of `walk_init` over the remaining
positions of clause `i`; `none` is `return -1`. -/
def read_clause (i : Nat) : List Nat → Globals → List Token → Option (Globals × List Token)
  | [], g, toks => some (g, toks)
  | j :: js, g, toks =>
    match fscanf_d toks with
    | none => none
    | some (z, rest) =>
      if z = 0 ∨ z > (g.N : Int) ∨ z < -(g.N : Int) then none
      else read_clause i js (store_literal g i j z) rest

/-- The outer loop `for (i=0;i<M;i++)` of `walk_init`. -/
def read_clauses : List Nat → Globals → List Token → Option (Globals × List Token)
  | [], g, toks => some (g, toks)
  | i :: is, g, toks =>
    match read_clause i (List.range g.K) g toks with
    | none => none
    | some (g1, rest) => read_clauses is g1 rest

/-- The function `walk_init` on an input file that could be opened: `none` is
the return value `-1`, `some g` is the return value `0` with the globals `g`. -/
def walk_init (mem : Malloc) (toks : List Token) : Option Globals :=
  match fscanf_d toks with
  | none => none
  | some (n, t1) =>
    if n < 1 then none else
    match fscanf_d t1 with
    | none => none
    | some (m, t2) =>
      if m < 1 then none else
      match fscanf_d t2 with
      | none => none
      | some (k, t3) =>
        if k < 2 then none else
        match read_clauses (List.range m.toNat)
            { N := n.toNat, M := m.toNat, K := k.toNat, Problem := mem.Problem,
              pos_lit_in := mem.pos_lit_in, neg_lit_in := mem.neg_lit_in } t3 with
        | none => none
        | some (g, _) => some g

/-- The value returned by `walk_init`. -/
def walk_init_ret (mem : Malloc) (toks : List Token) : Int :=
  match walk_init mem toks with
  | none => -1
  | some _ => 0

/-- The macro `_neg_pos_truth_istrue(lit_opt, lit_assign)`. -/
def neg_pos_truth_istrue (lit_opt : Int) (lit_assign : Nat → literal) : Bool :=
  (decide (lit_opt > 0) && (lit_assign (lit_opt - 1).toNat).truth_val) ||
    (decide (lit_opt < 0) && !(lit_assign (-lit_opt - 1).toNat).truth_val)

/-- The function `true_lits_in`; the pointer `clause` is `Problem + c`. -/
def true_lits_in (g : Globals) (c : Nat) (lit_assign : Nat → literal) : Nat :=
  (List.range g.K).countP fun i => neg_pos_truth_istrue (g.Problem (c + i)) lit_assign

/-- The function `clause_satisfaction`; the pointer `clause` is `Problem + c`. -/
def clause_satisfaction (g : Globals) (c : Nat) (lit_assign : Nat → literal) : Bool :=
  (List.range g.K).any fun i => neg_pos_truth_istrue (g.Problem (c + i)) lit_assign

/-- One of the two loops of `break_count` over the remaining clause indices:
`occ` is `pos_lit_in` or `neg_lit_in`, `break_val` the running count. -/
def break_loop (g : Globals) (lit_assign : Nat → literal) (min_brk : Nat) (occ : Nat → Bool)
    (lit_num : Nat) : List Nat → Nat → Nat
  | [], break_val => break_val
  | i :: is, break_val =>
    if occ (i * g.N + lit_num) then
      let b := if true_lits_in g (i * g.K) lit_assign = 1 then break_val + 1 else break_val
      if b > min_brk then b else break_loop g lit_assign min_brk occ lit_num is b
    else break_loop g lit_assign min_brk occ lit_num is break_val

/-- The function `break_count`, reading the global `min_brk`. -/
def break_count (g : Globals) (lit_assign : Nat → literal) (min_brk : Nat) (lit_num : Nat) : Nat :=
  if (lit_assign lit_num).truth_val then
    break_loop g lit_assign min_brk g.pos_lit_in lit_num (List.range g.M) 0
  else
    break_loop g lit_assign min_brk g.neg_lit_in lit_num (List.range g.M) 0

/-- The struct `list_head`: the nodes reachable from `_first` and the field
`_size`. -/
structure list_head where
  first : List literal
  size : Nat

/-- The function `shift` on the global `min_brk_lits` (`none` is `NULL`). -/
def shift (min_brk_lits : Option list_head) (lit : literal) : Option list_head :=
  match min_brk_lits with
  | none => some { first := [lit], size := 1 }
  | some h => some { first := lit :: h.first, size := h.size + 1 }

/-- The function `select_nd`; `none` when the walk leaves the list. -/
def select_nd (min_brk_lits : Option list_head) (pos : Nat) : Option literal :=
  match min_brk_lits with
  | none => none
  | some h => h.first.get? pos

/-- The scanning loop of `pick_lit` (lines 222-240) over the remaining
positions of the clause at `Problem + c`, from the current `min_brk` and
`min_brk_lits`. -/
def scan_lits (g : Globals) (c : Nat) (lit_assign : Nat → literal) :
    List Nat → Nat × Option list_head → Nat × Option list_head
  | [], st => st
  | i :: is, (min_brk, lits) =>
    let lit_num := sym_index (g.Problem (c + i))
    let lit_brk := break_count g lit_assign min_brk lit_num
    if lit_brk < min_brk then
      scan_lits g c lit_assign is (lit_brk, shift none (lit_assign lit_num))
    else if lit_brk = min_brk then
      scan_lits g c lit_assign is (min_brk, shift lits (lit_assign lit_num))
    else scan_lits g c lit_assign is (min_brk, lits)

/-- The expression `select_nd(rand() % min_brk_lits->_size)` with the draw `r`. -/
def select_random (min_brk_lits : Option list_head) (r : Nat) : Option literal :=
  match min_brk_lits with
  | none => none
  | some h => select_nd (some h) (r % h.size)

/-- The function `pick_lit` for the clause at `Problem + c` when `t` calls of
`rand()` have been made: the literal returned and the new number of calls. -/
def pick_lit (g : Globals) (env : Env) (c : Nat) (lit_assign : Nat → literal) (t : Nat) :
    Option (literal × Nat) :=
  let st := scan_lits g c lit_assign (List.range g.K) (g.M, none)
  if st.1 = 0 then
    (select_random st.2 (env.rand t)).map fun l => (l, t + 1)
  else if env.noise (env.rand t) then
    some (lit_assign (sym_index (g.Problem (c + env.rand (t + 1) % g.K))), t + 2)
  else
    (select_random st.2 (env.rand (t + 1))).map fun l => (l, t + 2)

/-- The loop of `satisfiable` over the remaining clause indices, from the
current value of `truth_val`. -/
def satisfiable_loop (g : Globals) (lit_assign : Nat → literal) : List Nat → Bool → Bool
  | [], truth_val => truth_val
  | i :: is, _ =>
    if true_lits_in g (i * g.K) lit_assign = 0 then false
    else satisfiable_loop g lit_assign is true

/-- The function `satisfiable`. -/
def satisfiable (g : Globals) (env : Env) (lit_assign : Nat → literal) : Bool :=
  satisfiable_loop g lit_assign (List.range g.M) env.uninit

/-- The integers `write_sol` prints, in order, when the output file could be
opened. -/
def write_sol (g : Globals) (lit_assign : Nat → literal) : List Int :=
  (List.range g.N).flatMap fun i =>
    if (lit_assign i).truth_val then [1]
    else if !(lit_assign i).truth_val then [-1]
    else []

/-- The macro `_flip_truth_val` applied to `lit_assign[i]`. -/
def flip_truth_val (lit_assign : Nat → literal) (i : Nat) : Nat → literal :=
  upd lit_assign i { lit_assign i with truth_val := if (lit_assign i).truth_val then false else true }

/-- The loop that draws the initial assignment (lines 365-369); the array
`lit_assign` is not initialised before. -/
def init_assign (env : Env) (N : Nat) : Nat → literal :=
  (List.range N).foldl
    (fun la i => upd la i { lit_num := i, truth_val := decide (env.rand i % 2 ≠ 0) })
    (fun _ => { lit_num := 0, truth_val := env.uninit })

/-- The `do ... while` loop of `walksat` that draws a clause until it is not
satisfied, with a bound on the number of draws: the clause index and the new
number of calls of `rand()`. -/
def choose_clause (g : Globals) (env : Env) (lit_assign : Nat → literal) :
    Nat → Nat → Option (Nat × Nat)
  | 0, _ => none
  | draws + 1, t =>
    let clause_num := env.rand t % g.M
    if clause_satisfaction g (clause_num * g.K) lit_assign then
      choose_clause g env lit_assign draws (t + 1)
    else some (clause_num, t + 1)

/-- What `walksat` leaves: `found`, `steps`, the array `lit_assign` and the
integers written by `write_sol` (`none` when it was not called). -/
structure Outcome where
  found : Bool
  steps : Nat
  lit_assign : Nat → literal
  written : Option (List Int)

/-- The main loop of `walksat` with `remaining = max_steps - steps` iterations
left; `draws` bounds each clause selection. -/
def walk_loop (g : Globals) (env : Env) (draws : Nat) :
    Nat → Nat → (Nat → literal) → Nat → Option Outcome
  | 0, steps, lit_assign, _ =>
    some { found := false, steps := steps, lit_assign := lit_assign, written := none }
  | remaining + 1, steps, lit_assign, t =>
    if satisfiable g env lit_assign then
      some { found := true, steps := steps, lit_assign := lit_assign,
             written := some (write_sol g lit_assign) }
    else
      match choose_clause g env lit_assign draws t with
      | none => none
      | some (clause_num, t1) =>
        match pick_lit g env (clause_num * g.K) lit_assign t1 with
        | none => none
        | some (lit, t2) =>
          walk_loop g env draws remaining (steps + 1) (flip_truth_val lit_assign lit.lit_num) t2

/-- The function `walksat` with the step budget as a parameter. -/
def walksat_steps (g : Globals) (env : Env) (draws : Nat) (max_steps : Nat) : Option Outcome :=
  walk_loop g env draws max_steps 0 (init_assign env g.N) g.N

/-- The local constant `max_steps` of `walksat`. -/
def max_steps : Nat := 20000

/-- The function `walksat`. -/
def walksat (g : Globals) (env : Env) (draws : Nat) : Option Outcome :=
  walksat_steps g env draws max_steps

end WalkSAT

/-! ## Properties stated by the specification, and the inputs of its scenarios -/

namespace DPLL

/-- Whether the truth values `a` (indexed like `symbols`) make at least one
literal of every clause true. -/
def satisfies (s : State) (a : Nat → Bool) : Bool :=
  (List.range s.M).all fun i =>
    (List.range s.K).any fun j =>
      lit_truth (a (sym_index (s.literals i j))) (s.literals i j)

/-- No clause contains the same variable twice. -/
def no_repeat (s : State) : Prop :=
  ∀ i, i < s.M → ∀ j1, j1 < s.K → ∀ j2, j2 < s.K →
    sym_index (s.literals i j1) = sym_index (s.literals i j2) → j1 = j2

/-- Scenario 1 of the specification: `2 2 2 / 1 2 / -1 -2`. -/
def scenario1 : List Token := [some 2, some 2, some 2, some 1, some 2, some (-1), some (-2)]

/-- Scenario 2 of the specification: `1 2 2 / 1 1 / -1 -1`. -/
def scenario2 : List Token := [some 1, some 2, some 2, some 1, some 1, some (-1), some (-1)]

/-- The input `2 1 2 / 1 2`. -/
def one_clause : List Token := [some 2, some 1, some 2, some 1, some 2]

/-- Loads `toks`, runs `dpll` with the depth bound `d` and observes the final
globals through `f`. -/
def observe {α : Type} (toks : List Token) (d : Nat) (f : State → State → α) :
    Option (Bool × α) :=
  (dpll_init toks).bind fun s0 => (dpll d s0).map fun r => (r.1, f s0 r.2)

open situation

/-- The tables built by `dpll_init` describe the clauses: every literal is a
nonzero integer whose symbol index is below `N`, `_in_clauses` marks exactly
the clauses a symbol occurs in, and `_in_clauses_loc` is a position where it
occurs. -/
structure well_formed (s : State) : Prop where
  lit_ne : ∀ i, i < s.M → ∀ j, j < s.K → s.literals i j ≠ 0
  lit_lt : ∀ i, i < s.M → ∀ j, j < s.K → sym_index (s.literals i j) < s.N
  in_iff : ∀ v i, i < s.M →
    (s.in_clauses v i = true ↔ ∃ j, j < s.K ∧ sym_index (s.literals i j) = v)
  loc_lt : ∀ v i, i < s.M → s.in_clauses v i = true → s.in_clauses_loc v i < s.K
  loc_sym : ∀ v i, i < s.M → s.in_clauses v i = true →
    sym_index (s.literals i (s.in_clauses_loc v i)) = v

/-- The clause-state invariant of the specification (§3): a literal occurrence
is `UNSET` exactly when its symbol is assigned and the literal is false, a
clause is `UNSET` exactly when one of its literals has an assigned symbol and
is true. -/
structure clause_state_inv (s : State) : Prop where
  lit : ∀ i, i < s.M → ∀ j, j < s.K →
    (s.lit_situation i j = UNSET ↔
      (s.assigned (sym_index (s.literals i j)) = true ∧
        lit_truth (s.truth_val (sym_index (s.literals i j))) (s.literals i j) = false))
  clause : ∀ i, i < s.M →
    (s.clause_situation i = UNSET ↔
      ∃ j, j < s.K ∧ s.assigned (sym_index (s.literals i j)) = true ∧
        lit_truth (s.truth_val (sym_index (s.literals i j))) (s.literals i j) = true)

/-- The total assignment `a` agrees with the truth value of every symbol that
is assigned in `s`. -/
def extends_assigned (s : State) (a : Nat → Bool) : Prop :=
  ∀ u, s.assigned u = true → a u = s.truth_val u

/-- The states `s` and `t` hold the same formula and the same tables. -/
structure same_formula (s t : State) : Prop where
  N : t.N = s.N
  M : t.M = s.M
  K : t.K = s.K
  literals : t.literals = s.literals
  in_clauses : t.in_clauses = s.in_clauses
  in_clauses_loc : t.in_clauses_loc = s.in_clauses_loc

/-- The number of symbols below `N` that are not assigned. -/
def unassigned (s : State) : Nat :=
  (List.range s.N).countP fun u => !s.assigned u

/-- What a call of `dpll` that starts in `s` and returns `b`, leaving `t`,
guarantees; `P` restricts the assignments that a result `0` excludes. -/
structure dpll_post (s : State) (b : Bool) (t : State) (P : (Nat → Bool) → Prop) : Prop where
  same : same_formula s t
  inv : clause_state_inv t
  sat : b = true → ∀ i, i < s.M → t.clause_situation i = UNSET
  assigned_eq : b = false → ∀ u, t.assigned u = s.assigned u
  truth_eq : b = false → ∀ u, s.assigned u = true → t.truth_val u = s.truth_val u
  unsat : b = false → ∀ a, extends_assigned s a → P a → satisfies s a = false


/-- Loop invariant of `dpll_init`: the positions `(i, j)` marked by `P` have
been read and stored. -/
structure loaded (s : State) (P : Nat → Nat → Prop) : Prop where
  lit_ne : ∀ i j, P i j → s.literals i j ≠ 0
  lit_lt : ∀ i j, P i j → sym_index (s.literals i j) < s.N
  lit_set : ∀ i j, P i j → s.lit_situation i j = SET
  clause_set : ∀ i j, P i j → s.clause_situation i = SET
  in_iff : ∀ v i, s.in_clauses v i = true ↔ ∃ j, P i j ∧ sym_index (s.literals i j) = v
  loc : ∀ v i, s.in_clauses v i = true →
    P i (s.in_clauses_loc v i) ∧ sym_index (s.literals i (s.in_clauses_loc v i)) = v
  unassigned : ∀ u, s.assigned u = false


instance (s : State) : Decidable (no_repeat s) := by
  unfold no_repeat; infer_instance

/-- The unsatisfiable input `2 4 2 / 1 2 / 1 -2 / -1 2 / -1 -2`. -/
def all_four : List Token :=
  [some 2, some 4, some 2, some 1, some 2, some 1, some (-2), some (-1), some 2,
    some (-1), some (-2)]

end DPLL

/-- The integers at the start of a token list, up to the first token that is
missing or not an integer. -/
def int_run : List Token → List Int
  | some z :: rest => z :: int_run rest
  | _ => []

/-- The rejection condition of the specification (§4.1, §7) on the token
sequence of the input: a header token is missing or not an integer, or `N < 1`,
or `M < 1`, or `K < 2`, or fewer than `M * K` integer tokens follow the header,
or one of the first `M * K` literal tokens is `0`, above `N` or below `-N`. -/
def rejects : List Token → Prop
  | some n :: some m :: some k :: rest =>
    n < 1 ∨ m < 1 ∨ k < 2 ∨ (int_run rest).length < (m * k).toNat ∨
      ∃ p, p < (m * k).toNat ∧ ∃ z, (int_run rest)[p]? = some z ∧ (z = 0 ∨ z > n ∨ z < -n)
  | _ => True

/-- Reading and range-checking `n` literal tokens for `N` symbols, as the
loops of `dpll_init` and `walk_init` do: the rest of the input, or `none`. -/
def check_literals (N : Nat) : Nat → List Token → Option (List Token)
  | 0, t => some t
  | n + 1, t =>
    match fscanf_d t with
    | none => none
    | some (z, rest) =>
      if z = 0 ∨ z > (N : Int) ∨ z < -(N : Int) then none else check_literals N n rest

namespace WalkSAT

/-- Whether the assignment `la` makes at least one literal of every clause of
`Problem` true. -/
def satisfies (g : Globals) (la : Nat → literal) : Bool :=
  (List.range g.M).all fun i =>
    (List.range g.K).any fun j => neg_pos_truth_istrue (g.Problem (i * g.K + j)) la

/-- Memory from `malloc` in which every cell holds zero. -/
def zero_mem : Malloc := { Problem := fun _ => 0, pos_lit_in := fun _ => false, neg_lit_in := fun _ => false }

/-- The environment in which every call of `rand()` returns `r`, `p >= P`
holds for odd draws only, and the uninitialised `truth_val` is `0`. -/
def const_env (r : Nat) : Env := { rand := fun _ => r, noise := fun x => decide (x % 2 = 1), uninit := false }

/-- Loads `toks`, runs `walksat` with the given step budget and observes what
it leaves through `f`. -/
def observe {α : Type} (mem : Malloc) (toks : List Token) (env : Env) (draws budget : Nat)
    (f : Globals → Outcome → α) : Option α :=
  (walk_init mem toks).bind fun g => (walksat_steps g env draws budget).map (f g)

/-- The globals that `walk_init` builds from `2 1 2 / 1 2` in the memory
`mem`. -/
def scenario3_globals (mem : Malloc) : Globals :=
  { N := 2, M := 1, K := 2
    Problem := upd (upd mem.Problem 0 1) 1 2
    pos_lit_in := upd (upd mem.pos_lit_in 0 true) 1 true
    neg_lit_in := mem.neg_lit_in }

end WalkSAT

/-- The test `isspace(c)` of the C locale. -/
def is_space (c : Char) : Bool :=
  decide (c.toNat = 32) || (decide (9 ≤ c.toNat) && decide (c.toNat ≤ 13))

/-- The test `isdigit(c)`. -/
def is_digit (c : Char) : Bool :=
  decide (48 ≤ c.toNat) && decide (c.toNat ≤ 57)

/-- Skipping the white space in front of the unread characters. -/
def skip_space : List Char → List Char
  | [] => []
  | c :: cs => if is_space c then skip_space cs else c :: cs

/-- Reading the decimal digits in front of the unread characters: the value
read so far becomes the value read, with the characters left. -/
def read_digits : List Char → Nat → Nat × List Char
  | [], acc => (acc, [])
  | c :: cs, acc =>
    if is_digit c then read_digits cs (10 * acc + (c.toNat - 48)) else (acc, c :: cs)

/-- Reading at least one decimal digit. -/
def read_number : List Char → Option (Nat × List Char)
  | [] => none
  | c :: cs => if is_digit c then some (read_digits (c :: cs) 0) else none

/-- Modelled from the C standard, as the library function is not part of the
repository: the call `fscanf(infile, "%d", &x)` on the unread characters of the
file skips white space and converts the longest run of an optional sign and
decimal digits; `none` stands for a result `< 1`, otherwise the value and the
characters left unread. Values are taken to fit an `int`. -/
def fscanf_chars (cs : List Char) : Option (Int × List Char) :=
  match skip_space cs with
  | [] => none
  | c :: rest =>
    if c.toNat = 45 then (read_number rest).map fun r => (-(r.1 : Int), r.2)
    else if c.toNat = 43 then (read_number rest).map fun r => ((r.1 : Int), r.2)
    else (read_number (c :: rest)).map fun r => ((r.1 : Int), r.2)

/-- What at most `n` successive calls of `fscanf(infile, "%d", ...)` meet in
the characters `cs`: the values converted, up to the first call that converts
nothing (`none` unless the file has ended). -/
def conversions : Nat → List Char → List Token
  | 0, _ => []
  | n + 1, cs =>
    match fscanf_chars cs with
    | none => if skip_space cs = [] then [] else [none]
    | some (z, rest) => some z :: conversions n rest

/-- The token sequence that the loaders meet in a file with the characters
`cs` (every conversion uses up at least one character). -/
def file_tokens (cs : List Char) : List Token :=
  conversions cs.length cs

/-- Splitting the characters at white space; `cur` holds the characters of
the current word in reverse. -/
def words_from : List Char → List Char → List (List Char)
  | [], cur => if cur = [] then [] else [cur.reverse]
  | c :: cs, cur =>
    if is_space c then
      if cur = [] then words_from cs [] else cur.reverse :: words_from cs []
    else words_from cs (c :: cur)

/-- A whitespace-separated token is an integer when `%d` converts all of
it. -/
def word_value (w : List Char) : Token :=
  match fscanf_chars w with
  | some (z, []) => some z
  | _ => none

/-- The whitespace-separated tokens of a file, each an integer or not. -/
def word_tokens (cs : List Char) : List Token :=
  (words_from cs []).map word_value

/-- The characters of the file `1 1 2 / 1 1abc`. -/
def trailing_abc : List Char := "1 1 2 1 1abc".toList

namespace DPLL

open situation

/-- The states on which the call of `dpll` that starts in `s` calls `dpll`
again, in order: none when it returns at once, one after a pure symbol or a
unit clause, and for a branching step the state of the call with `true` and,
when that call returns 0 (evaluated with the depth bound `d`), the state of
the call with `false`. -/
def nested_calls (d : Nat) (s : State) : List State :=
  if empty s then []
  else if false_exists s then []
  else
    match find_pure_symbol s with
    | some (v, s1) => [unset s1 v]
    | none =>
      match find_unit_clause s with
      | some (v, s1) => [unset s1 v]
      | none =>
        match pick_first s with
        | none => []
        | some v =>
          unset (assign s v true) v ::
            match dpll d (unset (assign s v true) v) with
            | some (false, s2) => [unset (assign (backtrack s2 v) v false) v]
            | _ => []

/-- A call stack of `dpll`: each state is the state of a call that the call
on the state before it makes. -/
def call_stack (d : Nat) (stack : List State) : Prop :=
  List.Chain' (fun s t => t ∈ nested_calls d s) stack

/-- The call on `t` was made right after the symbol `v`, unassigned in `s`,
was assigned. -/
def assigns_new (N : Nat) (s t : State) : Prop :=
  ∃ v, v < N ∧ s.assigned v = false ∧ ∀ u, t.assigned u = upd s.assigned v true u

/-- The step from the state `s` of a call to the state `t` of a call nested in
it assigns a new symbol, and so leaves one unassigned symbol less. -/
def grows (N : Nat) (s t : State) : Prop :=
  assigns_new N s t ∧ unassigned t + 1 = unassigned s

/-- Loads `toks` and observes the loaded globals through `f`. -/
def observe_init {α : Type} (toks : List Token) (f : State → α) : Option α :=
  (dpll_init toks).map f

/-- The input `2 3 2 / 1 -1 / 1 2 / -2 -2`. -/
def loop_input : List Token :=
  [some 2, some 3, some 2, some 1, some (-1), some 1, some 2, some (-2), some (-2)]

/-- Assigning `b` to the symbol `v` and calling `unset` changes nothing in
`s`: `v` is assigned with the value `b`, and every clause and literal
occurrence that `unset` would mark is marked already. -/
def unchanged_by (s : State) (v : Nat) (b : Bool) : Prop :=
  s.truth_val v = b ∧ s.assigned v = true ∧
    (∀ i, i < s.M → s.in_clauses v i = true →
      lit_truth b (s.literals i (s.in_clauses_loc v i)) = true → s.clause_situation i = UNSET) ∧
    (∀ i, i < s.M → s.in_clauses v i = true →
      lit_truth (!b) (s.literals i (s.in_clauses_loc v i)) = true →
        s.lit_situation i (s.in_clauses_loc v i) = UNSET)

instance (s : State) (v : Nat) (b : Bool) : Decidable (unchanged_by s v b) := by
  unfold unchanged_by; infer_instance

/-- The state of `dpll` on `loop_input` after P1 = true (branching). -/
def loop_first (s0 : State) : State := unset (assign s0 0 true) 0

/-- The state of `dpll` on `loop_input` after P1 = true and P2 = false (pure
symbol). -/
def loop_second (s0 : State) : State := unset (assign (loop_first s0) 1 false) 1

/-- The tests of `dpll` in the three states. -/
def loop_flags (s0 : State) : List Bool :=
  [empty s0, false_exists s0, (find_pure_symbol s0).isNone, (find_unit_clause s0).isNone,
    empty (loop_first s0), false_exists (loop_first s0), empty (loop_second s0),
    false_exists (loop_second s0), (find_pure_symbol (loop_second s0)).isNone,
    decide (unchanged_by (loop_second s0) 0 true)]

/-- `N` and the symbols that `dpll` picks in the three states. -/
def loop_symbols (s0 : State) : List (Option Nat) :=
  [some s0.N, pick_first s0, (find_pure_symbol (loop_first s0)).map Prod.fst,
    (find_unit_clause (loop_second s0)).map Prod.fst]

/-- The literal of the pure symbol and the value that the unit clause
assigns. -/
def loop_values (s0 : State) : Option Int × Option Bool :=
  (first_occurence (loop_first s0) 1,
    (find_unit_clause (loop_second s0)).map fun p => p.2.truth_val p.1)

end DPLL

namespace WalkSAT

/-- Memory from `malloc` in which every cell holds a nonzero value. -/
def ones_mem : Malloc :=
  { Problem := fun _ => 1, pos_lit_in := fun _ => true, neg_lit_in := fun _ => true }

/-- The input `2 1 2 / 1 -2`. -/
def mixed_clause : List Token := [some 2, some 1, some 2, some 1, some (-2)]

end WalkSAT

namespace DPLL

open situation

/-- Every occurrence of the symbol `v` in a pending (`SET`) clause has the
polarity `pol` (`true` for a positive literal). -/
def polarity_in_pending (s : State) (v : Nat) (pol : Bool) : Prop :=
  ∀ i, i < s.M → s.clause_situation i = SET → ∀ j, j < s.K →
    sym_index (s.literals i j) = v → decide (s.literals i j > 0) = pol

/-- The symbol `v` is a pure symbol of the state `s` in the words of the
specification: it is unassigned, occurs in at least one pending (`SET`) clause
and occurs with the same polarity in every pending clause that contains it. -/
def pure_in (s : State) (v : Nat) : Prop :=
  v < s.N ∧ s.assigned v = false ∧
    (∃ i, i < s.M ∧ s.clause_situation i = SET ∧ ∃ j, j < s.K ∧ sym_index (s.literals i j) = v) ∧
    ∃ pol, polarity_in_pending s v pol

/-- The test that the loop of `find_pure_symbol` makes for the symbol `v`. -/
def pure_test (s : State) (v : Nat) : Prop :=
  s.assigned v = false ∧ ∃ lit, first_occurence s v = some lit ∧ pure_scan s v lit = true

/-- Loop invariant of `dpll_init` on the literal tokens `all` of the input:
the first `c` of them have been read, in the order of the positions
`(a, b)` with flat index `a * K + b`, `t` is what is left to read, and
`_in_clauses_loc` holds the last position read of each symbol in each clause. -/
structure read_so_far (s : State) (all : List Token) (c : Nat) (t : List Token) : Prop where
  rest : t = all.drop c
  literal : ∀ a b, b < s.K → a * s.K + b < c → all[a * s.K + b]? = some (some (s.literals a b))
  last : ∀ a b, b < s.K → a * s.K + b < c →
    b ≤ s.in_clauses_loc (sym_index (s.literals a b)) a

end DPLL

namespace Generator

/-- The value of type `int` that stands for the integer `x`: the value modulo
`2^32` in the range of `int`. It models the conversion of a `long` value to
`int` (the assignment to `genum`, an argument of `%d`) and the result of
`-x` and `abs(x)` on `int`, which wrap at `INT_MIN`. -/
def int_of_long (x : Int) : Int := (x + 2147483648) % 4294967296 - 2147483648

/-- The function `same_val` of input-generator.c. -/
def same_val (genum : Int) (problem : Nat → Nat → Int) (clause_num litlim : Nat) : Bool :=
  (List.range litlim).any fun j =>
    decide (int_of_long ((problem clause_num j).natAbs : Int) = genum)

/-- The `do ... while` loop of `random_problem` for position `j` of clause
`i`, with a bound on the number of draws; `rand n` is the value of the `n`-th
call of `rand()` and `t` the number of calls made: the value of `genum` and
the new number of calls. -/
def draw_genum (rand : Nat → Nat) (N : Nat) (problem : Nat → Nat → Int) (i j : Nat) :
    Nat → Nat → Option (Int × Nat)
  | 0, _ => none
  | draws + 1, t =>
    if same_val (int_of_long ((rand t : Int) % (N : Int) + 1)) problem i j then
      draw_genum rand N problem i j draws (t + 1)
    else some (int_of_long ((rand t : Int) % (N : Int) + 1), t + 1)

/-- The inner loop `for(int j = 0; j < K; j++)` of `random_problem` over the
remaining positions of clause `i`. -/
def fill_clause (rand : Nat → Nat) (N draws i : Nat) :
    List Nat → (Nat → Nat → Int) → Nat → Option ((Nat → Nat → Int) × Nat)
  | [], problem, t => some (problem, t)
  | j :: js, problem, t =>
    match draw_genum rand N problem i j draws t with
    | none => none
    | some (genum, t1) =>
      fill_clause rand N draws i js
        (upd2 problem i j (if rand t1 % 10 < 5 then int_of_long (-genum) else genum)) (t1 + 1)

/-- The outer loop `for(int i = 0; i < M; i++)` of `random_problem`. -/
def fill_clauses (rand : Nat → Nat) (N K draws : Nat) :
    List Nat → (Nat → Nat → Int) → Nat → Option ((Nat → Nat → Int) × Nat)
  | [], problem, t => some (problem, t)
  | i :: is, problem, t =>
    match fill_clause rand N draws i (List.range K) problem t with
    | none => none
    | some (problem1, t1) => fill_clauses rand N K draws is problem1 t1

/-- The function `random_problem` on the array `problem`, which
`problem_creator` does not initialise; `none` when a `do ... while` loop needs
more than `draws` draws. -/
def random_problem (rand : Nat → Nat) (N M K draws : Nat) (problem : Nat → Nat → Int) (t : Nat) :
    Option ((Nat → Nat → Int) × Nat) :=
  fill_clauses rand N K draws (List.range M) problem t

/-- The integers that `create_file` prints with `%d`, in order: the header
`N M K` and the `M` rows. -/
def create_file (N M K : Nat) (problem : Nat → Nat → Int) : List Int :=
  [int_of_long N, int_of_long M, int_of_long K] ++
    (List.range M).flatMap fun i =>
      (List.range (K - 1)).map (fun j => problem i j) ++ [problem i (K - 1)]

/-- The generated file as the loaders read it: the integers that `create_file`
printed, separated by blanks and newlines, are what the successive conversions
of `fscanf("%d")` return. -/
def generated_tokens (N M K : Nat) (problem : Nat → Nat → Int) : List Token :=
  (create_file N M K problem).map some

/-- The first `j` literals of clause `i` have magnitudes in `[1, N]` that are
pairwise distinct. -/
def row_ok (N : Nat) (problem : Nat → Nat → Int) (i j : Nat) : Prop :=
  (∀ b, b < j → 1 ≤ (problem i b).natAbs ∧ (problem i b).natAbs ≤ N) ∧
    ∀ b1, b1 < j → ∀ b2, b2 < j → (problem i b1).natAbs = (problem i b2).natAbs → b1 = b2

/-- A stream of draws on which the first value drawn for the second literal
repeats the variable of the first literal. -/
def sample_rand (n : Nat) : Nat := [0, 7, 3, 2, 9].getD n 0

end Generator

namespace WalkSAT

/-- Loop invariant of `walk_init` in the memory `mem` after `c` literals have
been stored (in the order of the flat index `a * K + b`): each of them is in
range, the cell of `pos_lit_in` or `neg_lit_in` that belongs to it holds 1, and
every cell that holds a nonzero value did so in `mem` or belongs to one of
these literals. -/
structure walk_loaded (mem : Malloc) (g : Globals) (c : Nat) : Prop where
  range : ∀ a b, b < g.K → a * g.K + b < c →
    g.Problem (a * g.K + b) ≠ 0 ∧ sym_index (g.Problem (a * g.K + b)) < g.N
  pos : ∀ a b, b < g.K → a * g.K + b < c → g.Problem (a * g.K + b) > 0 →
    g.pos_lit_in (a * g.N + sym_index (g.Problem (a * g.K + b))) = true
  neg : ∀ a b, b < g.K → a * g.K + b < c → g.Problem (a * g.K + b) < 0 →
    g.neg_lit_in (a * g.N + sym_index (g.Problem (a * g.K + b))) = true
  pos_only : ∀ x, g.pos_lit_in x = true → mem.pos_lit_in x = true ∨
    ∃ a b, b < g.K ∧ a * g.K + b < c ∧ g.Problem (a * g.K + b) > 0 ∧
      x = a * g.N + sym_index (g.Problem (a * g.K + b))
  neg_only : ∀ x, g.neg_lit_in x = true → mem.neg_lit_in x = true ∨
    ∃ a b, b < g.K ∧ a * g.K + b < c ∧ g.Problem (a * g.K + b) < 0 ∧
      x = a * g.N + sym_index (g.Problem (a * g.K + b))

/-- The test that a loop of `break_count` makes on clause `i` for the symbol
`v`: the cell of `pos_lit_in` (when `v` is true) or of `neg_lit_in` (when `v`
is false) is nonzero and the clause has exactly one true literal. -/
def breaks_at (g : Globals) (la : Nat → literal) (v i : Nat) : Bool :=
  (if (la v).truth_val then g.pos_lit_in (i * g.N + v) else g.neg_lit_in (i * g.N + v)) &&
    decide (true_lits_in g (i * g.K) la = 1)

/-- The count of `break_count` without the early return: the number of
clauses that pass its test. -/
def break_all (g : Globals) (la : Nat → literal) (v : Nat) : Nat :=
  (List.range g.M).countP (breaks_at g la v)

/-- The global `min_brk_lits` that holds the nodes `lits`, first node first:
`NULL` when there is none, else a head whose `_size` is their number. -/
def as_list_head (lits : List literal) : Option list_head :=
  if lits = [] then none else some { first := lits, size := lits.length }

/-- No clause contains the same variable twice. -/
def no_repeat (g : Globals) : Prop :=
  ∀ i, i < g.M → ∀ j1, j1 < g.K → ∀ j2, j2 < g.K →
    sym_index (g.Problem (i * g.K + j1)) = sym_index (g.Problem (i * g.K + j2)) → j1 = j2

/-- The break value of the specification: the number of clauses that are
satisfied under the assignment `la` and not satisfied once the variable `v`
alone is flipped. -/
def break_value (g : Globals) (la : Nat → literal) (v : Nat) : Nat :=
  (List.range g.M).countP fun i =>
    clause_satisfaction g (i * g.K) la && !clause_satisfaction g (i * g.K) (flip_truth_val la v)

/-- The number of clauses that the assignment `la` does not satisfy. -/
def unsat_count (g : Globals) (la : Nat → literal) : Nat :=
  (List.range g.M).countP fun i => !clause_satisfaction g (i * g.K) la

/-- The input `1 1 2 / 1 -1`. -/
def tautology : List Token := [some 1, some 1, some 2, some 1, some (-1)]

/-- The assignment in which every variable is true. -/
def all_true : Nat → literal := fun i => { lit_num := i, truth_val := true }

/-- The input `3 2 2 / 1 2 / 3 -2`. -/
def missed_freebie : List Token :=
  [some 3, some 2, some 2, some 1, some 2, some 3, some (-2)]

/-- The assignment in which every variable is false. -/
def all_false : Nat → literal := fun i => { lit_num := i, truth_val := false }

/-- The array `lit_assign` and the number of calls of `rand()` after `n`
iterations of lines 385-395 of `walksat` (clause selection, `pick_lit`, flip)
from `la` and `t`, without the test of line 375: the assignment after `n`
flips; `none` when a clause selection needs more than `draws` draws. -/
def flips (g : Globals) (env : Env) (draws : Nat) :
    Nat → (Nat → literal) → Nat → Option ((Nat → literal) × Nat)
  | 0, la, t => some (la, t)
  | n + 1, la, t =>
    match choose_clause g env la draws t with
    | none => none
    | some (clause_num, t1) =>
      match pick_lit g env (clause_num * g.K) la t1 with
      | none => none
      | some (lit, t2) => flips g env draws n (flip_truth_val la lit.lit_num) t2

/-- The input `3 3 2 / 1 3 / -1 3 / -3 2`. -/
def stall_input : List Token :=
  [some 3, some 3, some 2, some 1, some 3, some (-1), some 3, some (-3), some 2]

/-- The globals that `walk_init` builds from `stall_input` in memory that
holds zeros. -/
def stall_globals : Globals :=
  match walk_init zero_mem stall_input with
  | some g => g
  | none => { N := 0, M := 0, K := 0, Problem := fun _ => 0, pos_lit_in := fun _ => false,
              neg_lit_in := fun _ => false }

/-- A stream of draws of `rand()`: three even values for the initial
assignment; then, for 19998 iterations, by turns the draws `0`, `RAND_MAX`,
`0` (clause 0, `p = 1`, position 0) and `1`, `RAND_MAX`, `0` (clause 1,
`p = 1`, position 0); then `0`, `RAND_MAX`, `1` (clause 0, `p = 1`,
position 1) and `2`, `0` (clause 2, first node of the list). -/
def stall_rand (n : Nat) : Nat :=
  if n < 3 then 0
  else if n < 59997 then [0, 2147483647, 0, 1, 2147483647, 0].getD ((n - 3) % 6) 0
  else [0, 2147483647, 1, 2, 0].getD (n - 59997) 0

/-- The environment with the draws `stall_rand`, in which `p >= P` holds for
the draw `r` when `r / RAND_MAX >= 0.5665` (as for `RAND_MAX = 2147483647`,
where `p = 1`, and not for `0`, where `p = 0`). -/
def stall_env : Env :=
  { rand := stall_rand, noise := fun r => decide (1133 * 2147483647 ≤ 2000 * r), uninit := false }

/-- The initial assignment that `walksat` draws in `stall_env` for three
variables: all false. -/
def stall_start : Nat → literal := init_assign stall_env 3

instance (g : Globals) : Decidable (no_repeat g) := by
  unfold no_repeat
  infer_instance

end WalkSAT

/-! ## Theorems -/

namespace DPLL

open situation

theorem forced_isSome (v : Nat) (r : Option (Bool × State)) (x : Bool × State)
    (h : forced v r = some x) : ∃ y, r = some y := by
  cases r with
  | none => simp [forced] at h
  | some y => exact ⟨y, rfl⟩

/-- A larger depth bound does not change a result of `dpll`. -/
theorem dpll_succ (d : Nat) : ∀ (s : State) (r : Bool × State),
    dpll d s = some r → dpll (d + 1) s = some r := by
  induction d with
  | zero => intro s r h; simp [dpll] at h
  | succ d ih =>
    intro s r h
    rw [dpll] at h
    rw [dpll]
    split_ifs at h ⊢ with h1 h2
    · exact h
    · exact h
    · cases hp : find_pure_symbol s with
      | some p =>
        simp only [hp] at h ⊢
        obtain ⟨y, hy⟩ := forced_isSome _ _ _ h
        rw [ih _ _ hy, ← hy]; exact h
      | none =>
        simp only [hp] at h ⊢
        cases hu : find_unit_clause s with
        | some p =>
          simp only [hu] at h ⊢
          obtain ⟨y, hy⟩ := forced_isSome _ _ _ h
          rw [ih _ _ hy, ← hy]; exact h
        | none =>
          simp only [hu] at h ⊢
          cases hf : pick_first s with
          | none => simp only [hf] at h ⊢; exact h
          | some v =>
            simp only [hf] at h ⊢
            cases h3 : dpll d (unset (assign s v true) v) with
            | none => simp [h3] at h
            | some y =>
              rw [ih _ _ h3]
              rw [h3] at h
              obtain ⟨b, s2⟩ := y
              cases b with
              | true => exact h
              | false =>
                simp only at h ⊢
                obtain ⟨y, hy⟩ := forced_isSome _ _ _ h
                rw [ih _ _ hy, ← hy]; exact h

theorem dpll_mono {d e : Nat} (hde : d ≤ e) (s : State) (r : Bool × State)
    (h : dpll d s = some r) : dpll e s = some r := by
  induction e, hde using Nat.le_induction with
  | base => exact h
  | succ n _ ih => exact dpll_succ n s r ih

/-- Reading an observation back as a run of `dpll_init` and `dpll`. -/
theorem observe_run {α : Type} {toks : List Token} {d : Nat} {f : State → State → α}
    {b : Bool} {x : α} (h : observe toks d f = some (b, x)) :
    ∃ s0 s, dpll_init toks = some s0 ∧ (∀ e, d ≤ e → dpll e s0 = some (b, s)) ∧ f s0 s = x := by
  unfold observe at h
  cases h0 : dpll_init toks with
  | none => simp [h0] at h
  | some s0 =>
    cases h1 : dpll d s0 with
    | none => simp [h0, h1] at h
    | some r =>
      obtain ⟨b1, s⟩ := r
      simp [h0, h1] at h
      obtain ⟨hb, hx⟩ := h
      subst hb
      exact ⟨s0, s, rfl, fun e he => dpll_mono he s0 _ h1, hx⟩

/-- C1 (the code breaks it): `dpll_init` accepts `1 2 2 / 1 1 / -1 -1`, `dpll`
returns 1 on the loaded state for every depth bound from 3 on, `write_to_file`
prints `-1` for P1, and these truth values do not make a literal of every
clause true (the clause `1 1` is false). -/
theorem dpll_unsound_on_scenario2 :
    ∃ s0 s, dpll_init scenario2 = some s0 ∧ (∀ d, 3 ≤ d → dpll d s0 = some (true, s)) ∧
      write_to_file s = [-1] ∧ satisfies s0 s.truth_val = false := by
  have h : observe scenario2 3 (fun s0 s => (write_to_file s, satisfies s0 s.truth_val))
      = some (true, ([-1], false)) := by decide
  obtain ⟨s0, s, h0, h1, h2⟩ := observe_run h
  simp only [Prod.mk.injEq] at h2
  exact ⟨s0, s, h0, h1, h2.1, h2.2⟩

/-- C2 (the code breaks it): no truth assignment satisfies the formula
`1 2 2 / 1 1 / -1 -1`, which `dpll_init` accepts, and `dpll` returns 1 (SAT)
on the loaded state for every depth bound from 3 on. -/
theorem dpll_sat_on_unsatisfiable_scenario2 :
    ∃ s0 s, dpll_init scenario2 = some s0 ∧ (∀ a, satisfies s0 a = false) ∧
      ∀ d, 3 ≤ d → dpll d s0 = some (true, s) := by
  have h : observe scenario2 3
      (fun s0 _ => ([s0.M, s0.K],
        [s0.literals 0 0, s0.literals 0 1, s0.literals 1 0, s0.literals 1 1]))
      = some (true, ([2, 2], [1, 1, -1, -1])) := by decide
  obtain ⟨s0, s, h0, h1, h2⟩ := observe_run h
  simp only [Prod.mk.injEq, List.cons.injEq, and_true] at h2
  obtain ⟨⟨hM, hK⟩, l00, l01, l10, l11⟩ := h2
  refine ⟨s0, s, h0, ?_, h1⟩
  intro a
  cases ha : a 0 <;>
    simp [satisfies, hM, hK, List.range_succ, l00, l01, l10, l11, sym_index, lit_truth, ha]

/-- C6: on `2 2 2 / 1 2 / -1 -2` `dpll` returns 1 for every depth bound from 3
on, the truth values it leaves are P1 = true, P2 = false (one of the two
assignments the scenario allows; `write_to_file` prints `1 -1`), and they make
a literal of both clauses true. -/
theorem dpll_scenario1 :
    ∃ s0 s, dpll_init scenario1 = some s0 ∧ (∀ d, 3 ≤ d → dpll d s0 = some (true, s)) ∧
      ((s.truth_val 0 = true ∧ s.truth_val 1 = false) ∨
        (s.truth_val 0 = false ∧ s.truth_val 1 = true)) ∧
      write_to_file s = [1, -1] ∧ satisfies s0 s.truth_val = true := by
  have h : observe scenario1 3
      (fun s0 s => (s.truth_val 0, s.truth_val 1, write_to_file s, satisfies s0 s.truth_val))
      = some (true, (true, false, [1, -1], true)) := by decide
  obtain ⟨s0, s, h0, h1, h2⟩ := observe_run h
  simp only [Prod.mk.injEq] at h2
  exact ⟨s0, s, h0, h1, Or.inl ⟨h2.1, h2.2.1⟩, h2.2.2.1, h2.2.2.2⟩

/-- C9 (as stated, false): on `2 1 2 / 1 2` `dpll` returns 1 for every depth
bound from 2 on and leaves variable 2 not assigned (`_assigned = 0`);
`write_to_file` prints `1 -1`, the `-1` being the zero of `calloc`. -/
theorem dpll_sat_leaves_unassigned :
    ∃ s0 s, dpll_init one_clause = some s0 ∧ (∀ d, 2 ≤ d → dpll d s0 = some (true, s)) ∧
      s0.N = 2 ∧ s.assigned 1 = false ∧ write_to_file s = [1, -1] := by
  have h : observe one_clause 2 (fun s0 s => (s0.N, s.assigned 1, write_to_file s))
      = some (true, (2, false, [1, -1])) := by decide
  obtain ⟨s0, s, h0, h1, h2⟩ := observe_run h
  simp only [Prod.mk.injEq] at h2
  exact ⟨s0, s, h0, h1, h2.1, h2.2.1, h2.2.2⟩

theorem lit_truth_not (b : Bool) (lit : Int) (h : lit ≠ 0) :
    lit_truth (!b) lit = !lit_truth b lit := by
  unfold lit_truth
  rcases lt_trichotomy lit 0 with h1 | h1 | h1
  · have : ¬ lit > 0 := by omega
    cases b <;> simp [h1, this]
  · exact absurd h1 h
  · have : ¬ lit < 0 := by omega
    cases b <;> simp [h1, this]

theorem unset_range (v : Nat) (s : State) (n : Nat) :
    (List.range n).foldl (unset_clause v) s =
      { s with
        clause_situation := fun i =>
          if i < n ∧ s.in_clauses v i = true ∧
              lit_truth (s.truth_val v) (s.literals i (s.in_clauses_loc v i)) = true
          then UNSET else s.clause_situation i
        lit_situation := fun i j =>
          if i < n ∧ s.in_clauses v i = true ∧ j = s.in_clauses_loc v i ∧
              lit_truth (!s.truth_val v) (s.literals i (s.in_clauses_loc v i)) = true
          then UNSET else s.lit_situation i j } := by
  induction n with
  | zero => simp
  | succ n ih =>
    rw [List.range_succ, List.foldl_append, ih]
    simp only [List.foldl_cons, List.foldl_nil, unset_clause]
    cases h1 : s.in_clauses v n with
    | false =>
      simp only [Bool.false_eq_true, if_false]
      congr 1
      · funext i j
        by_cases hi : i = n
        · subst hi; simp [h1]
        · have : i < n + 1 ↔ i < n := by omega
          simp [this]
      · funext i
        by_cases hi : i = n
        · subst hi; simp [h1]
        · have : i < n + 1 ↔ i < n := by omega
          simp [this]
    | true =>
      cases h2 : s.truth_val v <;>
      by_cases h3 : s.literals n (s.in_clauses_loc v n) > 0 <;>
      by_cases h4 : s.literals n (s.in_clauses_loc v n) < 0 <;>
      first
      | omega
      | (simp only [h3, h4, if_true, if_false, Bool.false_eq_true]
         congr 1
         · funext i j
           by_cases hi : i = n
           · subst hi; by_cases hj : j = s.in_clauses_loc v i <;> simp [h1, h2, h3, h4, hj, lit_truth, upd2]
           · have : i < n + 1 ↔ i < n := by omega
             simp [this, upd2, hi]
         · funext i
           by_cases hi : i = n
           · subst hi; simp [h1, h2, h3, h4, lit_truth, upd]
           · have : i < n + 1 ↔ i < n := by omega
             simp [this, upd, hi])

theorem lit_truth_true (lit : Int) : lit_truth true lit = decide (lit > 0) := by
  simp [lit_truth]

theorem lit_truth_false (lit : Int) : lit_truth false lit = decide (lit < 0) := by
  simp [lit_truth]

theorem set_range (v : Nat) (s : State) (n : Nat) :
    (List.range n).foldl (set_clause v) s =
      { s with
        clause_situation := fun i =>
          if i < n ∧ s.in_clauses v i = true ∧
              lit_truth (s.truth_val v) (s.literals i (s.in_clauses_loc v i)) = true ∧
              true_lit_num s i = 1
          then SET else s.clause_situation i
        lit_situation := fun i j =>
          if i < n ∧ s.in_clauses v i = true ∧ j = s.in_clauses_loc v i ∧
              lit_truth (!s.truth_val v) (s.literals i (s.in_clauses_loc v i)) = true
          then SET else s.lit_situation i j } := by
  induction n with
  | zero => simp
  | succ n ih =>
    rw [List.range_succ, List.foldl_append, ih]
    simp only [List.foldl_cons, List.foldl_nil, set_clause, true_lit_num]
    cases h1 : s.in_clauses v n with
    | false =>
      simp only [Bool.false_eq_true, if_false]
      congr 1
      · funext i j
        by_cases hi : i = n
        · subst hi; simp [h1]
        · have : i < n + 1 ↔ i < n := by omega
          simp [this]
      · funext i
        by_cases hi : i = n
        · subst hi; simp [h1]
        · have : i < n + 1 ↔ i < n := by omega
          simp [this]
    | true =>
      by_cases h5 : (List.countP (fun i_1 => s.assigned (sym_index (s.literals n i_1)) &&
                  lit_truth (s.truth_val (sym_index (s.literals n i_1))) (s.literals n i_1))
                  (List.range s.K)) = 1 <;>
      cases h2 : s.truth_val v <;>
      by_cases h3 : s.literals n (s.in_clauses_loc v n) > 0 <;>
      by_cases h4 : s.literals n (s.in_clauses_loc v n) < 0 <;>
      first
      | omega
      | (simp only [h3, h4, h5, if_true, if_false, Bool.false_eq_true, true_and, false_and,
           and_true, and_false]
         congr 1
         · funext i j
           by_cases hi : i = n
           · subst hi
             by_cases hj : j = s.in_clauses_loc v i <;>
             simp [h1, h2, h3, h4, h5, hj, lit_truth_true, lit_truth_false, upd2, true_lit_num]
           · have : i < n + 1 ↔ i < n := by omega
             simp [this, upd2, hi]
         · funext i
           by_cases hi : i = n
           · subst hi
             simp [h1, h2, h3, h4, h5, lit_truth_true, lit_truth_false, upd, true_lit_num]
           · have : i < n + 1 ↔ i < n := by omega
             simp [this, upd, hi])


theorem unset_eq (s : State) (v : Nat) :
    unset s v =
      { s with
        clause_situation := fun i =>
          if i < s.M ∧ s.in_clauses v i = true ∧
              lit_truth (s.truth_val v) (s.literals i (s.in_clauses_loc v i)) = true
          then UNSET else s.clause_situation i
        lit_situation := fun i j =>
          if i < s.M ∧ s.in_clauses v i = true ∧ j = s.in_clauses_loc v i ∧
              lit_truth (!s.truth_val v) (s.literals i (s.in_clauses_loc v i)) = true
          then UNSET else s.lit_situation i j } :=
  unset_range v s s.M

theorem set_eq (s : State) (v : Nat) :
    set s v =
      { s with
        clause_situation := fun i =>
          if i < s.M ∧ s.in_clauses v i = true ∧
              lit_truth (s.truth_val v) (s.literals i (s.in_clauses_loc v i)) = true ∧
              true_lit_num s i = 1
          then SET else s.clause_situation i
        lit_situation := fun i j =>
          if i < s.M ∧ s.in_clauses v i = true ∧ j = s.in_clauses_loc v i ∧
              lit_truth (!s.truth_val v) (s.literals i (s.in_clauses_loc v i)) = true
          then SET else s.lit_situation i j } :=
  set_range v s s.M

theorem situation_ne_set (x : situation) : x ≠ SET ↔ x = UNSET := by
  cases x <;> simp

theorem situation_ne_unset (x : situation) : x ≠ UNSET ↔ x = SET := by
  cases x <;> simp

theorem loc_unique {s : State} (wf : well_formed s) (nr : no_repeat s) {i j : Nat}
    (hi : i < s.M) (hj : j < s.K) :
    s.in_clauses (sym_index (s.literals i j)) i = true ∧
      s.in_clauses_loc (sym_index (s.literals i j)) i = j := by
  have h1 : s.in_clauses (sym_index (s.literals i j)) i = true :=
    (wf.in_iff _ i hi).2 ⟨j, hj, rfl⟩
  exact ⟨h1, nr i hi _ (wf.loc_lt _ i hi h1) j hj (wf.loc_sym _ i hi h1)⟩

theorem inv_assign_unset {s : State} (wf : well_formed s) (nr : no_repeat s)
    (inv : clause_state_inv s) (v : Nat) (b : Bool) (hv : s.assigned v = false) :
    clause_state_inv (unset (assign s v b) v) := by
  rw [unset_eq]
  constructor
  · intro i hi j hj
    simp only [assign] at hi hj ⊢
    obtain ⟨hin, hloc⟩ := loc_unique wf nr hi hj
    by_cases hvj : sym_index (s.literals i j) = v
    · rw [hvj] at hin hloc
      have hne := wf.lit_ne i hi j hj
      have hold := (inv.lit i hi j hj)
      rw [hvj, hv] at hold
      simp only [hvj, upd, if_true, hloc, hin, hi, true_and, lit_truth_not b _ hne]
      cases hb : lit_truth b (s.literals i j)
      · simp
      · simp
        intro h; simp [h] at hold
    · have hnl : ¬ (j = s.in_clauses_loc v i ∧ s.in_clauses v i = true) := by
        rintro ⟨h1, h2⟩
        apply hvj
        rw [h1]; exact wf.loc_sym v i hi h2
      have hold := (inv.lit i hi j hj)
      rw [if_neg (fun h5 => hnl ⟨h5.2.2.1, h5.2.1⟩)]
      simp only [upd, hvj, if_false]
      exact hold
  · intro i hi
    simp only [assign] at hi ⊢
    have hold := inv.clause i hi
    by_cases hit : s.in_clauses v i = true ∧
        lit_truth (upd s.truth_val v b v) (s.literals i (s.in_clauses_loc v i)) = true
    · simp only [hi, hit, and_self, if_true, true_iff]
      refine ⟨s.in_clauses_loc v i, wf.loc_lt v i hi hit.1, ?_, ?_⟩
      · rw [wf.loc_sym v i hi hit.1]; simp [upd]
      · rw [wf.loc_sym v i hi hit.1]; exact hit.2
    · rw [if_neg (by tauto)]
      rw [hold]
      constructor
      · rintro ⟨j, hj, ha, ht⟩
        have hvj : sym_index (s.literals i j) ≠ v := by
          intro h; rw [h, hv] at ha; exact absurd ha (by simp)
        exact ⟨j, hj, by simp [upd, hvj, ha], by simp [upd, hvj, ht]⟩
      · rintro ⟨j, hj, ha, ht⟩
        by_cases hvj : sym_index (s.literals i j) = v
        · exfalso
          obtain ⟨hin, hloc⟩ := loc_unique wf nr hi hj
          rw [hvj] at hin hloc
          apply hit
          refine ⟨hin, ?_⟩
          rw [hloc]
          rw [hvj] at ht
          exact ht
        · simp only [upd, hvj, if_false] at ha ht
          exact ⟨j, hj, ha, ht⟩



theorem countP_range_eq_one (p : Nat → Bool) (K j0 : Nat) (h0 : j0 < K) (hp : p j0 = true) :
    (List.range K).countP p = 1 ↔ ∀ j, j < K → p j = true → j = j0 := by
  constructor
  · intro h j hj hpj
    rw [List.countP_eq_length_filter, List.length_eq_one] at h
    obtain ⟨a, ha⟩ := h
    have m0 : j0 ∈ (List.range K).filter p := List.mem_filter.2 ⟨List.mem_range.2 h0, hp⟩
    have m1 : j ∈ (List.range K).filter p := List.mem_filter.2 ⟨List.mem_range.2 hj, hpj⟩
    rw [ha] at m0 m1
    simp at m0 m1
    omega
  · intro h
    have : (List.range K).countP p = (List.range K).count j0 := by
      unfold List.count
      apply List.countP_congr
      intro x hx
      rw [List.mem_range] at hx
      constructor
      · intro hx2; simp [h x hx hx2]
      · intro hx2
        have : x = j0 := by simpa using hx2
        rw [this]; exact hp
    rw [this]
    exact List.count_eq_one_of_mem (List.nodup_range K) (List.mem_range.2 h0)


theorem inv_backtrack {s : State} (wf : well_formed s) (nr : no_repeat s)
    (inv : clause_state_inv s) (v : Nat) (hv : s.assigned v = true) :
    clause_state_inv (backtrack s v) := by
  unfold backtrack
  rw [set_eq]
  constructor
  · intro i hi j hj
    simp only at hi hj ⊢
    obtain ⟨hin, hloc⟩ := loc_unique wf nr hi hj
    have hold := inv.lit i hi j hj
    by_cases hvj : sym_index (s.literals i j) = v
    · rw [hvj] at hin hloc hold
      have hne := wf.lit_ne i hi j hj
      simp only [hvj, upd, if_true, hloc, hin, hi, true_and, lit_truth_not _ _ hne]
      cases hb : lit_truth (s.truth_val v) (s.literals i j)
      · simp
      · simp
        rw [hb] at hold
        simpa using hold
    · have hnl : ¬ (j = s.in_clauses_loc v i ∧ s.in_clauses v i = true) := by
        rintro ⟨h1, h2⟩
        apply hvj
        rw [h1]; exact wf.loc_sym v i hi h2
      rw [if_neg (fun h5 => hnl ⟨h5.2.2.1, h5.2.1⟩)]
      simp only [upd, hvj, if_false]
      exact hold
  · intro i hi
    simp only at hi ⊢
    have hold := inv.clause i hi
    have hup : ∀ j, j < s.K →
        ((upd s.assigned v false (sym_index (s.literals i j)) = true ∧
          lit_truth (s.truth_val (sym_index (s.literals i j))) (s.literals i j) = true) ↔
        (sym_index (s.literals i j) ≠ v ∧ s.assigned (sym_index (s.literals i j)) = true ∧
          lit_truth (s.truth_val (sym_index (s.literals i j))) (s.literals i j) = true)) := by
      intro j _
      by_cases hvj : sym_index (s.literals i j) = v <;> simp [upd, hvj]
    by_cases hA : s.in_clauses v i = true ∧
        lit_truth (s.truth_val v) (s.literals i (s.in_clauses_loc v i)) = true
    · have hl := wf.loc_lt v i hi hA.1
      have hs := wf.loc_sym v i hi hA.1
      have hp : (fun j => s.assigned (sym_index (s.literals i j)) &&
          lit_truth (s.truth_val (sym_index (s.literals i j))) (s.literals i j))
            (s.in_clauses_loc v i) = true := by
        simp only [hs, hv, hA.2, Bool.and_self]
      have hc := countP_range_eq_one (fun j => s.assigned (sym_index (s.literals i j)) &&
          lit_truth (s.truth_val (sym_index (s.literals i j))) (s.literals i j)) s.K _ hl hp
      by_cases h1 : true_lit_num s i = 1
      · rw [if_pos ⟨hi, hA.1, hA.2, h1⟩]
        simp only [reduceCtorEq, false_iff, not_exists, not_and]
        intro j hj ha ht
        obtain ⟨hne, ha2, ht2⟩ := (hup j hj).1 ⟨ha, ht⟩
        have := (hc.1 h1) j hj (by simp [ha2, ht2])
        apply hne
        rw [this]; exact hs
      · rw [if_neg (fun h5 => h1 h5.2.2.2)]
        rw [hold]
        constructor
        · intro _
          have h2 : ¬ ∀ j, j < s.K → (fun j => s.assigned (sym_index (s.literals i j)) &&
              lit_truth (s.truth_val (sym_index (s.literals i j))) (s.literals i j)) j = true →
                j = s.in_clauses_loc v i := fun h => h1 (hc.2 h)
          push_neg at h2
          obtain ⟨j, hj, hpj, hjne⟩ := h2
          simp only [Bool.and_eq_true] at hpj
          refine ⟨j, hj, (hup j hj).2 ⟨?_, hpj.1, hpj.2⟩⟩
          intro hvj
          apply hjne
          have := (loc_unique wf nr hi hj).2
          rw [hvj] at this
          exact this.symm
        · rintro ⟨j, hj, ha, ht⟩
          obtain ⟨_, ha2, ht2⟩ := (hup j hj).1 ⟨ha, ht⟩
          exact ⟨j, hj, ha2, ht2⟩
    · rw [if_neg (fun h5 => hA ⟨h5.2.1, h5.2.2.1⟩)]
      rw [hold]
      constructor
      · rintro ⟨j, hj, ha, ht⟩
        refine ⟨j, hj, (hup j hj).2 ⟨?_, ha, ht⟩⟩
        intro hvj
        apply hA
        obtain ⟨hin, hloc⟩ := loc_unique wf nr hi hj
        rw [hvj] at hin hloc
        refine ⟨hin, ?_⟩
        rw [hloc]
        rw [hvj] at ht
        exact ht
      · rintro ⟨j, hj, ha, ht⟩
        obtain ⟨_, ha2, ht2⟩ := (hup j hj).1 ⟨ha, ht⟩
        exact ⟨j, hj, ha2, ht2⟩

theorem empty_iff (s : State) :
    empty s = true ↔ ∀ i, i < s.M → s.clause_situation i = UNSET := by
  simp only [empty, Bool.not_eq_true', List.any_eq_false, List.mem_range, decide_eq_true_eq]
  constructor
  · intro h i hi; exact (situation_ne_set _).1 (h i hi)
  · intro h i hi; exact (situation_ne_set _).2 (h i hi)

theorem false_exists_iff (s : State) :
    false_exists s = true ↔
      ∃ i, i < s.M ∧ s.clause_situation i = SET ∧ ∀ j, j < s.K → s.lit_situation i j = UNSET := by
  simp only [false_exists, List.any_eq_true, List.mem_range, Bool.and_eq_true, decide_eq_true_eq,
    Bool.not_eq_true', List.any_eq_false]
  constructor
  · rintro ⟨i, hi, h1, h2⟩
    exact ⟨i, hi, h1, fun j hj => (situation_ne_set _).1 (h2 j hj)⟩
  · rintro ⟨i, hi, h1, h2⟩
    exact ⟨i, hi, h1, fun j hj => (situation_ne_set _).2 (h2 j hj)⟩

theorem pick_first_some {s : State} {v : Nat} (h : pick_first s = some v) :
    v < s.N ∧ s.assigned v = false := by
  unfold pick_first at h
  have h1 := List.mem_of_find?_eq_some h
  have h2 := List.find?_some h
  exact ⟨List.mem_range.1 h1, by simpa using h2⟩

theorem pick_first_none {s : State} (h : pick_first s = none) :
    ∀ v, v < s.N → s.assigned v = true := by
  unfold pick_first at h
  rw [List.find?_eq_none] at h
  intro v hv
  simpa using h v (List.mem_range.2 hv)

theorem first_occurence_some {s : State} {v : Nat} {lit : Int}
    (h : first_occurence s v = some lit) :
    ∃ i, i < s.M ∧ s.clause_situation i = SET ∧ s.in_clauses v i = true ∧
      lit = s.literals i (s.in_clauses_loc v i) := by
  unfold first_occurence at h
  rw [Option.map_eq_some'] at h
  obtain ⟨i, h1, h2⟩ := h
  have h3 := List.mem_of_find?_eq_some h1
  have h4 := List.find?_some h1
  simp only [Bool.and_eq_true, decide_eq_true_eq] at h4
  exact ⟨i, List.mem_range.1 h3, h4.1, h4.2, h2.symm⟩

theorem pure_scan_iff (s : State) (v : Nat) (lit : Int) :
    pure_scan s v lit = true ↔
      ∀ j, j < s.M → s.clause_situation j = SET → s.in_clauses v j = true →
        s.literals j (s.in_clauses_loc v j) = lit := by
  simp only [pure_scan, Bool.not_eq_true', List.any_eq_false, List.mem_range, Bool.and_eq_true,
    decide_eq_true_eq, not_and, and_imp, ne_eq, Decidable.not_not]
  constructor
  · intro h j hj h1 h2; exact (h j hj h1 h2).symm
  · intro h j hj h1 h2; exact (h j hj h1 h2).symm

theorem find_pure_symbol_loop_some {s : State} {v : Nat} {s1 : State} :
    ∀ (l : List Nat), find_pure_symbol_loop s l = some (v, s1) →
      v ∈ l ∧ s.assigned v = false ∧
        ∃ lit, first_occurence s v = some lit ∧ pure_scan s v lit = true ∧
          s1 = assign s v (decide (lit > 0)) := by
  intro l
  induction l with
  | nil => intro h; simp [find_pure_symbol_loop] at h
  | cons i is ih =>
    intro h
    rw [find_pure_symbol_loop] at h
    have rec : find_pure_symbol_loop s is = some (v, s1) →
        v ∈ i :: is ∧ s.assigned v = false ∧
        ∃ lit, first_occurence s v = some lit ∧ pure_scan s v lit = true ∧
          s1 = assign s v (decide (lit > 0)) := by
      intro h'
      obtain ⟨a, b⟩ := ih h'
      exact ⟨List.mem_cons_of_mem _ a, b⟩
    cases ha : s.assigned i with
    | true => simp only [ha, Bool.not_true, Bool.false_eq_true, if_false] at h; exact rec h
    | false =>
      simp only [ha, Bool.not_false, if_true] at h
      cases hf : first_occurence s i with
      | none => simp only [hf] at h; exact rec h
      | some lit =>
        simp only [hf] at h
        cases hp : pure_scan s i lit with
        | false => simp only [hp, Bool.false_eq_true, if_false] at h; exact rec h
        | true =>
          simp only [hp, if_true, Option.some.injEq, Prod.mk.injEq] at h
          obtain ⟨h1, h2⟩ := h
          subst h1
          exact ⟨List.mem_cons_self _ _, ha, lit, hf, hp, h2.symm⟩

theorem find_pure_symbol_some {s : State} {v : Nat} {s1 : State}
    (h : find_pure_symbol s = some (v, s1)) :
    v < s.N ∧ s.assigned v = false ∧
      ∃ lit, first_occurence s v = some lit ∧ pure_scan s v lit = true ∧
        s1 = assign s v (decide (lit > 0)) := by
  obtain ⟨a, b⟩ := find_pure_symbol_loop_some _ h
  exact ⟨List.mem_range.1 a, b⟩

theorem unit_scan_one (s : State) (i : Nat) :
    ∀ (js : List Nat) (lit lit' : Int), unit_scan s i js 1 lit = (1, lit') →
      lit' = lit ∧ ∀ j, j ∈ js → s.lit_situation i j = UNSET := by
  intro js
  induction js with
  | nil => intro lit lit' h; simp [unit_scan] at h; exact ⟨h.symm, by simp⟩
  | cons j js ih =>
    intro lit lit' h
    rw [unit_scan] at h
    cases hs : s.lit_situation i j with
    | SET => simp [hs] at h
    | UNSET =>
      simp only [hs, reduceCtorEq, if_false] at h
      obtain ⟨h1, h2⟩ := ih lit lit' h
      refine ⟨h1, ?_⟩
      intro j' hj'
      rcases List.mem_cons.1 hj' with h3 | h3
      · rw [h3]; exact hs
      · exact h2 j' h3

theorem unit_scan_zero (s : State) (i : Nat) :
    ∀ (js : List Nat) (lit lit' : Int), js.Nodup → unit_scan s i js 0 lit = (1, lit') →
      ∃ j, j ∈ js ∧ s.lit_situation i j = SET ∧ lit' = s.literals i j ∧
        ∀ j', j' ∈ js → j' ≠ j → s.lit_situation i j' = UNSET := by
  intro js
  induction js with
  | nil => intro lit lit' _ h; simp [unit_scan] at h
  | cons j js ih =>
    intro lit lit' nd h
    rw [unit_scan] at h
    rw [List.nodup_cons] at nd
    cases hs : s.lit_situation i j with
    | SET =>
      simp only [hs, if_true, zero_add] at h
      obtain ⟨h1, h2⟩ := unit_scan_one s i js _ _ h
      refine ⟨j, List.mem_cons_self _ _, hs, h1, ?_⟩
      intro j' hj' hne
      rcases List.mem_cons.1 hj' with h3 | h3
      · exact absurd h3 hne
      · exact h2 j' h3
    | UNSET =>
      simp only [hs, reduceCtorEq, if_false] at h
      obtain ⟨j0, h1, h2, h3, h4⟩ := ih lit lit' nd.2 h
      refine ⟨j0, List.mem_cons_of_mem _ h1, h2, h3, ?_⟩
      intro j' hj' hne
      rcases List.mem_cons.1 hj' with h5 | h5
      · rw [h5]; exact hs
      · exact h4 j' h5 hne

theorem find_unit_clause_loop_some {s : State} {v : Nat} {s1 : State} :
    ∀ (l : List Nat), find_unit_clause_loop s l = some (v, s1) →
      ∃ i, i ∈ l ∧ s.clause_situation i = SET ∧
        ∃ j, j < s.K ∧ s.lit_situation i j = SET ∧ v = sym_index (s.literals i j) ∧
          s1 = assign s v (decide (s.literals i j > 0)) ∧
          ∀ j', j' < s.K → j' ≠ j → s.lit_situation i j' = UNSET := by
  intro l
  induction l with
  | nil => intro h; simp [find_unit_clause_loop] at h
  | cons i is ih =>
    intro h
    rw [find_unit_clause_loop] at h
    have rec : find_unit_clause_loop s is = some (v, s1) →
        ∃ i', i' ∈ i :: is ∧ s.clause_situation i' = SET ∧
        ∃ j, j < s.K ∧ s.lit_situation i' j = SET ∧ v = sym_index (s.literals i' j) ∧
          s1 = assign s v (decide (s.literals i' j > 0)) ∧
          ∀ j', j' < s.K → j' ≠ j → s.lit_situation i' j' = UNSET := by
      intro h'
      obtain ⟨i', a, b⟩ := ih h'
      exact ⟨i', List.mem_cons_of_mem _ a, b⟩
    cases hc : s.clause_situation i with
    | UNSET => simp only [hc, reduceCtorEq, if_false] at h; exact rec h
    | SET =>
      simp only [hc, if_true] at h
      by_cases hu : (unit_scan s i (List.range s.K) 0 0).1 = 1
      · simp only [hu, if_true, Option.some.injEq, Prod.mk.injEq] at h
        obtain ⟨h1, h2⟩ := h
        have hu2 : unit_scan s i (List.range s.K) 0 0 =
            (1, (unit_scan s i (List.range s.K) 0 0).2) := by
          rw [← hu]
        obtain ⟨j, hj, hs, hl, hrest⟩ := unit_scan_zero s i _ _ _ (List.nodup_range _) hu2
        rw [hl] at h1 h2
        refine ⟨i, List.mem_cons_self _ _, hc, j, List.mem_range.1 hj, hs, h1.symm, ?_, ?_⟩
        · rw [← h2, ← h1]; rfl
        · intro j' hj' hne; exact hrest j' (List.mem_range.2 hj') hne
      · simp only [hu, if_false] at h; exact rec h

theorem find_unit_clause_some {s : State} {v : Nat} {s1 : State}
    (h : find_unit_clause s = some (v, s1)) :
    ∃ i, i < s.M ∧ s.clause_situation i = SET ∧
      ∃ j, j < s.K ∧ s.lit_situation i j = SET ∧ v = sym_index (s.literals i j) ∧
        s1 = assign s v (decide (s.literals i j > 0)) ∧
        ∀ j', j' < s.K → j' ≠ j → s.lit_situation i j' = UNSET := by
  obtain ⟨i, a, b⟩ := find_unit_clause_loop_some _ h
  exact ⟨i, List.mem_range.1 a, b⟩

theorem same_formula_refl (s : State) : same_formula s s := ⟨rfl, rfl, rfl, rfl, rfl, rfl⟩

theorem same_formula_trans {s t u : State} (h1 : same_formula s t) (h2 : same_formula t u) :
    same_formula s u :=
  ⟨h2.N.trans h1.N, h2.M.trans h1.M, h2.K.trans h1.K, h2.literals.trans h1.literals,
    h2.in_clauses.trans h1.in_clauses, h2.in_clauses_loc.trans h1.in_clauses_loc⟩

theorem same_formula_symm {s t : State} (h : same_formula s t) : same_formula t s :=
  ⟨h.N.symm, h.M.symm, h.K.symm, h.literals.symm, h.in_clauses.symm, h.in_clauses_loc.symm⟩

theorem same_formula_assign (s : State) (v : Nat) (b : Bool) : same_formula s (assign s v b) :=
  ⟨rfl, rfl, rfl, rfl, rfl, rfl⟩

theorem same_formula_unset (s : State) (v : Nat) : same_formula s (unset s v) := by
  rw [unset_eq]; exact ⟨rfl, rfl, rfl, rfl, rfl, rfl⟩

theorem same_formula_backtrack (s : State) (v : Nat) : same_formula s (backtrack s v) := by
  unfold backtrack; rw [set_eq]; exact ⟨rfl, rfl, rfl, rfl, rfl, rfl⟩

theorem unset_assigned (s : State) (v : Nat) : (unset s v).assigned = s.assigned := by
  rw [unset_eq]

theorem unset_truth_val (s : State) (v : Nat) : (unset s v).truth_val = s.truth_val := by
  rw [unset_eq]

theorem backtrack_assigned (s : State) (v : Nat) :
    (backtrack s v).assigned = upd s.assigned v false := by
  unfold backtrack; rw [set_eq]

theorem backtrack_truth_val (s : State) (v : Nat) :
    (backtrack s v).truth_val = s.truth_val := by
  unfold backtrack; rw [set_eq]

theorem well_formed_congr {s t : State} (h : same_formula s t) (wf : well_formed s) :
    well_formed t := by
  obtain ⟨hN, hM, hK, hl, hi, hc⟩ := h
  constructor
  · intro i hi' j hj; rw [hl]; rw [hM] at hi'; rw [hK] at hj; exact wf.lit_ne i hi' j hj
  · intro i hi' j hj; rw [hl, hN]; rw [hM] at hi'; rw [hK] at hj; exact wf.lit_lt i hi' j hj
  · intro v i hi'; rw [hl, hi, hK]; rw [hM] at hi'; exact wf.in_iff v i hi'
  · intro v i hi' h2; rw [hc, hK]; rw [hM] at hi'; rw [hi] at h2; exact wf.loc_lt v i hi' h2
  · intro v i hi' h2; rw [hc, hl]; rw [hM] at hi'; rw [hi] at h2; exact wf.loc_sym v i hi' h2

theorem no_repeat_congr {s t : State} (h : same_formula s t) (nr : no_repeat s) :
    no_repeat t := by
  obtain ⟨hN, hM, hK, hl, hi, hc⟩ := h
  intro i hi' j1 h1 j2 h2
  rw [hl]; rw [hM] at hi'; rw [hK] at h1 h2
  exact nr i hi' j1 h1 j2 h2

theorem satisfies_congr {s t : State} (h : same_formula s t) (a : Nat → Bool) :
    satisfies t a = satisfies s a := by
  obtain ⟨hN, hM, hK, hl, hi, hc⟩ := h
  unfold satisfies
  rw [hM, hK, hl]

theorem satisfies_iff (s : State) (a : Nat → Bool) :
    satisfies s a = true ↔ ∀ i, i < s.M → ∃ j, j < s.K ∧
      lit_truth (a (sym_index (s.literals i j))) (s.literals i j) = true := by
  simp [satisfies, List.all_eq_true, List.any_eq_true]

theorem lit_truth_eq_true_iff (b : Bool) (lit : Int) (h : lit ≠ 0) :
    lit_truth b lit = true ↔ b = decide (lit > 0) := by
  unfold lit_truth
  rcases lt_trichotomy lit 0 with h1 | h1 | h1
  · have : ¬ lit > 0 := by omega
    cases b <;> simp [h1, this]
  · exact absurd h1 h
  · have : ¬ lit < 0 := by omega
    cases b <;> simp [h1, this]

/-- One forced or tried assignment of `dpll`: assign `bv` to the unassigned
symbol `v`, call `unset`, recurse, and undo on failure. -/
theorem forced_step (d : Nat)
    (IH : ∀ s, well_formed s → no_repeat s → clause_state_inv s → ∀ b s',
      dpll d s = some (b, s') → dpll_post s b s' (fun _ => True))
    {s : State} (wf : well_formed s) (nr : no_repeat s) (inv : clause_state_inv s)
    (v : Nat) (hv : s.assigned v = false) (bv : Bool) (b : Bool) (s' : State)
    (h : forced v (dpll d (unset (assign s v bv) v)) = some (b, s')) :
    dpll_post s b s' (fun a => a v = bv) := by
  have sf1 : same_formula s (unset (assign s v bv) v) :=
    same_formula_trans (same_formula_assign s v bv) (same_formula_unset _ v)
  have inv1 := inv_assign_unset wf nr inv v bv hv
  cases hr : dpll d (unset (assign s v bv) v) with
  | none => rw [hr] at h; simp [forced] at h
  | some r =>
    obtain ⟨r, s2⟩ := r
    have post := IH _ (well_formed_congr sf1 wf) (no_repeat_congr sf1 nr) inv1 r s2 hr
    rw [hr] at h
    cases r with
    | true =>
      simp only [forced, Option.some.injEq, Prod.mk.injEq] at h
      obtain ⟨hb, hs⟩ := h
      subst hb; subst hs
      refine ⟨same_formula_trans sf1 post.same, post.inv, ?_, by simp, by simp, by simp⟩
      intro _ i hi
      exact post.sat rfl i (by rw [sf1.M]; exact hi)
    | false =>
      simp only [forced, Option.some.injEq, Prod.mk.injEq] at h
      obtain ⟨hb, hs⟩ := h
      subst hb; subst hs
      have sf2 := same_formula_trans sf1 post.same
      have ha2 : ∀ u, s2.assigned u = upd s.assigned v true u := by
        intro u
        rw [post.assigned_eq rfl u, unset_assigned]
        rfl
      have hv2 : s2.assigned v = true := by rw [ha2]; simp [upd]
      refine ⟨same_formula_trans sf2 (same_formula_backtrack s2 v),
        inv_backtrack (well_formed_congr sf2 wf) (no_repeat_congr sf2 nr) post.inv v hv2,
        by simp, ?_, ?_, ?_⟩
      · intro _ u
        rw [backtrack_assigned]
        by_cases huv : u = v
        · subst huv; simp [upd, hv]
        · simp only [upd, huv, if_false]
          rw [ha2]; simp [upd, huv]
      · intro _ u hu
        have huv : u ≠ v := by
          intro h; rw [h, hv] at hu; exact absurd hu (by simp)
        rw [backtrack_truth_val]
        rw [post.truth_eq rfl u (by rw [unset_assigned]; simp [assign, upd, huv, hu])]
        rw [unset_truth_val]
        simp [assign, upd, huv]
      · intro _ a hext hav
        rw [← satisfies_congr sf1 a]
        apply post.unsat rfl a _ trivial
        intro u hu
        rw [unset_assigned] at hu
        rw [unset_truth_val]
        by_cases huv : u = v
        · subst huv; simp [assign, upd, hav]
        · simp only [assign, upd, huv, if_false] at hu ⊢
          exact hext u hu

theorem post_weaken {s : State} {b : Bool} {t : State} {P : (Nat → Bool) → Prop}
    (h : dpll_post s b t P)
    (hu : b = false → ∀ a, extends_assigned s a → satisfies s a = false) :
    dpll_post s b t (fun _ => True) :=
  ⟨h.same, h.inv, h.sat, h.assigned_eq, h.truth_eq, fun hb a ha _ => hu hb a ha⟩

/-- A symbol that `find_unit_clause` or the unit literal of a pending clause
names is not assigned. -/
theorem set_lit_unassigned {s : State} (inv : clause_state_inv s) {i j : Nat}
    (hi : i < s.M) (hj : j < s.K) (hc : s.clause_situation i = SET)
    (hl : s.lit_situation i j = SET) :
    s.assigned (sym_index (s.literals i j)) = false := by
  by_contra hne
  have ha : s.assigned (sym_index (s.literals i j)) = true := by simpa using hne
  cases ht : lit_truth (s.truth_val (sym_index (s.literals i j))) (s.literals i j) with
  | true =>
    have := (inv.clause i hi).2 ⟨j, hj, ha, ht⟩
    rw [hc] at this; exact absurd this (by simp)
  | false =>
    have := (inv.lit i hi j hj).2 ⟨ha, ht⟩
    rw [hl] at this; exact absurd this (by simp)

/-- With every symbol assigned, a state that is neither empty nor has a false
clause does not exist: the defensive `return 0` of `dpll` is not reached. -/
theorem no_symbol_left_absurd {s : State} (wf : well_formed s) (inv : clause_state_inv s)
    (he : empty s = false) (hf : false_exists s = false)
    (hall : ∀ v, v < s.N → s.assigned v = true) : False := by
  have he' : ¬ ∀ i, i < s.M → s.clause_situation i = UNSET := by
    rw [← empty_iff]; simp [he]
  push_neg at he'
  obtain ⟨i, hi, hc⟩ := he'
  have hc' : s.clause_situation i = SET := (situation_ne_unset _).1 hc
  have hf' : ¬ ∃ i, i < s.M ∧ s.clause_situation i = SET ∧
      ∀ j, j < s.K → s.lit_situation i j = UNSET := by
    rw [← false_exists_iff]; simp [hf]
  push_neg at hf'
  obtain ⟨j, hj, hl⟩ := hf' i hi hc'
  have := set_lit_unassigned inv hi hj hc' ((situation_ne_unset _).1 hl)
  rw [hall _ (wf.lit_lt i hi j hj)] at this
  exact absurd this (by simp)

theorem dpll_post_all (d : Nat) : ∀ s, well_formed s → no_repeat s → clause_state_inv s →
    ∀ b s', dpll d s = some (b, s') → dpll_post s b s' (fun _ => True) := by
  induction d with
  | zero => intro s _ _ _ b s' h; simp [dpll] at h
  | succ d IH =>
    intro s wf nr inv b s' h
    rw [dpll] at h
    cases he : empty s with
    | true =>
      simp only [he, if_true, Option.some.injEq, Prod.mk.injEq] at h
      obtain ⟨hb, hs⟩ := h
      subst hb; subst hs
      exact ⟨same_formula_refl s, inv, fun _ => (empty_iff s).1 he, by simp, by simp, by simp⟩
    | false =>
      simp only [he, Bool.false_eq_true, if_false] at h
      cases hf : false_exists s with
      | true =>
        simp only [hf, if_true, Option.some.injEq, Prod.mk.injEq] at h
        obtain ⟨hb, hs⟩ := h
        subst hb; subst hs
        refine ⟨same_formula_refl s, inv, by simp, fun _ _ => rfl, fun _ _ _ => rfl, ?_⟩
        intro _ a hext _
        obtain ⟨i, hi, hc, hl⟩ := (false_exists_iff s).1 hf
        by_contra hs
        have hs' : satisfies s a = true := by simpa using hs
        obtain ⟨j, hj, ht⟩ := (satisfies_iff s a).1 hs' i hi
        obtain ⟨ha, hfalse⟩ := (inv.lit i hi j hj).1 (hl j hj)
        rw [hext _ ha, hfalse] at ht
        exact absurd ht (by simp)
      | false =>
        simp only [hf, Bool.false_eq_true, if_false] at h
        cases hp : find_pure_symbol s with
        | some p =>
          obtain ⟨v, s1⟩ := p
          simp only [hp] at h
          obtain ⟨hvN, hv, lit, hfo, hps, hs1⟩ := find_pure_symbol_some hp
          subst hs1
          have post := forced_step d IH wf nr inv v hv _ b s' h
          obtain ⟨i0, hi0, hc0, hin0, hlit0⟩ := first_occurence_some hfo
          have hlne : lit ≠ 0 := by
            rw [hlit0]; exact wf.lit_ne i0 hi0 _ (wf.loc_lt v i0 hi0 hin0)
          apply post_weaken post
          intro hb a hext
          by_contra hs
          have hs' : satisfies s a = true := by simpa using hs
          have hext' : extends_assigned s (upd a v (decide (lit > 0))) := by
            intro u hu
            have huv : u ≠ v := by
              intro h; rw [h, hv] at hu; exact absurd hu (by simp)
            simp only [upd, huv, if_false]
            exact hext u hu
          have hsat' : satisfies s (upd a v (decide (lit > 0))) = true := by
            rw [satisfies_iff]
            intro i hi
            cases hci : s.clause_situation i with
            | UNSET =>
              obtain ⟨j, hj, ha, ht⟩ := (inv.clause i hi).1 hci
              refine ⟨j, hj, ?_⟩
              rw [hext' _ ha]; exact ht
            | SET =>
              obtain ⟨j, hj, ht⟩ := (satisfies_iff s a).1 hs' i hi
              by_cases hvj : sym_index (s.literals i j) = v
              · obtain ⟨hin, hloc⟩ := loc_unique wf nr hi hj
                rw [hvj] at hin hloc
                have := (pure_scan_iff s v lit).1 hps i hi hci hin
                rw [hloc] at this
                refine ⟨j, hj, ?_⟩
                rw [hvj, this]
                simp only [upd, if_true]
                exact (lit_truth_eq_true_iff _ lit hlne).2 rfl
              · refine ⟨j, hj, ?_⟩
                simp only [upd, hvj, if_false]
                exact ht
          have := post.unsat hb _ hext' (by simp [upd])
          rw [hsat'] at this
          exact absurd this (by simp)
        | none =>
          simp only [hp] at h
          cases hu : find_unit_clause s with
          | some p =>
            obtain ⟨v, s1⟩ := p
            simp only [hu] at h
            obtain ⟨i, hi, hc, j, hj, hl, hvj, hs1, hrest⟩ := find_unit_clause_some hu
            subst hs1
            have hv : s.assigned v = false := by
              rw [hvj]; exact set_lit_unassigned inv hi hj hc hl
            have post := forced_step d IH wf nr inv v hv _ b s' h
            apply post_weaken post
            intro hb a hext
            by_contra hs
            have hs' : satisfies s a = true := by simpa using hs
            obtain ⟨j', hj', ht⟩ := (satisfies_iff s a).1 hs' i hi
            by_cases hjj : j' = j
            · subst hjj
              rw [← hvj] at ht
              have hav := (lit_truth_eq_true_iff _ _ (wf.lit_ne i hi j' hj')).1 ht
              have := post.unsat hb a hext hav
              rw [hs'] at this
              exact absurd this (by simp)
            · obtain ⟨ha, hfalse⟩ := (inv.lit i hi j' hj').1 (hrest j' hj' hjj)
              rw [hext _ ha, hfalse] at ht
              exact absurd ht (by simp)
          | none =>
            simp only [hu] at h
            cases hpf : pick_first s with
            | none =>
              exact (no_symbol_left_absurd wf inv he hf (pick_first_none hpf)).elim
            | some v =>
              simp only [hpf] at h
              obtain ⟨hvN, hv⟩ := pick_first_some hpf
              cases h1 : dpll d (unset (assign s v true) v) with
              | none => simp [h1] at h
              | some r =>
                obtain ⟨r, s2⟩ := r
                cases r with
                | true =>
                  rw [h1] at h
                  simp only [Option.some.injEq, Prod.mk.injEq] at h
                  obtain ⟨hb, hs⟩ := h
                  subst hb; subst hs
                  have post := forced_step d IH wf nr inv v hv true true s2
                    (by rw [h1]; rfl)
                  exact post_weaken post (by simp)
                | false =>
                  rw [h1] at h
                  simp only at h
                  have post1 := forced_step d IH wf nr inv v hv true false (backtrack s2 v)
                    (by rw [h1]; rfl)
                  have wf3 := well_formed_congr post1.same wf
                  have nr3 := no_repeat_congr post1.same nr
                  have hv3 : (backtrack s2 v).assigned v = false := by
                    rw [post1.assigned_eq rfl]; exact hv
                  have post2 := forced_step d IH wf3 nr3 post1.inv v hv3 false b s' h
                  refine ⟨same_formula_trans post1.same post2.same, post2.inv, ?_, ?_, ?_, ?_⟩
                  · intro hb i hi
                    exact post2.sat hb i (by rw [post1.same.M]; exact hi)
                  · intro hb u
                    rw [post2.assigned_eq hb u, post1.assigned_eq rfl u]
                  · intro hb u hu
                    rw [post2.truth_eq hb u (by rw [post1.assigned_eq rfl u]; exact hu),
                      post1.truth_eq rfl u hu]
                  · intro hb a hext _
                    cases hav : a v with
                    | true => exact post1.unsat rfl a hext hav
                    | false =>
                      rw [← satisfies_congr post1.same a]
                      apply post2.unsat hb a _ hav
                      intro u hu
                      rw [post1.assigned_eq rfl u] at hu
                      rw [post1.truth_eq rfl u hu]
                      exact hext u hu

theorem countP_range_flip (p q : Nat → Bool) (v : Nat) (hp : p v = true) (hq : q v = false)
    (hpq : ∀ u, u ≠ v → q u = p u) :
    ∀ n, v < n → (List.range n).countP q + 1 = (List.range n).countP p := by
  intro n
  induction n with
  | zero => intro h; omega
  | succ n ih =>
    intro h
    rw [List.range_succ, List.countP_append, List.countP_append]
    by_cases hvn : v = n
    · subst hvn
      have : (List.range v).countP q = (List.range v).countP p := by
        apply List.countP_congr
        intro x hx
        rw [List.mem_range] at hx
        rw [hpq x (by omega)]
      simp [List.countP_cons, hp, hq, this]
    · have := ih (by omega)
      simp only [List.countP_cons, List.countP_nil, hpq n (fun h => hvn h.symm)]
      omega

theorem unassigned_assign {s t : State} (hN : t.N = s.N) (v : Nat) (hv : v < s.N)
    (hs : s.assigned v = false) (ht : ∀ u, t.assigned u = upd s.assigned v true u) :
    unassigned t + 1 = unassigned s := by
  unfold unassigned
  rw [hN]
  apply countP_range_flip _ _ v _ _ _ _ hv
  · simp [hs]
  · simp [ht, upd]
  · intro u hu; simp [ht, upd, hu]

theorem unassigned_step (s : State) (v : Nat) (b : Bool) (hv : v < s.N)
    (hs : s.assigned v = false) :
    unassigned (unset (assign s v b) v) + 1 = unassigned s := by
  apply unassigned_assign ((same_formula_trans (same_formula_assign s v b)
    (same_formula_unset _ v)).N) v hv hs
  intro u
  rw [unset_assigned]
  rfl

theorem unassigned_congr {s t : State} (hN : t.N = s.N) (ha : ∀ u, t.assigned u = s.assigned u) :
    unassigned t = unassigned s := by
  unfold unassigned
  rw [hN]
  apply List.countP_congr
  intro x _
  rw [ha]

theorem forced_some (v : Nat) (r : Bool × State) : ∃ x, forced v (some r) = some x := by
  obtain ⟨b, s⟩ := r
  cases b
  · exact ⟨_, rfl⟩
  · exact ⟨_, rfl⟩

/-- On a formula without a repeated variable in a clause `dpll` returns as
soon as the depth bound exceeds the number of unassigned symbols. -/
theorem dpll_terminates (d : Nat) : ∀ s, well_formed s → no_repeat s → clause_state_inv s →
    unassigned s < d → ∃ r, dpll d s = some r := by
  induction d with
  | zero => intro s _ _ _ h; omega
  | succ d IH =>
    intro s wf nr inv hd
    have step : ∀ v b, v < s.N → s.assigned v = false →
        ∃ r, dpll d (unset (assign s v b) v) = some r := by
      intro v b hv hs
      have sf1 : same_formula s (unset (assign s v b) v) :=
        same_formula_trans (same_formula_assign s v b) (same_formula_unset _ v)
      apply IH _ (well_formed_congr sf1 wf) (no_repeat_congr sf1 nr)
        (inv_assign_unset wf nr inv v b hs)
      have := unassigned_step s v b hv hs
      omega
    rw [dpll]
    cases he : empty s with
    | true => exact ⟨(true, s), by simp⟩
    | false =>
      simp only [Bool.false_eq_true, if_false]
      cases hf : false_exists s with
      | true => exact ⟨(false, s), by simp⟩
      | false =>
        simp only [Bool.false_eq_true, if_false]
        cases hp : find_pure_symbol s with
        | some p =>
          obtain ⟨v, s1⟩ := p
          obtain ⟨hvN, hv, lit, -, -, hs1⟩ := find_pure_symbol_some hp
          subst hs1
          obtain ⟨r, hr⟩ := step v (decide (lit > 0)) hvN hv
          show ∃ r, forced v (dpll d (unset (assign s v (decide (lit > 0))) v)) = some r
          rw [hr]
          exact forced_some v r
        | none =>
          simp only
          cases hu : find_unit_clause s with
          | some p =>
            obtain ⟨v, s1⟩ := p
            obtain ⟨i, hi, hc, j, hj, hl, hvj, hs1, -⟩ := find_unit_clause_some hu
            subst hs1
            have hv : s.assigned v = false := by
              rw [hvj]; exact set_lit_unassigned inv hi hj hc hl
            have hvN : v < s.N := by rw [hvj]; exact wf.lit_lt i hi j hj
            obtain ⟨r, hr⟩ := step v (decide (s.literals i j > 0)) hvN hv
            show ∃ r, forced v (dpll d (unset (assign s v (decide (s.literals i j > 0))) v)) = some r
            rw [hr]
            exact forced_some v r
          | none =>
            simp only
            cases hpf : pick_first s with
            | none => exact ⟨_, rfl⟩
            | some v =>
              simp only
              obtain ⟨hvN, hv⟩ := pick_first_some hpf
              obtain ⟨r, hr⟩ := step v true hvN hv
              obtain ⟨b, s2⟩ := r
              rw [hr]
              cases b with
              | true => exact ⟨_, rfl⟩
              | false =>
                simp only
                have post1 := forced_step d (dpll_post_all d) wf nr inv v hv true false
                  (backtrack s2 v) (by rw [hr]; rfl)
                have wf3 := well_formed_congr post1.same wf
                have nr3 := no_repeat_congr post1.same nr
                have hv3 : (backtrack s2 v).assigned v = false := by
                  rw [post1.assigned_eq rfl]; exact hv
                have sf4 : same_formula (backtrack s2 v)
                    (unset (assign (backtrack s2 v) v false) v) :=
                  same_formula_trans (same_formula_assign _ v false) (same_formula_unset _ v)
                have hu3 : unassigned (backtrack s2 v) = unassigned s :=
                  unassigned_congr post1.same.N (post1.assigned_eq rfl)
                have hvN3 : v < (backtrack s2 v).N := by rw [post1.same.N]; exact hvN
                have hstep := unassigned_step (backtrack s2 v) v false hvN3 hv3
                obtain ⟨r', hr'⟩ := IH _ (well_formed_congr sf4 wf3) (no_repeat_congr sf4 nr3)
                  (inv_assign_unset wf3 nr3 post1.inv v false hv3) (by omega)
                rw [hr']
                exact forced_some v r'

theorem sym_index_lt {z : Int} {N : Nat} (h : ¬ (z = 0 ∨ z > (N : Int) ∨ z < -(N : Int))) :
    z ≠ 0 ∧ sym_index z < N := by
  unfold sym_index
  constructor
  · intro h0; exact h (Or.inl h0)
  · omega

theorem loaded_congr {s : State} {P Q : Nat → Nat → Prop} (h : ∀ a b, P a b ↔ Q a b)
    (l : loaded s P) : loaded s Q := by
  have : P = Q := by funext a b; exact propext (h a b)
  rw [← this]; exact l

theorem loaded_store {s : State} {P : Nat → Nat → Prop} (l : loaded s P) (i j : Nat) (z : Int)
    (hP : ¬ P i j) (hz : z ≠ 0) (hN : sym_index z < s.N) (hc : s.clause_situation i = SET) :
    loaded (store_literal s i j z) (fun a b => P a b ∨ (a = i ∧ b = j)) := by
  have old : ∀ a b, P a b → ¬ (a = i ∧ b = j) := by
    rintro a b h ⟨rfl, rfl⟩; exact hP h
  constructor
  · intro a b h
    simp only [store_literal, upd2]
    split_ifs with h1
    · exact hz
    · exact l.lit_ne a b (h.resolve_right h1)
  · intro a b h
    simp only [store_literal, upd2]
    split_ifs with h1
    · exact hN
    · exact l.lit_lt a b (h.resolve_right h1)
  · intro a b h
    simp only [store_literal, upd2]
    split_ifs with h1
    · rfl
    · exact l.lit_set a b (h.resolve_right h1)
  · intro a b h
    simp only [store_literal]
    rcases h with h | ⟨rfl, rfl⟩
    · exact l.clause_set a b h
    · exact hc
  · intro v a
    simp only [store_literal, upd2]
    constructor
    · intro h
      split_ifs at h with h1
      · exact ⟨j, Or.inr ⟨h1.2, rfl⟩, by simp [h1.2, h1.1]⟩
      · obtain ⟨b, hb, hv⟩ := (l.in_iff v a).1 h
        exact ⟨b, Or.inl hb, by rw [if_neg (old a b hb)]; exact hv⟩
    · rintro ⟨b, hb, hv⟩
      split_ifs with h1
      · rfl
      · rcases hb with hb | ⟨rfl, rfl⟩
        · rw [if_neg (old a b hb)] at hv
          exact (l.in_iff v a).2 ⟨b, hb, hv⟩
        · simp at hv
          exact absurd ⟨hv.symm, rfl⟩ h1
  · intro v a h
    simp only [store_literal, upd2] at h ⊢
    split_ifs at h with h1
    · simp [h1.1, h1.2]
    · obtain ⟨h2, h3⟩ := l.loc v a h
      rw [if_neg h1]
      refine ⟨Or.inl h2, ?_⟩
      rw [if_neg (old _ _ h2)]; exact h3
  · intro u
    simp only [store_literal, upd]
    split_ifs
    · rfl
    · exact l.unassigned u

theorem read_clause_loaded (i : Nat) : ∀ (js : List Nat) (s : State) (t : List Token)
    (s' : State) (t' : List Token) (P : Nat → Nat → Prop),
    read_clause i js s t = some (s', t') → loaded s P → (∀ j, j ∈ js → ¬ P i j) → js.Nodup →
    s.clause_situation i = SET →
    loaded s' (fun a b => P a b ∨ (a = i ∧ b ∈ js)) ∧ s'.N = s.N ∧ s'.M = s.M ∧ s'.K = s.K ∧
      s'.truth_val = s.truth_val := by
  intro js
  induction js with
  | nil =>
    intro s t s' t' P h l _ _ _
    simp only [read_clause, Option.some.injEq, Prod.mk.injEq] at h
    rw [← h.1]
    exact ⟨loaded_congr (by simp) l, rfl, rfl, rfl, rfl⟩
  | cons j js ih =>
    intro s t s' t' P h l hP nd hc
    rw [read_clause] at h
    cases hf : fscanf_d t with
    | none => simp [hf] at h
    | some zr =>
      obtain ⟨z, rest⟩ := zr
      simp only [hf] at h
      split_ifs at h with hz
      obtain ⟨hz0, hzN⟩ := sym_index_lt hz
      rw [List.nodup_cons] at nd
      have l1 := loaded_store l i j z (hP j (List.mem_cons_self _ _)) hz0 hzN hc
      obtain ⟨l2, hN, hM, hK, hT⟩ := ih (store_literal s i j z) rest s' t' _ h l1
        (by
          intro j' hj' hc'
          rcases hc' with hc' | ⟨-, rfl⟩
          · exact hP j' (List.mem_cons_of_mem _ hj') hc'
          · exact nd.1 hj')
        nd.2 hc
      refine ⟨loaded_congr ?_ l2, hN, hM, hK, hT⟩
      intro a b
      simp only [List.mem_cons]
      tauto

theorem read_clauses_loaded : ∀ (is : List Nat) (s : State) (t : List Token)
    (s' : State) (t' : List Token) (P : Nat → Nat → Prop),
    read_clauses is s t = some (s', t') → loaded s P → (∀ i, i ∈ is → ∀ j, ¬ P i j) → is.Nodup →
    loaded s' (fun a b => P a b ∨ (a ∈ is ∧ b < s.K)) ∧ s'.N = s.N ∧ s'.M = s.M ∧ s'.K = s.K ∧
      s'.truth_val = s.truth_val := by
  intro is
  induction is with
  | nil =>
    intro s t s' t' P h l _ _
    simp only [read_clauses, Option.some.injEq, Prod.mk.injEq] at h
    rw [← h.1]
    exact ⟨loaded_congr (by simp) l, rfl, rfl, rfl, rfl⟩
  | cons i is ih =>
    intro s t s' t' P h l hP nd
    rw [read_clauses] at h
    cases hr : read_clause i (List.range s.K)
        { s with clause_situation := upd s.clause_situation i SET } t with
    | none => simp [hr] at h
    | some p =>
      obtain ⟨s1, rest⟩ := p
      simp only [hr] at h
      rw [List.nodup_cons] at nd
      have l0 : loaded { s with clause_situation := upd s.clause_situation i SET } P := by
        refine ⟨l.lit_ne, l.lit_lt, l.lit_set, ?_, l.in_iff, l.loc, l.unassigned⟩
        intro a b hab
        simp only [upd]
        split_ifs
        · rfl
        · exact l.clause_set a b hab
      obtain ⟨l1, hN1, hM1, hK1, hT1⟩ := read_clause_loaded i _ _ _ _ _ P hr l0
        (fun j _ => hP i (List.mem_cons_self _ _) j) (List.nodup_range _) (by simp [upd])
      obtain ⟨l2, hN, hM, hK, hT⟩ := ih s1 rest s' t' _ h l1
        (by
          intro i' hi' j' hc'
          rcases hc' with hc' | ⟨rfl, -⟩
          · exact hP i' (List.mem_cons_of_mem _ hi') j' hc'
          · exact nd.1 hi')
        nd.2
      simp only at hN1 hM1 hK1 hT1
      refine ⟨loaded_congr ?_ l2, hN.trans hN1, hM.trans hM1, hK.trans hK1, hT.trans hT1⟩
      intro a b
      simp only [List.mem_cons, List.mem_range, hK1]
      tauto

/-- What a successful `dpll_init` leaves. -/
theorem dpll_init_loaded {toks : List Token} {s0 : State} (h : dpll_init toks = some s0) :
    loaded s0 (fun a b => a < s0.M ∧ b < s0.K) ∧ 1 ≤ s0.N ∧ 1 ≤ s0.M ∧ 2 ≤ s0.K ∧
      ∀ u, s0.truth_val u = false := by
  unfold dpll_init at h
  cases h1 : fscanf_d toks with
  | none => simp [h1] at h
  | some p1 =>
    obtain ⟨n, t1⟩ := p1
    simp only [h1] at h
    split_ifs at h with hn
    cases h2 : fscanf_d t1 with
    | none => simp [h2] at h
    | some p2 =>
      obtain ⟨m, t2⟩ := p2
      simp only [h2] at h
      split_ifs at h with hm
      cases h3 : fscanf_d t2 with
      | none => simp [h3] at h
      | some p3 =>
        obtain ⟨k, t3⟩ := p3
        simp only [h3] at h
        split_ifs at h with hk
        cases h4 : read_clauses (List.range m.toNat) (calloc_state n.toNat m.toNat k.toNat) t3 with
        | none => simp [h4] at h
        | some p4 =>
          obtain ⟨s, t4⟩ := p4
          simp only [h4, Option.some.injEq] at h
          subst h
          have l0 : loaded (calloc_state n.toNat m.toNat k.toNat) (fun _ _ => False) := by
            constructor <;> simp [calloc_state]
          obtain ⟨l, hN, hM, hK, hT⟩ := read_clauses_loaded _ _ _ _ _ _ h4 l0 (by simp)
            (List.nodup_range _)
          simp only [calloc_state] at hN hM hK hT
          refine ⟨loaded_congr ?_ l, by omega, by omega, by omega, by simp [hT]⟩
          intro a b
          simp [calloc_state, hM, hK]

theorem dpll_init_well_formed {toks : List Token} {s0 : State} (h : dpll_init toks = some s0) :
    well_formed s0 := by
  obtain ⟨l, -⟩ := dpll_init_loaded h
  constructor
  · intro i hi j hj; exact l.lit_ne i j ⟨hi, hj⟩
  · intro i hi j hj; exact l.lit_lt i j ⟨hi, hj⟩
  · intro v i hi
    rw [l.in_iff]
    constructor
    · rintro ⟨j, ⟨-, hj⟩, hv⟩; exact ⟨j, hj, hv⟩
    · rintro ⟨j, hj, hv⟩; exact ⟨j, ⟨hi, hj⟩, hv⟩
  · intro v i _ h2; exact (l.loc v i h2).1.2
  · intro v i _ h2; exact (l.loc v i h2).2

theorem dpll_init_inv {toks : List Token} {s0 : State} (h : dpll_init toks = some s0) :
    clause_state_inv s0 := by
  obtain ⟨l, -⟩ := dpll_init_loaded h
  constructor
  · intro i hi j hj
    simp [l.lit_set i j ⟨hi, hj⟩, l.unassigned]
  · intro i hi
    obtain ⟨-, -, -, hK, -⟩ := dpll_init_loaded h
    simp [l.clause_set i 0 ⟨hi, by omega⟩, l.unassigned]

theorem forced_cases {v : Nat} {r : Option (Bool × State)} {b : Bool} {s' : State}
    (h : forced v r = some (b, s')) :
    ∃ s2, (r = some (true, s2) ∧ b = true ∧ s' = s2) ∨
      (r = some (false, s2) ∧ b = false ∧ s' = backtrack s2 v) := by
  cases r with
  | none => simp [forced] at h
  | some x =>
    obtain ⟨b2, s2⟩ := x
    cases b2 with
    | true =>
      simp only [forced, Option.some.injEq, Prod.mk.injEq] at h
      exact ⟨s2, Or.inl ⟨rfl, h.1.symm, h.2.symm⟩⟩
    | false =>
      simp only [forced, Option.some.injEq, Prod.mk.injEq] at h
      exact ⟨s2, Or.inr ⟨rfl, h.1.symm, h.2.symm⟩⟩

/-- On every state, `dpll` keeps the formula and returns 1 only when `empty`
holds in the state it leaves. -/
theorem dpll_true_empty (d : Nat) : ∀ s b s', dpll d s = some (b, s') →
    same_formula s s' ∧ (b = true → empty s' = true) := by
  induction d with
  | zero => intro s b s' h; simp [dpll] at h
  | succ d IH =>
    intro s b s' h
    have step : ∀ v bv b s', forced v (dpll d (unset (assign s v bv) v)) = some (b, s') →
        same_formula s s' ∧ (b = true → empty s' = true) := by
      intro v bv b s' hf
      have sf1 : same_formula s (unset (assign s v bv) v) :=
        same_formula_trans (same_formula_assign s v bv) (same_formula_unset _ v)
      obtain ⟨s2, ⟨hr, hb, hs⟩ | ⟨hr, hb, hs⟩⟩ := forced_cases hf
      · obtain ⟨sf2, he⟩ := IH _ _ _ hr
        subst hs
        exact ⟨same_formula_trans sf1 sf2, fun _ => he rfl⟩
      · obtain ⟨sf2, -⟩ := IH _ _ _ hr
        subst hs; subst hb
        exact ⟨same_formula_trans sf1 (same_formula_trans sf2 (same_formula_backtrack _ _)),
          by simp⟩
    rw [dpll] at h
    cases he : empty s with
    | true =>
      simp only [he, if_true, Option.some.injEq, Prod.mk.injEq] at h
      obtain ⟨hb, hs⟩ := h
      subst hs
      exact ⟨same_formula_refl s, fun _ => he⟩
    | false =>
      simp only [he, Bool.false_eq_true, if_false] at h
      cases hf : false_exists s with
      | true =>
        simp only [hf, if_true, Option.some.injEq, Prod.mk.injEq] at h
        obtain ⟨hb, hs⟩ := h
        subst hs; subst hb
        exact ⟨same_formula_refl s, by simp⟩
      | false =>
        simp only [hf, Bool.false_eq_true, if_false] at h
        cases hp : find_pure_symbol s with
        | some p =>
          obtain ⟨v, s1⟩ := p
          simp only [hp] at h
          obtain ⟨-, -, lit, -, -, hs1⟩ := find_pure_symbol_some hp
          subst hs1
          exact step v _ b s' h
        | none =>
          simp only [hp] at h
          cases hu : find_unit_clause s with
          | some p =>
            obtain ⟨v, s1⟩ := p
            simp only [hu] at h
            obtain ⟨i, -, -, j, -, -, -, hs1, -⟩ := find_unit_clause_some hu
            subst hs1
            exact step v _ b s' h
          | none =>
            simp only [hu] at h
            cases hpf : pick_first s with
            | none =>
              simp only [hpf, Option.some.injEq, Prod.mk.injEq] at h
              obtain ⟨hb, hs⟩ := h
              subst hs; subst hb
              exact ⟨same_formula_refl s, by simp⟩
            | some v =>
              simp only [hpf] at h
              cases h1 : dpll d (unset (assign s v true) v) with
              | none => simp [h1] at h
              | some r =>
                obtain ⟨r, s2⟩ := r
                cases r with
                | true =>
                  rw [h1] at h
                  simp only [Option.some.injEq, Prod.mk.injEq] at h
                  obtain ⟨hb, hs⟩ := h
                  subst hb; subst hs
                  exact step v true true s2 (by rw [h1]; rfl)
                | false =>
                  rw [h1] at h
                  simp only at h
                  obtain ⟨sf1, -⟩ := step v true false (backtrack s2 v) (by rw [h1]; rfl)
                  have sf3 : same_formula (backtrack s2 v)
                      (unset (assign (backtrack s2 v) v false) v) :=
                    same_formula_trans (same_formula_assign _ v false) (same_formula_unset _ v)
                  obtain ⟨s4, ⟨hr, hb, hs⟩ | ⟨hr, hb, hs⟩⟩ := forced_cases h
                  · obtain ⟨sf4, he4⟩ := IH _ _ _ hr
                    subst hs
                    exact ⟨same_formula_trans sf1 (same_formula_trans sf3 sf4), fun _ => he4 rfl⟩
                  · obtain ⟨sf4, -⟩ := IH _ _ _ hr
                    subst hs; subst hb
                    exact ⟨same_formula_trans sf1 (same_formula_trans sf3
                      (same_formula_trans sf4 (same_formula_backtrack _ _))), by simp⟩

theorem unassigned_le (s : State) : unassigned s ≤ s.N := by
  unfold unassigned
  calc _ ≤ (List.range s.N).length := List.countP_le_length _
    _ = s.N := List.length_range _

theorem dpll_init_returns {toks : List Token} {s0 : State} (h0 : dpll_init toks = some s0)
    (nr : no_repeat s0) : ∃ r, dpll (s0.N + 1) s0 = some r :=
  dpll_terminates _ s0 (dpll_init_well_formed h0) nr (dpll_init_inv h0)
    (Nat.lt_succ_of_le (unassigned_le s0))

/-- C3: for every input that `dpll_init` accepts and in which no clause holds
the same variable twice, `dpll` started from the loaded state returns (the
depth bound `N + 1` is enough), and whenever it returns 1 the truth values left
in `symbols[0..N-1]`, those of unassigned symbols included, make a literal of
every clause true. -/
theorem dpll_sound_no_repeat (toks : List Token) (s0 : State)
    (h0 : dpll_init toks = some s0) (nr : no_repeat s0) :
    (∃ r, dpll (s0.N + 1) s0 = some r) ∧
      ∀ d s, dpll d s0 = some (true, s) → satisfies s0 s.truth_val = true := by
  refine ⟨dpll_init_returns h0 nr, ?_⟩
  intro d s h
  have post := dpll_post_all d s0 (dpll_init_well_formed h0) nr (dpll_init_inv h0) true s h
  rw [satisfies_iff]
  intro i hi
  have hi' : i < s.M := by rw [post.same.M]; exact hi
  obtain ⟨j, hj, -, ht⟩ := (post.inv.clause i hi').1 (post.sat rfl i hi)
  rw [post.same.literals] at ht
  rw [post.same.K] at hj
  exact ⟨j, hj, ht⟩

/-- The soundness theorem at Scenario 1, which holds no repeated variable. -/
theorem dpll_sound_no_repeat_witness :
    ∃ s0 s, dpll_init scenario1 = some s0 ∧ no_repeat s0 ∧ dpll 3 s0 = some (true, s) ∧
      satisfies s0 s.truth_val = true := by
  have h : observe scenario1 3 (fun s0 _ => decide (no_repeat s0)) = some (true, true) := by
    decide
  obtain ⟨s0, s, h0, h1, h2⟩ := observe_run h
  have nr : no_repeat s0 := of_decide_eq_true h2
  exact ⟨s0, s, h0, nr, h1 3 le_rfl, (dpll_sound_no_repeat scenario1 s0 h0 nr).2 3 s (h1 3 le_rfl)⟩

/-- C4: for every input that `dpll_init` accepts and in which no clause holds
the same variable twice, `dpll` started from the loaded state returns, and
when it returns 0 no truth assignment makes a literal of every clause true.
The same holds at every nested call: from a state that satisfies the
clause-state invariant, a result 0 (also one that comes from a pure-symbol or
unit-clause step, which try one value only) means that no assignment that
agrees with the assigned symbols satisfies the formula. -/
theorem dpll_complete_no_repeat (toks : List Token) (s0 : State)
    (h0 : dpll_init toks = some s0) (nr : no_repeat s0) :
    (∃ r, dpll (s0.N + 1) s0 = some r) ∧
      (∀ d s, dpll d s0 = some (false, s) → ∀ a, satisfies s0 a = false) ∧
      (∀ t, same_formula s0 t → clause_state_inv t → ∀ d s, dpll d t = some (false, s) →
        ∀ a, extends_assigned t a → satisfies s0 a = false) := by
  have wf := dpll_init_well_formed h0
  have inv := dpll_init_inv h0
  refine ⟨dpll_init_returns h0 nr, ?_, ?_⟩
  · intro d s h a
    have post := dpll_post_all d s0 wf nr inv false s h
    apply post.unsat rfl a _ trivial
    intro u hu
    obtain ⟨l, -⟩ := dpll_init_loaded h0
    rw [l.unassigned u] at hu
    exact absurd hu (by simp)
  · intro t sf invt d s h a hext
    have post := dpll_post_all d t (well_formed_congr sf wf) (no_repeat_congr sf nr) invt false s h
    rw [← satisfies_congr sf a]
    exact post.unsat rfl a hext trivial

/-- The completeness theorem at `2 4 2 / 1 2 / 1 -2 / -1 2 / -1 -2`, on which
`dpll` returns 0. -/
theorem dpll_complete_no_repeat_witness :
    ∃ s0 s, dpll_init all_four = some s0 ∧ no_repeat s0 ∧ dpll 3 s0 = some (false, s) ∧
      ∀ a, satisfies s0 a = false := by
  have h : observe all_four 3 (fun s0 _ => decide (no_repeat s0)) = some (false, true) := by
    decide
  obtain ⟨s0, s, h0, h1, h2⟩ := observe_run h
  have nr : no_repeat s0 := of_decide_eq_true h2
  exact ⟨s0, s, h0, nr, h1 3 le_rfl,
    (dpll_complete_no_repeat all_four s0 h0 nr).2.1 3 s (h1 3 le_rfl)⟩

/-- C9 (amended): for every input that `dpll_init` accepts, when `dpll`
returns 1 every clause is marked satisfied (`UNSET`) in the state it leaves;
symbols may stay unassigned. -/
theorem dpll_sat_all_clauses_unset (toks : List Token) (s0 : State) (d : Nat) (s : State)
    (_h0 : dpll_init toks = some s0) (h : dpll d s0 = some (true, s)) :
    ∀ i, i < s0.M → s.clause_situation i = UNSET := by
  obtain ⟨sf, he⟩ := dpll_true_empty d s0 true s h
  intro i hi
  exact (empty_iff s).1 (he rfl) i (by rw [sf.M]; exact hi)

/-- The theorem above at `2 1 2 / 1 2`. -/
theorem dpll_sat_all_clauses_unset_witness :
    ∃ s0 s, dpll_init one_clause = some s0 ∧ dpll 2 s0 = some (true, s) ∧
      ∀ i, i < s0.M → s.clause_situation i = UNSET := by
  obtain ⟨s0, s, h0, h1, -⟩ := (observe_run (show observe one_clause 2 (fun _ _ => ()) = some (true, ()) by decide))
  exact ⟨s0, s, h0, h1 2 le_rfl, dpll_sat_all_clauses_unset one_clause s0 2 s h0 (h1 2 le_rfl)⟩

end DPLL

theorem check_literals_add (N : Nat) (a b : Nat) : ∀ t,
    check_literals N (a + b) t = (check_literals N a t).bind (check_literals N b) := by
  induction a with
  | zero => intro t; simp [check_literals]
  | succ a ih =>
    intro t
    rw [Nat.succ_add, check_literals, check_literals]
    cases hf : fscanf_d t with
    | none => simp
    | some p =>
      obtain ⟨z, rest⟩ := p
      simp only
      split_ifs
      · simp
      · exact ih rest

theorem check_literals_none (N : Nat) : ∀ (n : Nat) (t : List Token),
    check_literals N n t = none ↔
      ((int_run t).length < n ∨
        ∃ p, p < n ∧ ∃ z, (int_run t)[p]? = some z ∧ (z = 0 ∨ z > (N : Int) ∨ z < -(N : Int))) := by
  intro n
  induction n with
  | zero => intro t; simp [check_literals]
  | succ n ih =>
    intro t
    rw [check_literals]
    match t with
    | [] => simp [fscanf_d, int_run]
    | none :: rest => simp [fscanf_d, int_run]
    | some z :: rest =>
      simp only [fscanf_d, int_run, List.length_cons]
      by_cases hz : z = 0 ∨ z > (N : Int) ∨ z < -(N : Int)
      · simp only [hz, if_true, true_iff]
        exact Or.inr ⟨0, by omega, z, by simp, hz⟩
      · simp only [hz, if_false]
        rw [ih rest]
        constructor
        · rintro (h | ⟨p, hp, z', hz', hb⟩)
          · exact Or.inl (by omega)
          · exact Or.inr ⟨p + 1, by omega, z', by simpa using hz', hb⟩
        · rintro (h | ⟨p, hp, z', hz', hb⟩)
          · exact Or.inl (by omega)
          · cases p with
            | zero =>
              simp at hz'
              rw [hz'] at hz
              exact absurd hb hz
            | succ p => exact Or.inr ⟨p, by omega, z', by simpa using hz', hb⟩

namespace DPLL

open situation

theorem read_clause_tokens (i : Nat) : ∀ (js : List Nat) (s : State) (t : List Token),
    (read_clause i js s t).map Prod.snd = check_literals s.N js.length t ∧
      ∀ s' t', read_clause i js s t = some (s', t') → s'.N = s.N ∧ s'.K = s.K := by
  intro js
  induction js with
  | nil => intro s t; simp [read_clause, check_literals]
  | cons j js ih =>
    intro s t
    rw [read_clause, List.length_cons, check_literals]
    cases hf : fscanf_d t with
    | none => simp
    | some p =>
      obtain ⟨z, rest⟩ := p
      simp only
      split_ifs
      · simp
      · exact ih (store_literal s i j z) rest

theorem read_clauses_tokens : ∀ (is : List Nat) (s : State) (t : List Token),
    (read_clauses is s t).map Prod.snd = check_literals s.N (is.length * s.K) t := by
  intro is
  induction is with
  | nil => intro s t; simp [read_clauses, check_literals]
  | cons i is ih =>
    intro s t
    rw [read_clauses, List.length_cons, Nat.succ_mul, Nat.add_comm, check_literals_add]
    obtain ⟨h1, h2⟩ := read_clause_tokens i (List.range s.K)
      { s with clause_situation := upd s.clause_situation i SET } t
    simp only [List.length_range] at h1
    cases hr : read_clause i (List.range s.K)
        { s with clause_situation := upd s.clause_situation i SET } t with
    | none =>
      rw [hr] at h1
      simp only [Option.map_none'] at h1
      rw [← h1]; rfl
    | some p =>
      obtain ⟨s1, rest⟩ := p
      rw [hr] at h1
      simp only [Option.map_some'] at h1
      obtain ⟨hN, hK⟩ := h2 s1 rest hr
      simp only at hN hK
      rw [← h1]
      simp only [Option.some_bind]
      rw [ih s1 rest, hN, hK]

end DPLL

namespace WalkSAT

theorem store_literal_N (g : Globals) (i j : Nat) (z : Int) :
    (store_literal g i j z).N = g.N ∧ (store_literal g i j z).K = g.K ∧
      (store_literal g i j z).M = g.M := by
  unfold store_literal
  simp only
  split_ifs <;> exact ⟨rfl, rfl, rfl⟩

theorem walk_read_clause_tokens (i : Nat) : ∀ (js : List Nat) (g : Globals) (t : List Token),
    (read_clause i js g t).map Prod.snd = check_literals g.N js.length t ∧
      ∀ g' t', read_clause i js g t = some (g', t') → g'.N = g.N ∧ g'.K = g.K ∧ g'.M = g.M := by
  intro js
  induction js with
  | nil => intro s t; simp [read_clause, check_literals]
  | cons j js ih =>
    intro g t
    rw [read_clause, List.length_cons, check_literals]
    cases hf : fscanf_d t with
    | none => simp
    | some p =>
      obtain ⟨z, rest⟩ := p
      simp only
      split_ifs
      · simp
      · have := ih (store_literal g i j z) rest
        obtain ⟨hN, hK, hM⟩ := store_literal_N g i j z
        rw [hN, hK, hM] at this
        exact this

theorem walk_read_clauses_tokens : ∀ (is : List Nat) (g : Globals) (t : List Token),
    (read_clauses is g t).map Prod.snd = check_literals g.N (is.length * g.K) t ∧
      ∀ g' t', read_clauses is g t = some (g', t') → g'.N = g.N ∧ g'.K = g.K ∧ g'.M = g.M := by
  intro is
  induction is with
  | nil => intro s t; simp [read_clauses, check_literals]
  | cons i is ih =>
    intro g t
    rw [read_clauses, List.length_cons, Nat.succ_mul, Nat.add_comm, check_literals_add]
    obtain ⟨h1, h2⟩ := walk_read_clause_tokens i (List.range g.K) g t
    simp only [List.length_range] at h1
    cases hr : read_clause i (List.range g.K) g t with
    | none =>
      rw [hr] at h1
      simp only [Option.map_none'] at h1
      rw [← h1]
      simp
    | some p =>
      obtain ⟨g1, rest⟩ := p
      rw [hr] at h1
      simp only [Option.map_some'] at h1
      obtain ⟨hN, hK, hM⟩ := h2 g1 rest hr
      rw [← h1]
      simp only [Option.some_bind]
      have := ih g1 rest
      rw [hN, hK, hM] at this
      exact this

end WalkSAT

theorem header_nat {n m k : Int} (hn : ¬ n < 1) (hm : ¬ m < 1) (hk : ¬ k < 2) :
    ((n.toNat : Nat) : Int) = n ∧ (List.range m.toNat).length * k.toNat = (m * k).toNat := by
  constructor
  · omega
  · rw [List.length_range]
    have h1 : ((m.toNat : Nat) : Int) = m := by omega
    have h2 : ((k.toNat : Nat) : Int) = k := by omega
    have : (((m.toNat * k.toNat : Nat)) : Int) = m * k := by
      push_cast; rw [h1, h2]
    calc m.toNat * k.toNat = ((m.toNat * k.toNat : Nat) : Int).toNat :=
          (Int.toNat_natCast _).symm
      _ = (m * k).toNat := by rw [this]

theorem rejects_cons {n m k : Int} {rest : List Token} (hn : ¬ n < 1) (hm : ¬ m < 1)
    (hk : ¬ k < 2) :
    rejects (some n :: some m :: some k :: rest) ↔
      check_literals n.toNat ((List.range m.toNat).length * k.toNat) rest = none := by
  obtain ⟨h1, h2⟩ := header_nat hn hm hk
  rw [check_literals_none, h1, h2]
  simp only [rejects, hn, hm, hk, false_or]

/-- The two loaders return `-1` exactly on the inputs that `rejects`
describes. -/
theorem init_none_iff (mem : WalkSAT.Malloc) (toks : List Token) :
    (DPLL.dpll_init toks = none ↔ rejects toks) ∧
      (WalkSAT.walk_init mem toks = none ↔ rejects toks) := by
  match toks with
  | [] => simp [DPLL.dpll_init, WalkSAT.walk_init, fscanf_d, rejects]
  | none :: _ => simp [DPLL.dpll_init, WalkSAT.walk_init, fscanf_d, rejects]
  | [some n] =>
    by_cases hn : n < 1 <;> simp [DPLL.dpll_init, WalkSAT.walk_init, fscanf_d, rejects, hn]
  | some n :: none :: _ =>
    by_cases hn : n < 1 <;> simp [DPLL.dpll_init, WalkSAT.walk_init, fscanf_d, rejects, hn]
  | [some n, some m] =>
    by_cases hn : n < 1 <;> by_cases hm : m < 1 <;>
      simp [DPLL.dpll_init, WalkSAT.walk_init, fscanf_d, rejects, hn, hm]
  | some n :: some m :: none :: _ =>
    by_cases hn : n < 1 <;> by_cases hm : m < 1 <;>
      simp [DPLL.dpll_init, WalkSAT.walk_init, fscanf_d, rejects, hn, hm]
  | some n :: some m :: some k :: rest =>
    by_cases hn : n < 1
    · simp [DPLL.dpll_init, WalkSAT.walk_init, fscanf_d, rejects, hn]
    by_cases hm : m < 1
    · simp [DPLL.dpll_init, WalkSAT.walk_init, fscanf_d, rejects, hn, hm]
    by_cases hk : k < 2
    · simp [DPLL.dpll_init, WalkSAT.walk_init, fscanf_d, rejects, hn, hm, hk]
    rw [rejects_cons hn hm hk]
    constructor
    · have h := DPLL.read_clauses_tokens (List.range m.toNat)
        (DPLL.calloc_state n.toNat m.toNat k.toNat) rest
      simp only [DPLL.calloc_state] at h
      rw [← h]
      simp only [DPLL.dpll_init, fscanf_d, hn, hm, hk, if_false, DPLL.calloc_state]
      cases DPLL.read_clauses (List.range m.toNat) _ rest <;> simp
    · have h := (WalkSAT.walk_read_clauses_tokens (List.range m.toNat)
        { N := n.toNat, M := m.toNat, K := k.toNat, Problem := mem.Problem,
          pos_lit_in := mem.pos_lit_in, neg_lit_in := mem.neg_lit_in } rest).1
      simp only at h
      rw [← h]
      simp only [WalkSAT.walk_init, fscanf_d, hn, hm, hk, if_false]
      cases WalkSAT.read_clauses (List.range m.toNat) _ rest <;> simp

/-- C8 (amended): on the sequence of items that the successive calls of
`fscanf("%d")` meet in the input, `dpll_init` returns `-1` exactly when one of
the three header conversions fails, or `N < 1`, or `M < 1`, or `K < 2`, or
fewer than `M * K` conversions succeed after the header, or one of the first
`M * K` literals is `0`, above `N` or below `-N`, and it returns `0` otherwise;
`walk_init` does the same, whatever `malloc` returned. -/
theorem init_ret_iff_rejects (mem : WalkSAT.Malloc) (toks : List Token) :
    (DPLL.dpll_init_ret toks = -1 ↔ rejects toks) ∧
      (DPLL.dpll_init_ret toks = 0 ↔ ¬ rejects toks) ∧
      (WalkSAT.walk_init_ret mem toks = -1 ↔ rejects toks) ∧
      (WalkSAT.walk_init_ret mem toks = 0 ↔ ¬ rejects toks) := by
  obtain ⟨h1, h2⟩ := init_none_iff mem toks
  rw [← h1]
  refine ⟨?_, ?_, ?_, ?_⟩
  · unfold DPLL.dpll_init_ret; cases DPLL.dpll_init toks <;> simp
  · unfold DPLL.dpll_init_ret; cases DPLL.dpll_init toks <;> simp
  · rw [h1, ← h2]; unfold WalkSAT.walk_init_ret; cases WalkSAT.walk_init mem toks <;> simp
  · rw [h1, ← h2]; unfold WalkSAT.walk_init_ret; cases WalkSAT.walk_init mem toks <;> simp

theorem flatMap_singleton_eq_map {α β : Type} (f : α → List β) (g : α → β)
    (h : ∀ x, f x = [g x]) : ∀ l : List α, l.flatMap f = l.map g := by
  intro l
  induction l with
  | nil => rfl
  | cons a l ih => simp [List.flatMap_cons, h, ih]

namespace WalkSAT

theorem write_sol_eq_map (g : Globals) (la : Nat → literal) :
    write_sol g la = (List.range g.N).map fun i => if (la i).truth_val then (1 : Int) else -1 := by
  unfold write_sol
  apply flatMap_singleton_eq_map
  intro i
  cases (la i).truth_val <;> simp

end WalkSAT

/-- C10: `write_to_file` and `write_sol` print exactly `N` integers, the
`i`-th of them is `1` when the truth value of variable `i` is true and `-1`
otherwise, and no other value is printed. -/
theorem output_format (s : DPLL.State) (g : WalkSAT.Globals) (la : Nat → WalkSAT.literal) :
    ((DPLL.write_to_file s).length = s.N ∧
      (∀ i, i < s.N →
        (DPLL.write_to_file s)[i]? = some (if s.truth_val i then 1 else -1)) ∧
      ∀ x, x ∈ DPLL.write_to_file s → x = 1 ∨ x = -1) ∧
    ((WalkSAT.write_sol g la).length = g.N ∧
      (∀ i, i < g.N →
        (WalkSAT.write_sol g la)[i]? = some (if (la i).truth_val then 1 else -1)) ∧
      ∀ x, x ∈ WalkSAT.write_sol g la → x = 1 ∨ x = -1) := by
  rw [WalkSAT.write_sol_eq_map]
  unfold DPLL.write_to_file
  refine ⟨⟨by simp, ?_, ?_⟩, ⟨by simp, ?_, ?_⟩⟩
  · intro i hi
    simp [List.getElem?_map, List.getElem?_range hi]
  · intro x hx
    simp only [List.mem_map, List.mem_range] at hx
    obtain ⟨i, -, rfl⟩ := hx
    split_ifs <;> simp
  · intro i hi
    simp [List.getElem?_map, List.getElem?_range hi]
  · intro x hx
    simp only [List.mem_map, List.mem_range] at hx
    obtain ⟨i, -, rfl⟩ := hx
    split_ifs <;> simp

namespace WalkSAT

theorem true_lits_in_eq_zero (g : Globals) (c : Nat) (la : Nat → literal) :
    true_lits_in g c la = 0 ↔ clause_satisfaction g c la = false := by
  unfold true_lits_in clause_satisfaction
  rw [List.countP_eq_zero]
  simp [List.any_eq_false]

theorem satisfiable_loop_eq (g : Globals) (la : Nat → literal) : ∀ (l : List Nat) (tv : Bool),
    satisfiable_loop g la l tv =
      if l = [] then tv else l.all fun i => clause_satisfaction g (i * g.K) la := by
  intro l
  induction l with
  | nil => intro tv; simp [satisfiable_loop]
  | cons i is ih =>
    intro tv
    rw [satisfiable_loop]
    simp only [reduceCtorEq, if_false, List.all_cons]
    by_cases h : true_lits_in g (i * g.K) la = 0
    · simp only [h, if_true]
      rw [(true_lits_in_eq_zero g _ la).1 h]; simp
    · simp only [h, if_false]
      have : clause_satisfaction g (i * g.K) la = true := by
        rw [true_lits_in_eq_zero] at h; simpa using h
      rw [ih true, this]
      by_cases hn : is = [] <;> simp [hn]

theorem satisfiable_eq (g : Globals) (env : Env) (la : Nat → literal) (hM : 1 ≤ g.M) :
    satisfiable g env la = satisfies g la := by
  unfold satisfiable satisfies
  rw [satisfiable_loop_eq]
  have : List.range g.M ≠ [] := by
    intro h
    have := congrArg List.length h
    simp at this; omega
  simp only [this, if_false]
  rfl

theorem walk_satisfies_iff (g : Globals) (la : Nat → literal) :
    satisfies g la = true ↔ ∀ i, i < g.M → ∃ j, j < g.K ∧
      neg_pos_truth_istrue (g.Problem (i * g.K + j)) la = true := by
  simp [satisfies, List.all_eq_true, List.any_eq_true]

theorem walk_init_header {mem : Malloc} {toks : List Token} {g : Globals}
    (h : walk_init mem toks = some g) : 1 ≤ g.N ∧ 1 ≤ g.M ∧ 2 ≤ g.K := by
  unfold walk_init at h
  cases h1 : fscanf_d toks with
  | none => simp [h1] at h
  | some p1 =>
    obtain ⟨n, t1⟩ := p1
    simp only [h1] at h
    split_ifs at h with hn
    cases h2 : fscanf_d t1 with
    | none => simp [h2] at h
    | some p2 =>
      obtain ⟨m, t2⟩ := p2
      simp only [h2] at h
      split_ifs at h with hm
      cases h3 : fscanf_d t2 with
      | none => simp [h3] at h
      | some p3 =>
        obtain ⟨k, t3⟩ := p3
        simp only [h3] at h
        split_ifs at h with hk
        cases h4 : read_clauses (List.range m.toNat)
            { N := n.toNat, M := m.toNat, K := k.toNat, Problem := mem.Problem,
              pos_lit_in := mem.pos_lit_in, neg_lit_in := mem.neg_lit_in } t3 with
        | none => simp [h4] at h
        | some p4 =>
          obtain ⟨g', t4⟩ := p4
          simp only [h4, Option.some.injEq] at h
          subst h
          obtain ⟨hN, hK, hM⟩ := (walk_read_clauses_tokens _ _ _).2 _ _ h4
          simp only at hN hK hM
          omega

theorem walk_loop_found (g : Globals) (env : Env) (draws : Nat) :
    ∀ (remaining steps : Nat) (la : Nat → literal) (t : Nat) (o : Outcome),
      walk_loop g env draws remaining steps la t = some o → o.found = true →
        satisfiable g env o.lit_assign = true ∧ o.written = some (write_sol g o.lit_assign) := by
  intro remaining
  induction remaining with
  | zero =>
    intro steps la t o h hf
    simp only [walk_loop, Option.some.injEq] at h
    rw [← h] at hf
    exact absurd hf (by simp)
  | succ r ih =>
    intro steps la t o h hf
    rw [walk_loop] at h
    by_cases hs : satisfiable g env la = true
    · simp only [hs, if_true, Option.some.injEq] at h
      rw [← h]
      exact ⟨hs, rfl⟩
    · simp only [hs, if_false] at h
      cases hc : choose_clause g env la draws t with
      | none => simp [hc] at h
      | some p =>
        obtain ⟨c, t1⟩ := p
        simp only [hc] at h
        cases hp : pick_lit g env (c * g.K) la t1 with
        | none => simp [hp] at h
        | some q =>
          obtain ⟨lit, t2⟩ := q
          simp only [hp] at h
          exact ih _ _ _ o h hf

theorem walk_observe_run {α : Type} {mem : Malloc} {toks : List Token} {env : Env}
    {draws budget : Nat} {f : Globals → Outcome → α} {x : α}
    (h : observe mem toks env draws budget f = some x) :
    ∃ g o, walk_init mem toks = some g ∧ walksat_steps g env draws budget = some o ∧ f g o = x := by
  unfold observe at h
  cases h0 : walk_init mem toks with
  | none => simp [h0] at h
  | some g =>
    cases h1 : walksat_steps g env draws budget with
    | none => simp [h0, h1] at h
    | some o =>
      simp [h0, h1] at h
      exact ⟨g, o, rfl, h1, h⟩

/-- C5: for every input that `walk_init` accepts, `satisfiable(lit_assign)`
returns 1 exactly when every one of the `M` clauses has a true literal, and
when `walksat` reports a solution (`found = 1`, for the budget 20000 of the
code and for any other budget) the assignment it leaves, which is the one
`write_sol` wrote and `display` shows, makes a literal of every clause true. -/
theorem walksat_sound (mem : Malloc) (toks : List Token) (g : Globals) (env : Env) (draws : Nat)
    (h0 : walk_init mem toks = some g) :
    (∀ la, satisfiable g env la = true ↔
      ∀ i, i < g.M → ∃ j, j < g.K ∧ neg_pos_truth_istrue (g.Problem (i * g.K + j)) la = true) ∧
    (∀ budget o, walksat_steps g env draws budget = some o → o.found = true →
      (∀ i, i < g.M → ∃ j, j < g.K ∧
        neg_pos_truth_istrue (g.Problem (i * g.K + j)) o.lit_assign = true) ∧
      o.written = some (write_sol g o.lit_assign)) ∧
    (∀ o, walksat g env draws = some o → o.found = true →
      (∀ i, i < g.M → ∃ j, j < g.K ∧
        neg_pos_truth_istrue (g.Problem (i * g.K + j)) o.lit_assign = true) ∧
      o.written = some (write_sol g o.lit_assign)) := by
  obtain ⟨-, hM, -⟩ := walk_init_header h0
  have h1 : ∀ la, satisfiable g env la = true ↔
      ∀ i, i < g.M → ∃ j, j < g.K ∧
        neg_pos_truth_istrue (g.Problem (i * g.K + j)) la = true := by
    intro la
    rw [satisfiable_eq g env la hM, walk_satisfies_iff]
  have h2 : ∀ budget o, walksat_steps g env draws budget = some o → o.found = true →
      (∀ i, i < g.M → ∃ j, j < g.K ∧
        neg_pos_truth_istrue (g.Problem (i * g.K + j)) o.lit_assign = true) ∧
      o.written = some (write_sol g o.lit_assign) := by
    intro budget o h hf
    obtain ⟨a, b⟩ := walk_loop_found g env draws _ _ _ _ o h hf
    exact ⟨(h1 _).1 a, b⟩
  exact ⟨h1, h2, fun o h hf => h2 max_steps o h hf⟩

/-- The soundness theorem at `2 1 2 / 1 2` with every draw equal to 1. -/
theorem walksat_sound_witness :
    ∃ g o, walk_init zero_mem DPLL.one_clause = some g ∧
      walksat g (const_env 1) 1 = some o ∧ o.found = true ∧
      (∀ i, i < g.M → ∃ j, j < g.K ∧
        neg_pos_truth_istrue (g.Problem (i * g.K + j)) o.lit_assign = true) ∧
      o.written = some (write_sol g o.lit_assign) := by
  have h : observe zero_mem DPLL.one_clause (const_env 1) 1 max_steps (fun _ o => o.found)
      = some true := by decide
  obtain ⟨g, o, h0, h1, h2⟩ := walk_observe_run h
  exact ⟨g, o, h0, h1, h2,
    (walksat_sound zero_mem DPLL.one_clause g (const_env 1) 1 h0).2.2 o h1 h2⟩

theorem walk_init_scenario3 (mem : Malloc) :
    walk_init mem DPLL.one_clause = some (scenario3_globals mem) := by
  rfl

theorem scenario3_satisfiable (mem : Malloc) (env : Env) (la : Nat → literal) :
    satisfiable (scenario3_globals mem) env la = ((la 0).truth_val || (la 1).truth_val) := by
  simp [satisfiable, satisfiable_loop, scenario3_globals, List.range_succ, true_lits_in,
    neg_pos_truth_istrue, upd, List.countP_cons]
  cases (la 0).truth_val <;> cases (la 1).truth_val <;> simp

theorem scenario3_clause_satisfaction (mem : Malloc) (la : Nat → literal)
    (h0 : (la 0).truth_val = false) (h1 : (la 1).truth_val = false) :
    clause_satisfaction (scenario3_globals mem) 0 la = false := by
  simp [clause_satisfaction, scenario3_globals, List.range_succ, neg_pos_truth_istrue, upd, h0, h1]

theorem scenario3_choose_clause (mem : Malloc) (env : Env) (la : Nat → literal) (draws t : Nat)
    (h0 : (la 0).truth_val = false) (h1 : (la 1).truth_val = false) :
    choose_clause (scenario3_globals mem) env la (draws + 1) t = some (0, t + 1) := by
  have hm : env.rand t % (scenario3_globals mem).M = 0 := by
    simp [scenario3_globals, Nat.mod_one]
  rw [choose_clause]
  simp only [hm, Nat.zero_mul, scenario3_clause_satisfaction mem la h0 h1]
  simp

theorem scenario3_break_count (mem : Malloc) (la : Nat → literal) (min_brk lit_num : Nat)
    (h0 : (la 0).truth_val = false) (h1 : (la 1).truth_val = false)
    (hl : (la lit_num).truth_val = false) :
    break_count (scenario3_globals mem) la min_brk lit_num = 0 := by
  have ht : true_lits_in (scenario3_globals mem) 0 la = 0 := by
    rw [true_lits_in_eq_zero]; exact scenario3_clause_satisfaction mem la h0 h1
  unfold break_count
  simp only [hl, Bool.false_eq_true, if_false]
  have hM : (scenario3_globals mem).M = 1 := rfl
  have hK : (scenario3_globals mem).K = 2 := rfl
  rw [hM]
  simp only [List.range_succ, List.range_zero, List.nil_append, break_loop, Nat.zero_mul, Nat.zero_add, hK, ht]
  simp

theorem scenario3_pick_lit (mem : Malloc) (env : Env) (la : Nat → literal) (t : Nat)
    (h0 : (la 0).truth_val = false) (h1 : (la 1).truth_val = false) :
    ∃ l, pick_lit (scenario3_globals mem) env 0 la t = some (l, t + 1) ∧
      (l = la 0 ∨ l = la 1) := by
  have b0 := fun m => scenario3_break_count mem la m 0 h0 h1 h0
  have b1 := fun m => scenario3_break_count mem la m 1 h0 h1 h1
  have hs : scan_lits (scenario3_globals mem) 0 la (List.range (scenario3_globals mem).K)
      ((scenario3_globals mem).M, none) =
        (0, some { first := [la 1, la 0], size := 2 }) := by
    have hK : (scenario3_globals mem).K = 2 := rfl
    have hM : (scenario3_globals mem).M = 1 := rfl
    have p0 : sym_index ((scenario3_globals mem).Problem (0 + 0)) = 0 := by
      simp [scenario3_globals, upd, sym_index]
    have p1 : sym_index ((scenario3_globals mem).Problem (0 + 1)) = 1 := by
      simp [scenario3_globals, upd, sym_index]
    rw [hK, hM]
    simp only [List.range_succ, List.range_zero, List.nil_append, List.cons_append, scan_lits,
      p0, p1, b0, b1]
    simp [shift]
  unfold pick_lit
  simp only [hs, if_true, select_random, select_nd]
  have : env.rand t % 2 = 0 ∨ env.rand t % 2 = 1 := by omega
  rcases this with h | h
  · exact ⟨la 1, by simp [h], Or.inr rfl⟩
  · exact ⟨la 0, by simp [h], Or.inl rfl⟩

theorem init_assign_two (env : Env) :
    (init_assign env 2 0).lit_num = 0 ∧ (init_assign env 2 1).lit_num = 1 := by
  simp [init_assign, List.range_succ, upd]

theorem scenario3_walk_loop (mem : Malloc) (env : Env) (draws remaining steps : Nat)
    (la : Nat → literal) (t : Nat) (n0 : (la 0).lit_num = 0) (n1 : (la 1).lit_num = 1) :
    ∃ o, walk_loop (scenario3_globals mem) env (draws + 1) (remaining + 2) steps la t = some o ∧
      o.found = true ∧ o.steps ≤ steps + 1 ∧
      satisfiable (scenario3_globals mem) env o.lit_assign = true := by
  rw [walk_loop]
  by_cases hs : satisfiable (scenario3_globals mem) env la = true
  · simp only [hs, if_true]
    exact ⟨_, rfl, rfl, by simp, hs⟩
  · simp only [hs, if_false]
    rw [scenario3_satisfiable] at hs
    have h0 : (la 0).truth_val = false := by
      cases h : (la 0).truth_val <;> simp [h] at hs ⊢
    have h1 : (la 1).truth_val = false := by
      cases h : (la 1).truth_val <;> simp [h] at hs ⊢
    rw [scenario3_choose_clause mem env la draws t h0 h1]
    simp only [Nat.zero_mul]
    obtain ⟨l, hp, hl⟩ := scenario3_pick_lit mem env la (t + 1) h0 h1
    rw [hp]
    simp only
    have hsat : satisfiable (scenario3_globals mem) env (flip_truth_val la l.lit_num) = true := by
      rw [scenario3_satisfiable]
      rcases hl with rfl | rfl
      · simp [flip_truth_val, upd, n0, h0]
      · simp [flip_truth_val, upd, n1, h1]
    rw [walk_loop]
    simp only [hsat, if_true]
    exact ⟨_, rfl, rfl, le_rfl, hsat⟩

/-- C7: on `2 1 2 / 1 2` (N = 2, M = 1, K = 2, the clause `1 2`), for every
content of the memory from `malloc` and every stream of random draws,
`walk_init` accepts the input and `walksat`, whose step budget is the constant
`max_steps = 20000` (so `max_steps >= 1`), reports a solution (`found = 1`)
after at most one flip (`steps <= 1`) with an assignment that satisfies the
clause; each clause selection needs one draw. -/
theorem walksat_scenario3 (mem : Malloc) (env : Env) (draws : Nat) (hd : 1 ≤ draws) :
    1 ≤ max_steps ∧
    ∃ g, walk_init mem DPLL.one_clause = some g ∧ g.N = 2 ∧ g.M = 1 ∧ g.K = 2 ∧
      g.Problem 0 = 1 ∧ g.Problem 1 = 2 ∧
      ∃ o, walksat g env draws = some o ∧ o.found = true ∧ o.steps ≤ 1 ∧
        satisfies g o.lit_assign = true := by
  refine ⟨by decide, scenario3_globals mem, walk_init_scenario3 mem, rfl, rfl, rfl,
    by simp [scenario3_globals, upd], by simp [scenario3_globals, upd], ?_⟩
  obtain ⟨dr, rfl⟩ : ∃ dr, draws = dr + 1 := ⟨draws - 1, by omega⟩
  obtain ⟨n0, n1⟩ := init_assign_two env
  obtain ⟨o, h1, h2, h3, h4⟩ := scenario3_walk_loop mem env dr 19998 0
    (init_assign env 2) 2 n0 n1
  refine ⟨o, h1, h2, by omega, ?_⟩
  rw [← satisfiable_eq (scenario3_globals mem) env o.lit_assign (by simp [scenario3_globals])]
  exact h4

/-- C7 with zeroed memory and every draw equal to 0: both variables start
false and the one flip satisfies the clause. -/
theorem walksat_scenario3_witness :
    1 ≤ 1 ∧ 1 ≤ max_steps ∧
    ∃ g, walk_init zero_mem DPLL.one_clause = some g ∧ g.N = 2 ∧ g.M = 1 ∧ g.K = 2 ∧
      g.Problem 0 = 1 ∧ g.Problem 1 = 2 ∧
      ∃ o, walksat g (const_env 0) 1 = some o ∧ o.found = true ∧ o.steps ≤ 1 ∧
        satisfies g o.lit_assign = true :=
  ⟨by decide, walksat_scenario3 zero_mem (const_env 0) 1 (by decide)⟩

end WalkSAT

theorem ret_zero_of_not_rejects (mem : WalkSAT.Malloc) (toks : List Token)
    (h : DPLL.dpll_init toks ≠ none) :
    DPLL.dpll_init_ret toks = 0 ∧ WalkSAT.walk_init_ret mem toks = 0 := by
  obtain ⟨h1, h2⟩ := init_none_iff mem toks
  have h3 : WalkSAT.walk_init mem toks ≠ none := fun h4 => h (h1.2 (h2.1 h4))
  constructor
  · unfold DPLL.dpll_init_ret
    cases h5 : DPLL.dpll_init toks with
    | none => exact absurd h5 h
    | some _ => rfl
  · unfold WalkSAT.walk_init_ret
    cases h5 : WalkSAT.walk_init mem toks with
    | none => exact absurd h5 h3
    | some _ => rfl

/-- C8 (as stated, false): in the file `1 1 2 / 1 1abc` the whitespace-separated
token `1abc` is not an integer, so one integer token follows the header where
`M * K = 2` are needed and the stated rejection condition holds; yet `dpll_init`
and `walk_init` return 0, because `fscanf("%d")` converts the prefix `1` of
that token and the loaders read nothing after the last literal. -/
theorem loader_accepts_trailing_characters :
    word_tokens trailing_abc = [some 1, some 1, some 2, some 1, none] ∧
      rejects (word_tokens trailing_abc) ∧
      file_tokens trailing_abc = [some 1, some 1, some 2, some 1, some 1, none] ∧
      DPLL.dpll_init_ret (file_tokens trailing_abc) = 0 ∧
      ∀ mem, WalkSAT.walk_init_ret mem (file_tokens trailing_abc) = 0 := by
  have hw : word_tokens trailing_abc = [some 1, some 1, some 2, some 1, none] := by decide
  have hf : file_tokens trailing_abc = [some 1, some 1, some 2, some 1, some 1, none] := by
    decide
  have hs : (DPLL.dpll_init (file_tokens trailing_abc)).isSome = true := by
    rw [hf]; decide
  have hd : DPLL.dpll_init (file_tokens trailing_abc) ≠ none := by
    intro h; rw [h] at hs; exact absurd hs (by simp)
  refine ⟨hw, ?_, hf, (ret_zero_of_not_rejects WalkSAT.zero_mem _ hd).1,
    fun mem => (ret_zero_of_not_rejects mem _ hd).2⟩
  rw [hw]
  simp [rejects, int_run]

namespace DPLL

open situation

theorem assign_unset_new (s : State) (v : Nat) (b : Bool) (hv : v < s.N)
    (hs : s.assigned v = false) : assigns_new s.N s (unset (assign s v b) v) :=
  ⟨v, hv, hs, fun u => by rw [unset_assigned]; rfl⟩

/-- One nested call on a state that satisfies the invariant: it follows the
assignment of an unassigned symbol and its state satisfies the invariant. -/
theorem nested_call_step {s t : State} (d : Nat) (wf : well_formed s) (nr : no_repeat s)
    (inv : clause_state_inv s) (h : t ∈ nested_calls d s) :
    same_formula s t ∧ clause_state_inv t ∧ assigns_new s.N s t := by
  have step : ∀ v b, v < s.N → s.assigned v = false →
      same_formula s (unset (assign s v b) v) ∧ clause_state_inv (unset (assign s v b) v) ∧
        assigns_new s.N s (unset (assign s v b) v) := by
    intro v b hv hs
    exact ⟨same_formula_trans (same_formula_assign s v b) (same_formula_unset _ v),
      inv_assign_unset wf nr inv v b hs, assign_unset_new s v b hv hs⟩
  unfold nested_calls at h
  cases he : empty s with
  | true => simp [he] at h
  | false =>
    simp only [he, Bool.false_eq_true, if_false] at h
    cases hf : false_exists s with
    | true => simp [hf] at h
    | false =>
      simp only [hf, Bool.false_eq_true, if_false] at h
      cases hp : find_pure_symbol s with
      | some p =>
        obtain ⟨v, s1⟩ := p
        simp only [hp, List.mem_singleton] at h
        obtain ⟨hvN, hv, lit, -, -, hs1⟩ := find_pure_symbol_some hp
        subst hs1; subst h
        exact step v _ hvN hv
      | none =>
        simp only [hp] at h
        cases hu : find_unit_clause s with
        | some p =>
          obtain ⟨v, s1⟩ := p
          simp only [hu, List.mem_singleton] at h
          obtain ⟨i, hi, hc, j, hj, hl, hvj, hs1, -⟩ := find_unit_clause_some hu
          subst hs1; subst h
          have hv : s.assigned v = false := by
            rw [hvj]; exact set_lit_unassigned inv hi hj hc hl
          have hvN : v < s.N := by rw [hvj]; exact wf.lit_lt i hi j hj
          exact step v _ hvN hv
        | none =>
          simp only [hu] at h
          cases hpf : pick_first s with
          | none => simp [hpf] at h
          | some v =>
            simp only [hpf, List.mem_cons] at h
            obtain ⟨hvN, hv⟩ := pick_first_some hpf
            rcases h with h | h
            · subst h; exact step v true hvN hv
            · cases h1 : dpll d (unset (assign s v true) v) with
              | none => simp [h1] at h
              | some r =>
                obtain ⟨b, s2⟩ := r
                cases b with
                | true => simp [h1] at h
                | false =>
                  simp only [h1, List.mem_singleton] at h
                  subst h
                  have post1 := forced_step d (dpll_post_all d) wf nr inv v hv true false
                    (backtrack s2 v) (by rw [h1]; rfl)
                  have wf3 := well_formed_congr post1.same wf
                  have nr3 := no_repeat_congr post1.same nr
                  have hv3 : (backtrack s2 v).assigned v = false := by
                    rw [post1.assigned_eq rfl]; exact hv
                  refine ⟨same_formula_trans post1.same
                      (same_formula_trans (same_formula_assign _ v false) (same_formula_unset _ v)),
                    inv_assign_unset wf3 nr3 post1.inv v false hv3, v, hvN, hv, ?_⟩
                  intro u
                  rw [unset_assigned]
                  simp only [assign, upd]
                  split_ifs
                  · rfl
                  · exact post1.assigned_eq rfl u

/-- Along a call stack that starts in a state satisfying the invariant, every
state holds the same formula and satisfies the invariant, every call follows
the assignment of an unassigned symbol, and the number of nested calls is at
most the number of unassigned symbols of the first state. -/
theorem call_stack_inv (d : Nat) : ∀ (stack : List State) (s : State),
    well_formed s → no_repeat s → clause_state_inv s → call_stack d (s :: stack) →
      (∀ t, t ∈ s :: stack → same_formula s t ∧ clause_state_inv t) ∧
      List.Chain' (grows s.N) (s :: stack) ∧
      stack.length ≤ unassigned s := by
  intro stack
  induction stack with
  | nil =>
    intro s wf nr inv _
    refine ⟨?_, List.chain'_singleton s, Nat.zero_le _⟩
    intro t ht
    rw [List.mem_singleton] at ht
    subst ht
    exact ⟨same_formula_refl t, inv⟩
  | cons t stack ih =>
    intro s wf nr inv hc
    unfold call_stack at hc
    rw [List.chain'_cons] at hc
    obtain ⟨sf, invt, hnew⟩ := nested_call_step d wf nr inv hc.1
    obtain ⟨h1, h2, h3⟩ := ih t (well_formed_congr sf wf) (no_repeat_congr sf nr) invt hc.2
    obtain ⟨v, hv, hs, ht⟩ := hnew
    have hcount := unassigned_assign sf.N v hv hs ht
    refine ⟨?_, ?_, ?_⟩
    · intro u hu
      rcases List.mem_cons.1 hu with hu | hu
      · subst hu; exact ⟨same_formula_refl u, inv⟩
      · obtain ⟨a, b⟩ := h1 u hu
        exact ⟨same_formula_trans sf a, b⟩
    · rw [List.chain'_cons]
      rw [sf.N] at h2
      exact ⟨⟨⟨v, hv, hs, ht⟩, hcount⟩, h2⟩
    · simp only [List.length_cons]
      omega

theorem observe_init_run {α : Type} {toks : List Token} {f : State → α} {x : α}
    (h : observe_init toks f = some x) : ∃ s0, dpll_init toks = some s0 ∧ f s0 = x := by
  unfold observe_init at h
  cases h0 : dpll_init toks with
  | none => simp [h0] at h
  | some s0 =>
    simp [h0] at h
    exact ⟨s0, rfl, h⟩

/-- C13: for every input that `dpll_init` accepts and in which no clause holds
the same variable twice, `dpll` started from the loaded state returns within
the depth bound `N + 1`; along every call stack of the search each nested call
is made right after assigning a symbol that was unassigned (`grows`: the
assigned flags of the new state are those of the old one plus that symbol, so
one symbol less is unassigned), and at most `N` calls are nested in the first
one. -/
theorem dpll_call_stack_grows (toks : List Token) (s0 : State)
    (h0 : dpll_init toks = some s0) (nr : no_repeat s0) :
    (∃ r, dpll (s0.N + 1) s0 = some r) ∧
      ∀ d stack, call_stack d (s0 :: stack) →
        List.Chain' (grows s0.N) (s0 :: stack) ∧ stack.length ≤ s0.N := by
  refine ⟨dpll_init_returns h0 nr, ?_⟩
  intro d stack hc
  obtain ⟨-, h2, h3⟩ := call_stack_inv d stack s0 (dpll_init_well_formed h0) nr
    (dpll_init_inv h0) hc
  exact ⟨h2, le_trans h3 (unassigned_le s0)⟩

/-- The theorem above at Scenario 1, whose first call makes one nested
call. -/
theorem dpll_call_stack_grows_witness :
    ∃ s0, dpll_init scenario1 = some s0 ∧ no_repeat s0 ∧ (nested_calls 3 s0).length = 1 ∧
      (∃ r, dpll (s0.N + 1) s0 = some r) ∧
      ∀ d stack, call_stack d (s0 :: stack) →
        List.Chain' (grows s0.N) (s0 :: stack) ∧ stack.length ≤ s0.N := by
  have h : observe_init scenario1 (fun s0 => (decide (no_repeat s0), (nested_calls 3 s0).length))
      = some (true, 1) := by decide
  obtain ⟨s0, h0, h1⟩ := observe_init_run h
  simp only [Prod.mk.injEq, decide_eq_true_eq] at h1
  exact ⟨s0, h0, h1.1, h1.2, dpll_call_stack_grows scenario1 s0 h0 h1.1⟩

/-- C15: for every input that `dpll_init` accepts and in which no clause holds
the same variable twice, at every entry to `dpll` during the search (every
state of every call stack that starts with the loaded state) clause `i` is
`UNSET` exactly when one of its literals has an assigned symbol and evaluates
true, and literal occurrence `j` of clause `i` is `UNSET` exactly when its
symbol is assigned and the literal evaluates false. -/
theorem dpll_entry_invariant (toks : List Token) (s0 : State)
    (h0 : dpll_init toks = some s0) (nr : no_repeat s0) :
    ∀ d stack, call_stack d (s0 :: stack) → ∀ s, s ∈ s0 :: stack →
      (∀ i, i < s0.M →
        (s.clause_situation i = UNSET ↔
          ∃ j, j < s0.K ∧ s.assigned (sym_index (s0.literals i j)) = true ∧
            lit_truth (s.truth_val (sym_index (s0.literals i j))) (s0.literals i j) = true)) ∧
      (∀ i, i < s0.M → ∀ j, j < s0.K →
        (s.lit_situation i j = UNSET ↔
          (s.assigned (sym_index (s0.literals i j)) = true ∧
            lit_truth (s.truth_val (sym_index (s0.literals i j))) (s0.literals i j) = false))) := by
  intro d stack hc s hs
  obtain ⟨h1, -, -⟩ := call_stack_inv d stack s0 (dpll_init_well_formed h0) nr
    (dpll_init_inv h0) hc
  obtain ⟨sf, inv⟩ := h1 s hs
  constructor
  · intro i hi
    have := inv.clause i (by rw [sf.M]; exact hi)
    rw [sf.K, sf.literals] at this
    exact this
  · intro i hi j hj
    have := inv.lit i (by rw [sf.M]; exact hi) j (by rw [sf.K]; exact hj)
    rw [sf.literals] at this
    exact this

/-- The theorem above at Scenario 1, for the call nested in the first one. -/
theorem dpll_entry_invariant_witness :
    ∃ s0 t, dpll_init scenario1 = some s0 ∧ no_repeat s0 ∧ t ∈ nested_calls 3 s0 ∧
      (∀ i, i < s0.M →
        (t.clause_situation i = UNSET ↔
          ∃ j, j < s0.K ∧ t.assigned (sym_index (s0.literals i j)) = true ∧
            lit_truth (t.truth_val (sym_index (s0.literals i j))) (s0.literals i j) = true)) ∧
      (∀ i, i < s0.M → ∀ j, j < s0.K →
        (t.lit_situation i j = UNSET ↔
          (t.assigned (sym_index (s0.literals i j)) = true ∧
            lit_truth (t.truth_val (sym_index (s0.literals i j))) (s0.literals i j) = false))) := by
  have h : observe_init scenario1 (fun s0 => (decide (no_repeat s0), (nested_calls 3 s0).length))
      = some (true, 1) := by decide
  obtain ⟨s0, h0, h1⟩ := observe_init_run h
  simp only [Prod.mk.injEq, decide_eq_true_eq] at h1
  obtain ⟨t, ht⟩ : ∃ t, t ∈ nested_calls 3 s0 := by
    apply List.exists_mem_of_length_pos
    rw [h1.2]; exact Nat.one_pos
  have hc : call_stack 3 (s0 :: [t]) := by
    unfold call_stack
    rw [List.chain'_cons]
    exact ⟨ht, List.chain'_singleton t⟩
  exact ⟨s0, t, h0, h1.1, ht,
    dpll_entry_invariant scenario1 s0 h0 h1.1 3 [t] hc t (by simp)⟩

/-- C16: for every input that `dpll_init` accepts and in which no clause holds
the same variable twice, whenever a call of the search reaches the branching
step (its state is not empty, has no false clause, no pure symbol and no unit
clause), `pick_first` returns a symbol, which is unassigned: the branch
`sym == NULL` is not taken. -/
theorem dpll_branch_has_symbol (toks : List Token) (s0 : State)
    (h0 : dpll_init toks = some s0) (nr : no_repeat s0) :
    ∀ d stack, call_stack d (s0 :: stack) → ∀ s, s ∈ s0 :: stack →
      empty s = false → false_exists s = false → find_pure_symbol s = none →
      find_unit_clause s = none →
        ∃ v, pick_first s = some v ∧ v < s0.N ∧ s.assigned v = false := by
  intro d stack hc s hs he hf _ _
  have wf := dpll_init_well_formed h0
  obtain ⟨h1, -, -⟩ := call_stack_inv d stack s0 wf nr (dpll_init_inv h0) hc
  obtain ⟨sf, inv⟩ := h1 s hs
  cases hp : pick_first s with
  | none =>
    exact (no_symbol_left_absurd (well_formed_congr sf wf) inv he hf (pick_first_none hp)).elim
  | some v =>
    obtain ⟨a, b⟩ := pick_first_some hp
    exact ⟨v, rfl, by rw [← sf.N]; exact a, b⟩

/-- The theorem above at Scenario 1, whose first call reaches the branching
step. -/
theorem dpll_branch_has_symbol_witness :
    ∃ s0, dpll_init scenario1 = some s0 ∧ no_repeat s0 ∧
      ∃ v, pick_first s0 = some v ∧ v < s0.N ∧ s0.assigned v = false := by
  have h : observe_init scenario1 (fun s0 => (decide (no_repeat s0), empty s0, false_exists s0,
      (find_pure_symbol s0).isNone, (find_unit_clause s0).isNone))
      = some (true, false, false, true, true) := by decide
  obtain ⟨s0, h0, h1⟩ := observe_init_run h
  simp only [Prod.mk.injEq, decide_eq_true_eq, Option.isNone_iff_eq_none] at h1
  obtain ⟨nr, he, hf, hp, hu⟩ := h1
  have hc : call_stack 0 (s0 :: []) := List.chain'_singleton s0
  exact ⟨s0, h0, nr,
    dpll_branch_has_symbol scenario1 s0 h0 nr 0 [] hc s0 (by simp) he hf hp hu⟩

theorem observe_init_at {α : Type} {toks : List Token} {f : State → α} {x : α} {s0 : State}
    (h0 : dpll_init toks = some s0) (h : observe_init toks f = some x) : f s0 = x := by
  unfold observe_init at h
  rw [h0] at h
  simpa using h

theorem upd_self {α : Type} (a : Nat → α) (i : Nat) (x : α) (h : a i = x) : upd a i x = a := by
  funext k
  unfold upd
  split_ifs with hk
  · rw [hk, h]
  · rfl

theorem unset_assign_unchanged {s : State} {v : Nat} {b : Bool} (h : unchanged_by s v b) :
    unset (assign s v b) v = s := by
  obtain ⟨ht, ha, hc, hl⟩ := h
  have h1 : assign s v b = s := by
    unfold assign
    rw [upd_self s.truth_val v b ht, upd_self s.assigned v true ha]
  rw [h1, unset_eq]
  have e1 : (fun i => if i < s.M ∧ s.in_clauses v i = true ∧
      lit_truth (s.truth_val v) (s.literals i (s.in_clauses_loc v i)) = true
      then UNSET else s.clause_situation i) = s.clause_situation := by
    funext i
    split_ifs with h2
    · rw [ht] at h2; exact (hc i h2.1 h2.2.1 h2.2.2).symm
    · rfl
  have e2 : (fun i j => if i < s.M ∧ s.in_clauses v i = true ∧ j = s.in_clauses_loc v i ∧
      lit_truth (!s.truth_val v) (s.literals i (s.in_clauses_loc v i)) = true
      then UNSET else s.lit_situation i j) = s.lit_situation := by
    funext i j
    split_ifs with h2
    · rw [ht] at h2; rw [h2.2.2.1]; exact (hl i h2.1 h2.2.1 h2.2.2.2).symm
    · rfl
  rw [e1, e2]

/-- A state in which `dpll` finds a unit clause whose symbol already has the
value it assigns, with nothing left for `unset` to mark: the nested call
starts in the same state, so no depth bound is enough. -/
theorem dpll_stuck {s : State} {v : Nat} {s1 : State} (he : empty s = false)
    (hf : false_exists s = false) (hp : find_pure_symbol s = none)
    (hu : find_unit_clause s = some (v, s1)) (hs : unset s1 v = s) : ∀ d, dpll d s = none := by
  intro d
  induction d with
  | zero => rfl
  | succ d ih =>
    rw [dpll]
    simp only [he, hf, hp, hu, hs, ih, Bool.false_eq_true, if_false]
    rfl

theorem dpll_none_of_later {d e : Nat} (hde : d ≤ e) (s : State) (h : dpll e s = none) :
    dpll d s = none := by
  cases hd : dpll d s with
  | none => rfl
  | some r => rw [dpll_mono hde s r hd] at h; exact absurd h (by simp)

/-- C12 (the code breaks it): `dpll_init` accepts `2 3 2 / 1 -1 / 1 2 / -2 -2`
(N = 2), and `dpll` started from the loaded state returns for no depth bound:
after P1 = true (branching) and P2 = false (pure symbol), `find_unit_clause`
names the assigned P1 in the clause `1 -1` again and again, each nested call
starting in the state of the call before. -/
theorem dpll_never_returns_on_loop_input :
    ∃ s0, dpll_init loop_input = some s0 ∧ s0.N = 2 ∧ ∀ d, dpll d s0 = none := by
  have hA : observe_init loop_input loop_flags
      = some [false, false, true, true, false, false, false, false, true, true] := by decide
  have hB : observe_init loop_input loop_symbols = some [some 2, some 0, some 1, some 0] := by
    decide
  have hC : observe_init loop_input loop_values = some (some (-2), some true) := by decide
  obtain ⟨s0, h0, h1⟩ := observe_init_run hA
  have h2 := observe_init_at h0 hB
  have h3 := observe_init_at h0 hC
  simp only [loop_flags, List.cons.injEq, and_true, decide_eq_true_eq,
    Option.isNone_iff_eq_none] at h1
  simp only [loop_symbols, List.cons.injEq, and_true, Option.some.injEq] at h2
  simp only [loop_values, Prod.mk.injEq] at h3
  obtain ⟨he0, hf0, hp0, hu0, hea, hfa, heb, hfb, hpb, hfix⟩ := h1
  obtain ⟨hN, hpick, hpa, hub1⟩ := h2
  obtain ⟨hfo, hub2⟩ := h3
  unfold loop_second at heb hfb hpb hfix hub1 hub2
  unfold loop_first at hea hfa heb hfb hpb hfix hpa hub1 hub2 hfo
  refine ⟨s0, h0, hN, ?_⟩
  -- the state after P1 = true and P2 = false repeats itself
  have stuck : ∀ d, dpll d (unset (assign (unset (assign s0 0 true) 0) 1 false) 1) = none := by
    cases hu : find_unit_clause (unset (assign (unset (assign s0 0 true) 0) 1 false) 1) with
    | none => rw [hu] at hub1; simp at hub1
    | some p =>
      obtain ⟨v, s1⟩ := p
      rw [hu] at hub1 hub2
      simp only [Option.map_some', Option.some.injEq] at hub1 hub2
      subst hub1
      have htv := hub2
      obtain ⟨i, -, -, j, -, -, -, hs1, -⟩ := find_unit_clause_some hu
      have hb : decide (((unset (assign (unset (assign s0 0 true) 0) 1 false) 1).literals i j) > 0)
          = true := by
        rw [hs1] at htv
        simpa [assign, upd] using htv
      rw [hb] at hs1
      apply dpll_stuck heb hfb hpb hu
      rw [hs1]
      exact unset_assign_unchanged hfix
  -- the call after P1 = true takes the pure symbol P2
  have second : ∀ d, dpll (d + 1) (unset (assign s0 0 true) 0) = none := by
    intro d
    cases hp : find_pure_symbol (unset (assign s0 0 true) 0) with
    | none => rw [hp] at hpa; simp at hpa
    | some p =>
      obtain ⟨v, s1⟩ := p
      rw [hp] at hpa
      simp only [Option.map_some', Option.some.injEq] at hpa
      subst hpa
      obtain ⟨-, -, lit, hl, -, hs1⟩ := find_pure_symbol_some hp
      rw [hfo] at hl
      simp only [Option.some.injEq] at hl
      subst hl
      have hd : decide ((-2 : Int) > 0) = false := by decide
      rw [hd] at hs1
      rw [dpll]
      simp only [hea, hfa, hp, Bool.false_eq_true, if_false]
      rw [hs1, stuck d]
      rfl
  intro d
  apply dpll_none_of_later (Nat.le_add_right d 2)
  rw [dpll]
  simp only [he0, hf0, hp0, hu0, hpick, Bool.false_eq_true, if_false]
  rw [second d]

/-- C14 (the code breaks it): in the loaded state of `1 2 2 / 1 1 / -1 -1`,
P1 is unassigned and the clause `1 1` is pending (`SET`); after assigning
P1 = true with `unset` and undoing it with `_backtrack`, P1 is unassigned
again but the clause `1 1` stays satisfied (`UNSET`), because `true_lit_num`
counts the true literal twice and `set` restores a clause only for a count
of 1. -/
theorem undo_leaves_clause_unset :
    ∃ s0, dpll_init scenario2 = some s0 ∧ s0.assigned 0 = false ∧
      s0.clause_situation 0 = SET ∧
      true_lit_num (unset (assign s0 0 true) 0) 0 = 2 ∧
      (backtrack (unset (assign s0 0 true) 0) 0).assigned 0 = false ∧
      (backtrack (unset (assign s0 0 true) 0) 0).clause_situation 0 = UNSET := by
  have h : observe_init scenario2 (fun s0 =>
      [decide (s0.assigned 0 = false), decide (s0.clause_situation 0 = SET),
        decide (true_lit_num (unset (assign s0 0 true) 0) 0 = 2),
        decide ((backtrack (unset (assign s0 0 true) 0) 0).assigned 0 = false),
        decide ((backtrack (unset (assign s0 0 true) 0) 0).clause_situation 0 = UNSET)])
      = some [true, true, true, true, true] := by decide
  obtain ⟨s0, h0, h1⟩ := observe_init_run h
  simp only [List.cons.injEq, and_true, decide_eq_true_eq] at h1
  exact ⟨s0, h0, h1⟩

/-- C18 (the code breaks it): on `1 2 2 / 1 1 / -1 -1` the first call of
`dpll` assigns P1 = true and calls `dpll` in a state in which
`find_unit_clause` returns P1, which is assigned already, and changes its
value to false. -/
theorem unit_clause_names_assigned_symbol :
    ∃ s0 s, dpll_init scenario2 = some s0 ∧ s ∈ nested_calls 3 s0 ∧
      s.assigned 0 = true ∧ s.truth_val 0 = true ∧
      (find_unit_clause s).map Prod.fst = some 0 ∧
      (find_unit_clause s).map (fun p => p.2.truth_val 0) = some false := by
  have h : observe_init scenario2 (fun s0 =>
      ((nested_calls 3 s0).filter fun s =>
        s.assigned 0 && s.truth_val 0 &&
          decide ((find_unit_clause s).map Prod.fst = some 0) &&
          decide ((find_unit_clause s).map (fun p => p.2.truth_val 0) = some false)).length)
      = some 1 := by decide
  obtain ⟨s0, h0, h1⟩ := observe_init_run h
  obtain ⟨s, hs⟩ := List.exists_mem_of_length_pos (by rw [h1]; exact Nat.one_pos)
  rw [List.mem_filter] at hs
  simp only [Bool.and_eq_true, decide_eq_true_eq] at hs
  exact ⟨s0, s, h0, hs.1, hs.2.1.1.1, hs.2.1.1.2, hs.2.1.2, hs.2.2⟩

end DPLL

namespace WalkSAT

/-- C20 (the code breaks it): `walk_init` accepts `2 1 2 / 1 -2`; when the
memory that `malloc` returned held nonzero values, `pos_lit_in[0 * N + 1]` is
nonzero although the literal `+2` does not occur in clause 0 (its literals are
`1` and `-2`), and `neg_lit_in[0 * N + 0]` is nonzero although `-1` does not
occur: the cells of literals that do not occur are never written. -/
theorem walk_init_keeps_malloc_values :
    ∃ g, walk_init ones_mem mixed_clause = some g ∧ g.N = 2 ∧ g.M = 1 ∧ g.K = 2 ∧
      g.Problem (0 * g.K + 0) = 1 ∧ g.Problem (0 * g.K + 1) = -2 ∧
      g.pos_lit_in (0 * g.N + 1) = true ∧ g.neg_lit_in (0 * g.N + 0) = true := by
  have h : (walk_init ones_mem mixed_clause).map (fun g =>
      ([g.N, g.M, g.K], [g.Problem (0 * g.K + 0), g.Problem (0 * g.K + 1)],
        [g.pos_lit_in (0 * g.N + 1), g.neg_lit_in (0 * g.N + 0)]))
      = some ([2, 1, 2], [1, -2], [true, true]) := by decide
  cases h0 : walk_init ones_mem mixed_clause with
  | none => rw [h0] at h; simp at h
  | some g =>
    rw [h0] at h
    simp only [Option.map_some', Option.some.injEq, Prod.mk.injEq, List.cons.injEq,
      and_true] at h
    obtain ⟨⟨a, b, c⟩, ⟨d, e⟩, f, k⟩ := h
    exact ⟨g, rfl, a, b, c, d, e, f, k⟩

end WalkSAT

namespace DPLL

open situation

theorem find_pure_symbol_loop_first {s : State} {v : Nat} {s1 : State} :
    ∀ (l : List Nat), l.Pairwise (· < ·) → find_pure_symbol_loop s l = some (v, s1) →
      ∀ u, u ∈ l → u < v → ¬ pure_test s u := by
  intro l
  induction l with
  | nil => intro _ _ u hu; simp at hu
  | cons i is ih =>
    intro hpw h u hu huv
    rw [List.pairwise_cons] at hpw
    rw [find_pure_symbol_loop] at h
    have skip : find_pure_symbol_loop s is = some (v, s1) → ¬ pure_test s i →
        ¬ pure_test s u := by
      intro h' hni
      rcases List.mem_cons.1 hu with h1 | h1
      · rw [h1]; exact hni
      · exact ih hpw.2 h' u h1 huv
    cases ha : s.assigned i with
    | true =>
      simp only [ha, Bool.not_true, Bool.false_eq_true, if_false] at h
      exact skip h (fun hp => by rw [hp.1] at ha; exact absurd ha (by simp))
    | false =>
      simp only [ha, Bool.not_false, if_true] at h
      cases hf : first_occurence s i with
      | none =>
        simp only [hf] at h
        exact skip h (fun hp => by
          obtain ⟨-, lit, hl, -⟩ := hp
          rw [hf] at hl; exact absurd hl (by simp))
      | some lit =>
        simp only [hf] at h
        cases hp : pure_scan s i lit with
        | false =>
          simp only [hp, Bool.false_eq_true, if_false] at h
          exact skip h (fun hq => by
            obtain ⟨-, lit', hl, hs⟩ := hq
            rw [hf] at hl
            simp only [Option.some.injEq] at hl
            rw [← hl, hp] at hs; exact absurd hs (by simp))
        | true =>
          simp only [hp, if_true, Option.some.injEq, Prod.mk.injEq] at h
          obtain ⟨h1, -⟩ := h
          subst h1
          rcases List.mem_cons.1 hu with h1 | h1
          · omega
          · have := hpw.1 u h1; omega

theorem find_pure_symbol_loop_none {s : State} :
    ∀ (l : List Nat), find_pure_symbol_loop s l = none ↔ ∀ u, u ∈ l → ¬ pure_test s u := by
  intro l
  induction l with
  | nil => simp [find_pure_symbol_loop]
  | cons i is ih =>
    rw [find_pure_symbol_loop]
    have key : ¬ pure_test s i →
        (find_pure_symbol_loop s is = none ↔ ∀ u, u ∈ i :: is → ¬ pure_test s u) := by
      intro hni
      rw [ih]
      constructor
      · intro h u hu
        rcases List.mem_cons.1 hu with h1 | h1
        · rw [h1]; exact hni
        · exact h u h1
      · intro h u hu; exact h u (List.mem_cons_of_mem _ hu)
    cases ha : s.assigned i with
    | true =>
      simp only [Bool.not_true, Bool.false_eq_true, if_false]
      exact key (fun hp => by rw [hp.1] at ha; exact absurd ha (by simp))
    | false =>
      simp only [Bool.not_false, if_true]
      cases hf : first_occurence s i with
      | none =>
        simp only
        exact key (fun hp => by
          obtain ⟨-, lit, hl, -⟩ := hp
          rw [hf] at hl; exact absurd hl (by simp))
      | some lit =>
        simp only
        cases hp : pure_scan s i lit with
        | false =>
          simp only [Bool.false_eq_true, if_false]
          exact key (fun hq => by
            obtain ⟨-, lit', hl, hs⟩ := hq
            rw [hf] at hl
            simp only [Option.some.injEq] at hl
            rw [← hl, hp] at hs; exact absurd hs (by simp))
        | true =>
          simp only [if_true, reduceCtorEq, false_iff, not_forall]
          exact ⟨i, List.mem_cons_self _ _, fun hn => hn ⟨ha, lit, hf, hp⟩⟩

theorem first_occurence_none {s : State} {v : Nat} (h : first_occurence s v = none) :
    ∀ i, i < s.M → s.clause_situation i = SET → s.in_clauses v i = false := by
  unfold first_occurence at h
  rw [Option.map_eq_none', List.find?_eq_none] at h
  intro i hi hc
  have := h i (List.mem_range.2 hi)
  simpa [hc] using this

theorem literal_eq_of_same_symbol {a b : Int} (ha : a ≠ 0) (hb : b ≠ 0)
    (hs : sym_index a = sym_index b) (hp : decide (a > 0) = decide (b > 0)) : a = b := by
  unfold sym_index at hs
  have hp' : a > 0 ↔ b > 0 := by simpa using hp
  omega

/-- With the tables of the loader and no repeated variable in a clause, the
test of `find_pure_symbol` is the definition of a pure symbol. -/
theorem pure_test_iff {s : State} (wf : well_formed s) (nr : no_repeat s) (v : Nat)
    (hv : v < s.N) : pure_test s v ↔ pure_in s v := by
  constructor
  · rintro ⟨ha, lit, hf, hp⟩
    obtain ⟨i0, hi0, hc0, hin0, hl0⟩ := first_occurence_some hf
    refine ⟨hv, ha, ⟨i0, hi0, hc0, s.in_clauses_loc v i0, wf.loc_lt v i0 hi0 hin0,
      wf.loc_sym v i0 hi0 hin0⟩, decide (lit > 0), ?_⟩
    intro i hi hc j hj hs
    obtain ⟨hin, hloc⟩ := loc_unique wf nr hi hj
    rw [hs] at hin hloc
    have := (pure_scan_iff s v lit).1 hp i hi hc hin
    rw [hloc] at this
    rw [this]
  · rintro ⟨-, ha, ⟨i0, hi0, hc0, j0, hj0, hs0⟩, pol, hpol⟩
    refine ⟨ha, ?_⟩
    cases hf : first_occurence s v with
    | none =>
      have := first_occurence_none hf i0 hi0 hc0
      rw [(wf.in_iff v i0 hi0).2 ⟨j0, hj0, hs0⟩] at this
      exact absurd this (by simp)
    | some lit =>
      refine ⟨lit, rfl, ?_⟩
      obtain ⟨i1, hi1, hc1, hin1, hl1⟩ := first_occurence_some hf
      rw [pure_scan_iff]
      intro i hi hc hin
      have h1 := hpol i1 hi1 hc1 _ (wf.loc_lt v i1 hi1 hin1) (wf.loc_sym v i1 hi1 hin1)
      have h2 := hpol i hi hc _ (wf.loc_lt v i hi hin) (wf.loc_sym v i hi hin)
      rw [hl1]
      apply literal_eq_of_same_symbol (wf.lit_ne i hi _ (wf.loc_lt v i hi hin))
        (wf.lit_ne i1 hi1 _ (wf.loc_lt v i1 hi1 hin1))
      · rw [wf.loc_sym v i hi hin, wf.loc_sym v i1 hi1 hin1]
      · rw [h1, h2]

/-- C17: for every input that `dpll_init` accepts and in which no clause holds
the same variable twice, and every state `s` with the loaded formula and
tables (any clause statuses, literal statuses, assigned flags and truth
values), when `find_pure_symbol` returns a symbol it is the lowest-id pure
symbol (unassigned, in at least one pending clause, with one polarity `pol` in
all pending clauses that contain it), and the state it leaves is `s` with the
truth value of that symbol set to `pol` and the symbol marked assigned; it
returns `NULL` exactly when there is no pure symbol. -/
theorem find_pure_symbol_spec (toks : List Token) (s0 s : State)
    (h0 : dpll_init toks = some s0) (nr : no_repeat s0) (sf : same_formula s0 s) :
    (∀ v s1, find_pure_symbol s = some (v, s1) →
      pure_in s v ∧ (∀ u, u < v → ¬ pure_in s u) ∧
        ∃ pol, polarity_in_pending s v pol ∧ s1 = assign s v pol) ∧
    (find_pure_symbol s = none ↔ ∀ v, ¬ pure_in s v) := by
  have wf := well_formed_congr sf (dpll_init_well_formed h0)
  have nr' := no_repeat_congr sf nr
  constructor
  · intro v s1 h
    obtain ⟨hvN, ha, lit, hf, hp, hs1⟩ := find_pure_symbol_some h
    have hpure := (pure_test_iff wf nr' v hvN).1 ⟨ha, lit, hf, hp⟩
    refine ⟨hpure, ?_, ?_⟩
    · intro u hu hpu
      have := find_pure_symbol_loop_first _ (List.pairwise_lt_range s.N) h u
        (List.mem_range.2 (by omega)) hu
      exact this ((pure_test_iff wf nr' u (by omega)).2 hpu)
    · refine ⟨decide (lit > 0), ?_, hs1⟩
      obtain ⟨-, -, ⟨i0, hi0, hc0, j0, hj0, hs0⟩, pol, hpol⟩ := hpure
      obtain ⟨i1, hi1, hc1, hin1, hl1⟩ := first_occurence_some hf
      have := hpol i1 hi1 hc1 _ (wf.loc_lt v i1 hi1 hin1) (wf.loc_sym v i1 hi1 hin1)
      rw [← hl1] at this
      rw [this]; exact hpol
  · unfold find_pure_symbol
    rw [find_pure_symbol_loop_none]
    constructor
    · intro h v hp
      exact h v (List.mem_range.2 hp.1) ((pure_test_iff wf nr' v hp.1).2 hp)
    · intro h u hu hp
      exact h u ((pure_test_iff wf nr' u (List.mem_range.1 hu)).1 hp)

/-- The theorem above at Scenario 1, in the loaded state (no pure symbol) and
in the state after P1 = true, where P2 is pure. -/
theorem find_pure_symbol_spec_witness :
    ∃ s0, dpll_init scenario1 = some s0 ∧ no_repeat s0 ∧
      (find_pure_symbol s0 = none ↔ ∀ v, ¬ pure_in s0 v) ∧
      (find_pure_symbol (unset (assign s0 0 true) 0)).map Prod.fst = some 1 ∧
      pure_in (unset (assign s0 0 true) 0) 1 := by
  have h : observe_init scenario1 (fun s0 => (decide (no_repeat s0),
      (find_pure_symbol (unset (assign s0 0 true) 0)).map Prod.fst)) = some (true, some 1) := by
    decide
  obtain ⟨s0, h0, h1⟩ := observe_init_run h
  simp only [Prod.mk.injEq, decide_eq_true_eq] at h1
  obtain ⟨nr, hp⟩ := h1
  have sf : same_formula s0 (unset (assign s0 0 true) 0) :=
    same_formula_trans (same_formula_assign s0 0 true) (same_formula_unset _ 0)
  refine ⟨s0, h0, nr, (find_pure_symbol_spec scenario1 s0 s0 h0 nr (same_formula_refl s0)).2,
    hp, ?_⟩
  cases hf : find_pure_symbol (unset (assign s0 0 true) 0) with
  | none => rw [hf] at hp; simp at hp
  | some p =>
    obtain ⟨v, s1⟩ := p
    rw [hf] at hp
    simp only [Option.map_some', Option.some.injEq] at hp
    subst hp
    exact ((find_pure_symbol_spec scenario1 s0 _ h0 nr sf).1 1 s1 hf).1

theorem fscanf_d_some {t rest : List Token} {z : Int} (h : fscanf_d t = some (z, rest)) :
    t = some z :: rest := by
  match t with
  | [] => simp [fscanf_d] at h
  | none :: _ => simp [fscanf_d] at h
  | some z' :: r =>
    simp only [fscanf_d, Option.some.injEq, Prod.mk.injEq] at h
    rw [h.1, h.2]

theorem drop_eq_cons {α : Type} {x : α} {r : List α} : ∀ (c : Nat) (l : List α),
    l.drop c = x :: r → l[c]? = some x ∧ l.drop (c + 1) = r := by
  intro c
  induction c with
  | zero =>
    intro l h
    rw [List.drop_zero] at h
    rw [h]
    simp
  | succ c ih =>
    intro l h
    match l with
    | [] => simp at h
    | y :: l' =>
      rw [List.drop_succ_cons] at h
      have := ih l' h
      simpa using this

theorem flat_index_unique {K a b i j : Nat} (hb : b < K) (hj : j < K)
    (h : a * K + b = i * K + j) : a = i ∧ b = j := by
  have h1 : (a * K + b) / K = a := by
    rw [Nat.add_comm, Nat.add_mul_div_right _ _ (by omega : 0 < K), Nat.div_eq_of_lt hb]
    omega
  have h2 : (i * K + j) / K = i := by
    rw [Nat.add_comm, Nat.add_mul_div_right _ _ (by omega : 0 < K), Nat.div_eq_of_lt hj]
    omega
  have hai : a = i := by rw [← h1, ← h2, h]
  subst hai
  exact ⟨rfl, by omega⟩

theorem read_so_far_store {s : State} {all t rest : List Token} {i j : Nat} {z : Int}
    (r : read_so_far s all (i * s.K + j) t) (hj : j < s.K) (hf : fscanf_d t = some (z, rest)) :
    read_so_far (store_literal s i j z) all (i * s.K + j + 1) rest := by
  have ht := fscanf_d_some hf
  rw [r.rest] at ht
  obtain ⟨hget, hdrop⟩ := drop_eq_cons _ _ ht
  have split : ∀ a b, b < s.K → a * s.K + b < i * s.K + j + 1 →
      (a = i ∧ b = j) ∨ (a * s.K + b < i * s.K + j ∧ ¬ (a = i ∧ b = j)) := by
    intro a b hb hlt
    by_cases he : a * s.K + b = i * s.K + j
    · exact Or.inl (flat_index_unique hb hj he)
    · refine Or.inr ⟨by omega, ?_⟩
      rintro ⟨rfl, rfl⟩; exact he rfl
  constructor
  · exact hdrop.symm
  · intro a b hb hlt
    simp only [store_literal] at hb hlt ⊢
    rcases split a b hb hlt with ⟨rfl, rfl⟩ | ⟨h1, h2⟩
    · simp only [upd2, and_self, if_true]; exact hget
    · simp only [upd2, h2, if_false]; exact r.literal a b hb h1
  · intro a b hb hlt
    simp only [store_literal] at hb hlt ⊢
    rcases split a b hb hlt with ⟨rfl, rfl⟩ | ⟨h1, h2⟩
    · simp [upd2]
    · simp only [upd2, h2, if_false]
      split_ifs with h3
      · obtain ⟨-, rfl⟩ := h3
        have : b < j := by
          by_contra hc
          have : j ≤ b := by omega
          omega
        omega
      · exact r.last a b hb h1

theorem read_clause_so_far (i : Nat) (all : List Token) : ∀ (n j : Nat) (s : State)
    (t : List Token) (s' : State) (t' : List Token),
    read_clause i (List.range' j n) s t = some (s', t') → j + n = s.K →
    read_so_far s all (i * s.K + j) t →
      read_so_far s' all (i * s.K + s.K) t' ∧ s'.K = s.K := by
  intro n
  induction n with
  | zero =>
    intro j s t s' t' h hK r
    simp only [List.range'_zero, read_clause, Option.some.injEq, Prod.mk.injEq] at h
    rw [← h.1, ← h.2]
    have : j = s.K := by omega
    rw [this] at r
    exact ⟨r, rfl⟩
  | succ n ih =>
    intro j s t s' t' h hK r
    rw [List.range'_succ, read_clause] at h
    cases hf : fscanf_d t with
    | none => simp [hf] at h
    | some p =>
      obtain ⟨z, rest⟩ := p
      simp only [hf] at h
      split_ifs at h with hz
      have r1 := read_so_far_store r (by omega) hf
      have := ih (j + 1) (store_literal s i j z) rest s' t' h (by simp [store_literal]; omega) r1
      exact this

theorem read_clauses_so_far (all : List Token) : ∀ (n i : Nat) (s : State)
    (t : List Token) (s' : State) (t' : List Token),
    read_clauses (List.range' i n) s t = some (s', t') →
    read_so_far s all (i * s.K) t →
      read_so_far s' all ((i + n) * s.K) t' ∧ s'.K = s.K := by
  intro n
  induction n with
  | zero =>
    intro i s t s' t' h r
    simp only [List.range'_zero, read_clauses, Option.some.injEq, Prod.mk.injEq] at h
    rw [← h.1, ← h.2]
    exact ⟨r, rfl⟩
  | succ n ih =>
    intro i s t s' t' h r
    rw [List.range'_succ, read_clauses] at h
    cases hr : read_clause i (List.range s.K)
        { s with clause_situation := upd s.clause_situation i SET } t with
    | none => simp [hr] at h
    | some p =>
      obtain ⟨s1, rest⟩ := p
      simp only [hr] at h
      rw [List.range_eq_range'] at hr
      have r0 : read_so_far { s with clause_situation := upd s.clause_situation i SET } all
          (i * s.K + 0) t := ⟨r.rest, r.literal, r.last⟩
      obtain ⟨r1, hK1⟩ := read_clause_so_far i all s.K 0 _ t s1 rest hr (by simp) r0
      simp only at r1 hK1
      have r1' : read_so_far s1 all ((i + 1) * s1.K) rest := by
        rw [hK1, Nat.add_mul, Nat.one_mul]; exact r1
      obtain ⟨r2, hK2⟩ := ih (i + 1) s1 rest s' t' h r1'
      refine ⟨?_, hK2.trans hK1⟩
      rw [hK1] at r2
      have : i + (n + 1) = i + 1 + n := by omega
      rw [this]; exact r2

theorem dpll_init_tokens {toks : List Token} {s0 : State} (h : dpll_init toks = some s0) :
    ∃ n m k all t', toks = some n :: some m :: some k :: all ∧
      read_so_far s0 all (s0.M * s0.K) t' := by
  unfold dpll_init at h
  cases h1 : fscanf_d toks with
  | none => simp [h1] at h
  | some p1 =>
    obtain ⟨n, t1⟩ := p1
    simp only [h1] at h
    split_ifs at h with hn
    cases h2 : fscanf_d t1 with
    | none => simp [h2] at h
    | some p2 =>
      obtain ⟨m, t2⟩ := p2
      simp only [h2] at h
      split_ifs at h with hm
      cases h3 : fscanf_d t2 with
      | none => simp [h3] at h
      | some p3 =>
        obtain ⟨k, t3⟩ := p3
        simp only [h3] at h
        split_ifs at h with hk
        cases h4 : read_clauses (List.range m.toNat) (calloc_state n.toNat m.toNat k.toNat) t3 with
        | none => simp [h4] at h
        | some p4 =>
          obtain ⟨s, t4⟩ := p4
          simp only [h4, Option.some.injEq] at h
          subst h
          have e1 := fscanf_d_some h1
          have e2 := fscanf_d_some h2
          have e3 := fscanf_d_some h3
          refine ⟨n, m, k, t3, t4, by rw [e1, e2, e3], ?_⟩
          rw [List.range_eq_range'] at h4
          have r0 : read_so_far (calloc_state n.toNat m.toNat k.toNat) t3
              (0 * (calloc_state n.toNat m.toNat k.toNat).K) t3 := by
            constructor
            · simp
            · intro a b _ hlt; simp at hlt
            · intro a b _ hlt; simp at hlt
          obtain ⟨r, hK⟩ := read_clauses_so_far t3 _ 0 _ _ _ _ h4 r0
          obtain ⟨-, -, hM, -, -⟩ := read_clauses_loaded _ _ _ _ _ (fun _ _ => False) h4
            (by constructor <;> simp [calloc_state]) (by simp) (List.nodup_range' _ _)
          simp only [calloc_state, Nat.zero_add] at r hK hM
          rw [hM, hK]
          exact r

theorem flat_index_lt {M K a b : Nat} (ha : a < M) (hb : b < K) : a * K + b < M * K := by
  calc a * K + b < a * K + K := by omega
    _ = (a + 1) * K := by rw [Nat.add_mul, Nat.one_mul]
    _ ≤ M * K := Nat.mul_le_mul_right K ha

theorem sym_index_eq_iff {z : Int} (hz : z ≠ 0) (v : Nat) :
    sym_index z = v ↔ z.natAbs = v + 1 := by
  unfold sym_index
  omega

/-- C19: when `dpll_init` returns 0, clause `i` holds the literal tokens
`i * K .. i * K + K - 1` of the input (the tokens after the three of the
header) in order, every clause and every literal occurrence is `SET`, every
symbol is unassigned, `_in_clauses[i]` of the symbol `v` (variable `v + 1`) is
1 exactly when a literal of clause `i` has magnitude `v + 1`, and then
`_in_clauses_loc[i]` is the last position of clause `i` whose literal has that
magnitude. -/
theorem dpll_init_model (toks : List Token) (s0 : State) (h0 : dpll_init toks = some s0) :
    (∀ i, i < s0.M → ∀ j, j < s0.K →
      toks[3 + (i * s0.K + j)]? = some (some (s0.literals i j))) ∧
    (∀ i, i < s0.M → s0.clause_situation i = SET) ∧
    (∀ i, i < s0.M → ∀ j, j < s0.K → s0.lit_situation i j = SET) ∧
    (∀ v, s0.assigned v = false) ∧
    (∀ v i, i < s0.M →
      (s0.in_clauses v i = true ↔ ∃ j, j < s0.K ∧ (s0.literals i j).natAbs = v + 1)) ∧
    (∀ v i, i < s0.M → s0.in_clauses v i = true →
      s0.in_clauses_loc v i < s0.K ∧
      (s0.literals i (s0.in_clauses_loc v i)).natAbs = v + 1 ∧
      ∀ j, j < s0.K → (s0.literals i j).natAbs = v + 1 → j ≤ s0.in_clauses_loc v i) := by
  obtain ⟨l, -, -, hK, -⟩ := dpll_init_loaded h0
  have wf := dpll_init_well_formed h0
  obtain ⟨n, m, k, all, t', htoks, r⟩ := dpll_init_tokens h0
  refine ⟨?_, ?_, ?_, l.unassigned, ?_, ?_⟩
  · intro i hi j hj
    have := r.literal i j hj (flat_index_lt hi hj)
    rw [htoks]
    simpa [Nat.add_comm 3] using this
  · intro i hi
    exact l.clause_set i 0 ⟨hi, by omega⟩
  · intro i hi j hj
    exact l.lit_set i j ⟨hi, hj⟩
  · intro v i hi
    rw [wf.in_iff v i hi]
    constructor
    · rintro ⟨j, hj, hv⟩
      exact ⟨j, hj, (sym_index_eq_iff (wf.lit_ne i hi j hj) v).1 hv⟩
    · rintro ⟨j, hj, hv⟩
      exact ⟨j, hj, (sym_index_eq_iff (wf.lit_ne i hi j hj) v).2 hv⟩
  · intro v i hi hin
    have hl := wf.loc_lt v i hi hin
    refine ⟨hl, (sym_index_eq_iff (wf.lit_ne i hi _ hl) v).1 (wf.loc_sym v i hi hin), ?_⟩
    intro j hj hv
    have := r.last i j hj (flat_index_lt hi hj)
    rw [(sym_index_eq_iff (wf.lit_ne i hi j hj) v).2 hv] at this
    exact this

/-- The theorem above at Scenario 1. -/
theorem dpll_init_model_witness :
    ∃ s0, dpll_init scenario1 = some s0 ∧ s0.M = 2 ∧ s0.K = 2 ∧
      (∀ i, i < s0.M → ∀ j, j < s0.K →
        scenario1[3 + (i * s0.K + j)]? = some (some (s0.literals i j))) ∧
      (∀ i, i < s0.M → s0.clause_situation i = SET) ∧
      (∀ i, i < s0.M → ∀ j, j < s0.K → s0.lit_situation i j = SET) ∧
      (∀ v, s0.assigned v = false) ∧
      (∀ v i, i < s0.M →
        (s0.in_clauses v i = true ↔ ∃ j, j < s0.K ∧ (s0.literals i j).natAbs = v + 1)) ∧
      (∀ v i, i < s0.M → s0.in_clauses v i = true →
        s0.in_clauses_loc v i < s0.K ∧
        (s0.literals i (s0.in_clauses_loc v i)).natAbs = v + 1 ∧
        ∀ j, j < s0.K → (s0.literals i j).natAbs = v + 1 → j ≤ s0.in_clauses_loc v i) := by
  have h : observe_init scenario1 (fun s0 => [s0.M, s0.K]) = some [2, 2] := by decide
  obtain ⟨s0, h0, h1⟩ := observe_init_run h
  simp only [List.cons.injEq, and_true] at h1
  exact ⟨s0, h0, h1.1, h1.2, dpll_init_model scenario1 s0 h0⟩

end DPLL

namespace Generator

theorem int_of_long_eq {x : Int} (h0 : 0 ≤ x) (h1 : x ≤ 2147483647) : int_of_long x = x := by
  unfold int_of_long
  omega

theorem draw_genum_spec {rand : Nat → Nat} {N : Nat} (hN : 1 ≤ N) (hN2 : N ≤ 2147483647)
    {problem : Nat → Nat → Int} {i j : Nat} : ∀ (draws t : Nat) (genum : Int) (t1 : Nat),
    draw_genum rand N problem i j draws t = some (genum, t1) →
      1 ≤ genum ∧ genum ≤ N ∧ same_val genum problem i j = false := by
  intro draws
  induction draws with
  | zero => intro t genum t1 h; simp [draw_genum] at h
  | succ d ih =>
    intro t genum t1 h
    rw [draw_genum] at h
    split_ifs at h with hs
    · exact ih _ _ _ h
    · simp only [Option.some.injEq, Prod.mk.injEq] at h
      have hpos : (0 : Int) < (N : Int) := by omega
      have m0 := Int.emod_nonneg (rand t : Int) (ne_of_gt hpos)
      have m1 := Int.emod_lt_of_pos (rand t : Int) hpos
      have e := int_of_long_eq (x := (rand t : Int) % (N : Int) + 1) (by omega) (by omega)
      rw [e] at h hs
      rw [← h.1]
      exact ⟨by omega, by omega, by simpa using hs⟩

theorem fill_clause_spec {rand : Nat → Nat} {N draws i : Nat} (hN : 1 ≤ N)
    (hN2 : N ≤ 2147483647) :
    ∀ (n j : Nat) (problem : Nat → Nat → Int) (t : Nat) (problem' : Nat → Nat → Int) (t' : Nat),
    fill_clause rand N draws i (List.range' j n) problem t = some (problem', t') →
    row_ok N problem i j →
      row_ok N problem' i (j + n) ∧ ∀ a b, a ≠ i → problem' a b = problem a b := by
  intro n
  induction n with
  | zero =>
    intro j problem t problem' t' h r
    simp only [List.range'_zero, fill_clause, Option.some.injEq, Prod.mk.injEq] at h
    rw [← h.1]
    exact ⟨r, fun _ _ _ => rfl⟩
  | succ n ih =>
    intro j problem t problem' t' h r
    rw [List.range'_succ, fill_clause] at h
    cases hd : draw_genum rand N problem i j draws t with
    | none => simp [hd] at h
    | some p =>
      obtain ⟨genum, t1⟩ := p
      simp only [hd] at h
      obtain ⟨h1, h2, h3⟩ := draw_genum_spec hN hN2 _ _ _ _ hd
      have hneg : int_of_long (-genum) = -genum := by
        unfold int_of_long
        omega
      rw [hneg] at h
      have habs : ((if rand t1 % 10 < 5 then -genum else genum).natAbs : Int) = genum := by
        split_ifs <;> omega
      have hnew : ∀ b, b < j → ((problem i b).natAbs : Int) ≠ genum := by
        intro b hb
        unfold same_val at h3
        rw [List.any_eq_false] at h3
        have hb3 := h3 b (List.mem_range.2 hb)
        have hrange := r.1 b hb
        rw [int_of_long_eq (by omega) (by omega)] at hb3
        simpa using hb3
      have r1 : row_ok N (upd2 problem i j (if rand t1 % 10 < 5 then -genum else genum)) i
          (j + 1) := by
        constructor
        · intro b hb
          by_cases hbj : b = j
          · subst hbj
            simp only [upd2, and_self, if_true]
            omega
          · simp only [upd2, hbj, and_false, if_false]
            exact r.1 b (by omega)
        · intro b1 hb1 b2 hb2 he
          by_cases e1 : b1 = j <;> by_cases e2 : b2 = j
          · rw [e1, e2]
          · subst e1
            simp only [upd2, and_self, if_true, e2, and_false, if_false] at he
            have := hnew b2 (by omega)
            omega
          · subst e2
            simp only [upd2, and_self, if_true, e1, and_false, if_false] at he
            have := hnew b1 (by omega)
            omega
          · simp only [upd2, e1, e2, and_false, if_false] at he
            exact r.2 b1 (by omega) b2 (by omega) he
      obtain ⟨r2, hframe⟩ := ih (j + 1) _ _ _ _ h r1
      have e : j + 1 + n = j + (n + 1) := by omega
      rw [e] at r2
      refine ⟨r2, ?_⟩
      intro a b ha
      rw [hframe a b ha]
      simp [upd2, ha]

theorem fill_clauses_spec {rand : Nat → Nat} {N K draws : Nat} (hN : 1 ≤ N)
    (hN2 : N ≤ 2147483647) :
    ∀ (n i : Nat) (problem : Nat → Nat → Int) (t : Nat) (problem' : Nat → Nat → Int) (t' : Nat),
    fill_clauses rand N K draws (List.range' i n) problem t = some (problem', t') →
    (∀ a, a < i → row_ok N problem a K) →
      ∀ a, a < i + n → row_ok N problem' a K := by
  intro n
  induction n with
  | zero =>
    intro i problem t problem' t' h r
    simp only [List.range'_zero, fill_clauses, Option.some.injEq, Prod.mk.injEq] at h
    rw [← h.1]
    exact r
  | succ n ih =>
    intro i problem t problem' t' h r
    rw [List.range'_succ, fill_clauses] at h
    cases hf : fill_clause rand N draws i (List.range K) problem t with
    | none => simp [hf] at h
    | some p =>
      obtain ⟨problem1, t1⟩ := p
      simp only [hf] at h
      rw [List.range_eq_range'] at hf
      obtain ⟨r1, hframe⟩ := fill_clause_spec hN hN2 K 0 problem t problem1 t1 hf
        ⟨fun b hb => absurd hb (Nat.not_lt_zero b), fun b hb => absurd hb (Nat.not_lt_zero b)⟩
      rw [Nat.zero_add] at r1
      have := ih (i + 1) problem1 t1 problem' t' h (by
        intro a ha
        by_cases hai : a = i
        · rw [hai]; exact r1
        · have ra := r a (by omega)
          unfold row_ok at ra ⊢
          simp only [hframe a _ hai]
          exact ra)
      intro a ha
      exact this a (by omega)

theorem int_run_map_some (l : List Int) : int_run (l.map some) = l := by
  induction l with
  | nil => rfl
  | cons z l ih => simp [int_run, ih]

theorem rows_length (M K : Nat) (hK : 1 ≤ K) (problem : Nat → Nat → Int) :
    ((List.range M).flatMap fun i =>
      (List.range (K - 1)).map (fun j => problem i j) ++ [problem i (K - 1)]).length = M * K := by
  induction M with
  | zero => simp
  | succ M ih =>
    rw [List.range_succ, List.flatMap_append, List.length_append, ih]
    simp only [List.flatMap_cons, List.flatMap_nil, List.append_nil, List.length_append,
      List.length_map, List.length_range, List.length_singleton]
    rw [Nat.succ_mul]
    omega

theorem rows_mem (M K : Nat) (hK : 1 ≤ K) (problem : Nat → Nat → Int) (z : Int)
    (h : z ∈ (List.range M).flatMap fun i =>
      (List.range (K - 1)).map (fun j => problem i j) ++ [problem i (K - 1)]) :
    ∃ i, i < M ∧ ∃ j, j < K ∧ z = problem i j := by
  rw [List.mem_flatMap] at h
  obtain ⟨i, hi, hz⟩ := h
  rw [List.mem_range] at hi
  rw [List.mem_append] at hz
  rcases hz with hz | hz
  · rw [List.mem_map] at hz
    obtain ⟨j, hj, e⟩ := hz
    rw [List.mem_range] at hj
    exact ⟨i, hi, j, by omega, e.symm⟩
  · rw [List.mem_singleton] at hz
    exact ⟨i, hi, K - 1, by omega, hz⟩

theorem generated_not_rejected (N M K : Nat) (problem : Nat → Nat → Int)
    (hN : 1 ≤ N) (hN2 : N ≤ 2147483647) (hM : 1 ≤ M) (hM2 : M ≤ 2147483647) (hK : 2 ≤ K)
    (hKN : K ≤ N)
    (hr : ∀ i, i < M → ∀ j, j < K → 1 ≤ (problem i j).natAbs ∧ (problem i j).natAbs ≤ N) :
    ¬ rejects (generated_tokens N M K problem) := by
  have eN := int_of_long_eq (x := (N : Int)) (by omega) (by omega)
  have eM := int_of_long_eq (x := (M : Int)) (by omega) (by omega)
  have eK := int_of_long_eq (x := (K : Int)) (by omega) (by omega)
  have e : generated_tokens N M K problem = some (N : Int) :: some (M : Int) :: some (K : Int) ::
      ((List.range M).flatMap fun i =>
        (List.range (K - 1)).map (fun j => problem i j) ++ [problem i (K - 1)]).map some := by
    simp only [generated_tokens, create_file, eN, eM, eK, List.map_append, List.map_cons,
      List.map_nil, List.cons_append, List.nil_append]
  rw [e]
  simp only [rejects, int_run_map_some, rows_length M K (by omega)]
  have hmk : ((M : Int) * (K : Int)).toNat = M * K := by
    rw [← Int.natCast_mul, Int.toNat_natCast]
  rw [hmk]
  rintro (h | h | h | h | ⟨p, hp, z, hz, hbad⟩)
  · omega
  · omega
  · omega
  · omega
  · have hmem : z ∈ (List.range M).flatMap fun i =>
        (List.range (K - 1)).map (fun j => problem i j) ++ [problem i (K - 1)] :=
      List.mem_iff_getElem?.2 ⟨p, hz⟩
    obtain ⟨i, hi, j, hj, ez⟩ := rows_mem M K (by omega) problem z hmem
    have := hr i hi j hj
    rw [← ez] at this
    omega

/-- C11 (as stated, false): `N = 2147483648`, `M = 1`, `K = 2` satisfy
`N ≥ 1`, `M ≥ 1`, `K ≥ 2` and `K ≤ N`, and `random_problem` terminates on the
draws `sample_rand`; but `create_file` prints the `long` value `N` with `%d`,
that is as `-2147483648`, so whatever the rows are, both loaders reject the
file (they return -1). -/
theorem generator_header_overflow :
    (1 : Nat) ≤ 2147483648 ∧ (2 : Nat) ≤ 2147483648 ∧
    (random_problem sample_rand 2147483648 1 2 4 (fun _ _ => 0) 0).isSome = true ∧
    ∀ (problem : Nat → Nat → Int) (mem : WalkSAT.Malloc),
      DPLL.dpll_init_ret (generated_tokens 2147483648 1 2 problem) = -1 ∧
      WalkSAT.walk_init_ret mem (generated_tokens 2147483648 1 2 problem) = -1 := by
  refine ⟨by decide, by decide, by decide, ?_⟩
  intro problem mem
  have e : int_of_long 2147483648 = -2147483648 := by decide
  constructor
  · simp [generated_tokens, create_file, e, DPLL.dpll_init_ret, DPLL.dpll_init, fscanf_d]
  · simp [generated_tokens, create_file, e, WalkSAT.walk_init_ret, WalkSAT.walk_init, fscanf_d]

/-- C11 (amended): for `N ≥ 1`, `M ≥ 1`, `K ≥ 2` with `K ≤ N` and `N`, `M`
within the range of `int` (at most 2147483647), whatever the stream of draws
and whatever the array `problem` held before, when `random_problem` terminates
every one of the `M` clauses has `K` literals with magnitudes in `[1, N]` that
are pairwise distinct, and both loaders accept the file that `create_file`
writes (they return `0`). -/
theorem generator_well_formed (rand : Nat → Nat) (N M K draws : Nat)
    (problem0 : Nat → Nat → Int) (t : Nat) (problem : Nat → Nat → Int) (t' : Nat)
    (hN : 1 ≤ N) (hM : 1 ≤ M) (hK : 2 ≤ K) (hKN : K ≤ N)
    (hN2 : N ≤ 2147483647) (hM2 : M ≤ 2147483647)
    (h : random_problem rand N M K draws problem0 t = some (problem, t')) :
    (∀ i, i < M → ∀ j, j < K → 1 ≤ (problem i j).natAbs ∧ (problem i j).natAbs ≤ N) ∧
    (∀ i, i < M → ∀ j1, j1 < K → ∀ j2, j2 < K →
      (problem i j1).natAbs = (problem i j2).natAbs → j1 = j2) ∧
    ∀ mem, DPLL.dpll_init_ret (generated_tokens N M K problem) = 0 ∧
      WalkSAT.walk_init_ret mem (generated_tokens N M K problem) = 0 := by
  unfold random_problem at h
  rw [List.range_eq_range'] at h
  have hrows := fill_clauses_spec hN hN2 M 0 problem0 t problem t' h
    (fun a ha => absurd ha (Nat.not_lt_zero a))
  rw [Nat.zero_add] at hrows
  refine ⟨fun i hi j hj => (hrows i hi).1 j hj, fun i hi j1 h1 j2 h2 => (hrows i hi).2 j1 h1 j2 h2,
    ?_⟩
  intro mem
  have hnr := generated_not_rejected N M K problem hN hN2 hM hM2 hK hKN
    (fun i hi j hj => (hrows i hi).1 j hj)
  exact ret_zero_of_not_rejects mem _ (fun h0 => hnr ((init_none_iff mem _).1.1 h0))

/-- C11 (amended) at `N = 3`, `M = 1`, `K = 2` with the draws `sample_rand` on an
array of zeros: the generator terminates and the file is accepted. -/
theorem generator_well_formed_witness :
    ∃ problem t', random_problem sample_rand 3 1 2 4 (fun _ _ => 0) 0 = some (problem, t') ∧
      ((∀ i, i < 1 → ∀ j, j < 2 → 1 ≤ (problem i j).natAbs ∧ (problem i j).natAbs ≤ 3) ∧
      (∀ i, i < 1 → ∀ j1, j1 < 2 → ∀ j2, j2 < 2 →
        (problem i j1).natAbs = (problem i j2).natAbs → j1 = j2) ∧
      ∀ mem, DPLL.dpll_init_ret (generated_tokens 3 1 2 problem) = 0 ∧
        WalkSAT.walk_init_ret mem (generated_tokens 3 1 2 problem) = 0) := by
  obtain ⟨⟨problem, t'⟩, h⟩ := Option.isSome_iff_exists.1
    (by decide : (random_problem sample_rand 3 1 2 4 (fun _ _ => 0) 0).isSome = true)
  exact ⟨problem, t', h, generator_well_formed sample_rand 3 1 2 4 (fun _ _ => 0) 0 problem t'
    (by decide) (by decide) (by decide) (by decide) (by decide) (by decide) h⟩

end Generator

namespace WalkSAT

theorem walk_loaded_store {mem : Malloc} {g : Globals} {i j : Nat} {z : Int}
    (r : walk_loaded mem g (i * g.K + j)) (hj : j < g.K)
    (hz : ¬ (z = 0 ∨ z > (g.N : Int) ∨ z < -(g.N : Int))) :
    walk_loaded mem (store_literal g i j z) (i * g.K + j + 1) := by
  obtain ⟨hz0, hzN⟩ := DPLL.sym_index_lt hz
  have hN : (store_literal g i j z).N = g.N := (store_literal_N g i j z).1
  have hK : (store_literal g i j z).K = g.K := (store_literal_N g i j z).2.1
  have hP : (store_literal g i j z).Problem = upd g.Problem (i * g.K + j) z := by
    unfold store_literal
    split_ifs <;> rfl
  have hpos : (store_literal g i j z).pos_lit_in =
      if z > 0 then upd g.pos_lit_in (i * g.N + sym_index z) true else g.pos_lit_in := by
    unfold store_literal
    split_ifs with h1 h2
    · have : z.toNat - 1 = sym_index z := by unfold sym_index; omega
      simp only [this]
    · rfl
    · rfl
  have hneg : (store_literal g i j z).neg_lit_in =
      if z < 0 then upd g.neg_lit_in (i * g.N + sym_index z) true else g.neg_lit_in := by
    unfold store_literal
    split_ifs with h1 h2 h3
    · omega
    · rfl
    · rfl
    · rfl
  have hposmono : ∀ x, g.pos_lit_in x = true → (store_literal g i j z).pos_lit_in x = true := by
    intro x hx
    rw [hpos]
    split_ifs
    · unfold upd; split_ifs <;> simp [hx]
    · exact hx
  have hnegmono : ∀ x, g.neg_lit_in x = true → (store_literal g i j z).neg_lit_in x = true := by
    intro x hx
    rw [hneg]
    split_ifs
    · unfold upd; split_ifs <;> simp [hx]
    · exact hx
  have split : ∀ a b, b < g.K → a * g.K + b < i * g.K + j + 1 →
      (a = i ∧ b = j) ∨ (a * g.K + b < i * g.K + j) := by
    intro a b hb hlt
    by_cases he : a * g.K + b = i * g.K + j
    · exact Or.inl (DPLL.flat_index_unique hb hj he)
    · exact Or.inr (by omega)
  have old : ∀ a b, a * g.K + b < i * g.K + j →
      (store_literal g i j z).Problem (a * g.K + b) = g.Problem (a * g.K + b) := by
    intro a b hlt
    rw [hP]
    unfold upd
    rw [if_neg (by omega)]
  have new : (store_literal g i j z).Problem (i * g.K + j) = z := by
    rw [hP]; simp [upd]
  constructor
  · intro a b hb hlt
    rw [hK] at hb hlt ⊢
    rw [hN]
    rcases split a b hb hlt with ⟨rfl, rfl⟩ | h1
    · rw [new]; exact ⟨hz0, hzN⟩
    · rw [old a b h1]; exact r.range a b hb h1
  · intro a b hb hlt hgt
    rw [hK] at hb hlt hgt ⊢
    rw [hN]
    rcases split a b hb hlt with ⟨rfl, rfl⟩ | h1
    · rw [new] at hgt ⊢
      rw [hpos, if_pos hgt]
      simp [upd]
    · rw [old a b h1] at hgt ⊢
      exact hposmono _ (r.pos a b hb h1 hgt)
  · intro a b hb hlt hgt
    rw [hK] at hb hlt hgt ⊢
    rw [hN]
    rcases split a b hb hlt with ⟨rfl, rfl⟩ | h1
    · rw [new] at hgt ⊢
      rw [hneg, if_pos hgt]
      simp [upd]
    · rw [old a b h1] at hgt ⊢
      exact hnegmono _ (r.neg a b hb h1 hgt)
  · intro x hx
    rw [hK, hN]
    rw [hpos] at hx
    have keep : g.pos_lit_in x = true → mem.pos_lit_in x = true ∨
        ∃ a b, b < g.K ∧ a * g.K + b < i * g.K + j + 1 ∧
          (store_literal g i j z).Problem (a * g.K + b) > 0 ∧
          x = a * g.N + sym_index ((store_literal g i j z).Problem (a * g.K + b)) := by
      intro hx'
      rcases r.pos_only x hx' with h | ⟨a, b, hb, hlt, hgt, hxe⟩
      · exact Or.inl h
      · exact Or.inr ⟨a, b, hb, by omega, by rw [old a b hlt]; exact hgt,
          by rw [old a b hlt]; exact hxe⟩
    split_ifs at hx with hgt
    · by_cases hxe : x = i * g.N + sym_index z
      · exact Or.inr ⟨i, j, hj, by omega, by rw [new]; exact hgt, by rw [new]; exact hxe⟩
      · unfold upd at hx
        rw [if_neg hxe] at hx
        exact keep hx
    · exact keep hx
  · intro x hx
    rw [hK, hN]
    rw [hneg] at hx
    have keep : g.neg_lit_in x = true → mem.neg_lit_in x = true ∨
        ∃ a b, b < g.K ∧ a * g.K + b < i * g.K + j + 1 ∧
          (store_literal g i j z).Problem (a * g.K + b) < 0 ∧
          x = a * g.N + sym_index ((store_literal g i j z).Problem (a * g.K + b)) := by
      intro hx'
      rcases r.neg_only x hx' with h | ⟨a, b, hb, hlt, hgt, hxe⟩
      · exact Or.inl h
      · exact Or.inr ⟨a, b, hb, by omega, by rw [old a b hlt]; exact hgt,
          by rw [old a b hlt]; exact hxe⟩
    split_ifs at hx with hgt
    · by_cases hxe : x = i * g.N + sym_index z
      · exact Or.inr ⟨i, j, hj, by omega, by rw [new]; exact hgt, by rw [new]; exact hxe⟩
      · unfold upd at hx
        rw [if_neg hxe] at hx
        exact keep hx
    · exact keep hx

theorem walk_read_clause_loaded (mem : Malloc) (i : Nat) : ∀ (n j : Nat) (g : Globals)
    (t : List Token) (g' : Globals) (t' : List Token),
    read_clause i (List.range' j n) g t = some (g', t') → j + n = g.K →
    walk_loaded mem g (i * g.K + j) →
      walk_loaded mem g' (i * g.K + g.K) ∧ g'.K = g.K ∧ g'.N = g.N ∧ g'.M = g.M := by
  intro n
  induction n with
  | zero =>
    intro j g t g' t' h hK r
    simp only [List.range'_zero, read_clause, Option.some.injEq, Prod.mk.injEq] at h
    rw [← h.1]
    have : j = g.K := by omega
    rw [this] at r
    exact ⟨r, rfl, rfl, rfl⟩
  | succ n ih =>
    intro j g t g' t' h hK r
    rw [List.range'_succ, read_clause] at h
    cases hf : fscanf_d t with
    | none => simp [hf] at h
    | some p =>
      obtain ⟨z, rest⟩ := p
      simp only [hf] at h
      split_ifs at h with hz
      have r1 := walk_loaded_store r (by omega) hz
      obtain ⟨e1, e2, e3⟩ := store_literal_N g i j z
      have := ih (j + 1) (store_literal g i j z) rest g' t' h (by rw [e2]; omega)
        (by rw [e2]; exact r1)
      rw [e1, e2, e3] at this
      exact this

theorem walk_read_clauses_loaded (mem : Malloc) : ∀ (n i : Nat) (g : Globals)
    (t : List Token) (g' : Globals) (t' : List Token),
    read_clauses (List.range' i n) g t = some (g', t') →
    walk_loaded mem g (i * g.K) →
      walk_loaded mem g' ((i + n) * g.K) ∧ g'.K = g.K ∧ g'.N = g.N ∧ g'.M = g.M := by
  intro n
  induction n with
  | zero =>
    intro i g t g' t' h r
    simp only [List.range'_zero, read_clauses, Option.some.injEq, Prod.mk.injEq] at h
    rw [← h.1]
    exact ⟨r, rfl, rfl, rfl⟩
  | succ n ih =>
    intro i g t g' t' h r
    rw [List.range'_succ, read_clauses] at h
    cases hr : read_clause i (List.range g.K) g t with
    | none => simp [hr] at h
    | some p =>
      obtain ⟨g1, rest⟩ := p
      simp only [hr] at h
      rw [List.range_eq_range'] at hr
      obtain ⟨r1, hK1, hN1, hM1⟩ := walk_read_clause_loaded mem i g.K 0 g t g1 rest hr (by simp)
        (by simpa using r)
      have r1' : walk_loaded mem g1 ((i + 1) * g1.K) := by
        rw [hK1, Nat.add_mul, Nat.one_mul]; exact r1
      obtain ⟨r2, hK2, hN2, hM2⟩ := ih (i + 1) g1 rest g' t' h r1'
      refine ⟨?_, hK2.trans hK1, hN2.trans hN1, hM2.trans hM1⟩
      rw [hK1] at r2
      have : i + (n + 1) = i + 1 + n := by omega
      rw [this]; exact r2

theorem walk_init_loaded {mem : Malloc} {toks : List Token} {g : Globals}
    (h : walk_init mem toks = some g) : walk_loaded mem g (g.M * g.K) := by
  unfold walk_init at h
  cases h1 : fscanf_d toks with
  | none => simp [h1] at h
  | some p1 =>
    obtain ⟨n, t1⟩ := p1
    simp only [h1] at h
    split_ifs at h with hn
    cases h2 : fscanf_d t1 with
    | none => simp [h2] at h
    | some p2 =>
      obtain ⟨m, t2⟩ := p2
      simp only [h2] at h
      split_ifs at h with hm
      cases h3 : fscanf_d t2 with
      | none => simp [h3] at h
      | some p3 =>
        obtain ⟨k, t3⟩ := p3
        simp only [h3] at h
        split_ifs at h with hk
        cases h4 : read_clauses (List.range m.toNat)
            { N := n.toNat, M := m.toNat, K := k.toNat, Problem := mem.Problem,
              pos_lit_in := mem.pos_lit_in, neg_lit_in := mem.neg_lit_in } t3 with
        | none => simp [h4] at h
        | some p4 =>
          obtain ⟨g', t4⟩ := p4
          simp only [h4, Option.some.injEq] at h
          subst h
          rw [List.range_eq_range'] at h4
          obtain ⟨r, hK, hN, hM⟩ := walk_read_clauses_loaded mem _ 0 _ _ _ _ h4 (by
            constructor
            · intro a b _ hlt; simp at hlt
            · intro a b _ hlt; simp at hlt
            · intro a b _ hlt; simp at hlt
            · intro x hx; exact Or.inl hx
            · intro x hx; exact Or.inl hx)
          simp only [Nat.zero_add] at r hK hM
          rw [hM, hK]
          exact r

theorem break_loop_spec (g : Globals) (la : Nat → literal) (mb : Nat) (occ : Nat → Bool)
    (v : Nat) : ∀ (is : List Nat) (b : Nat), b ≤ mb →
    break_loop g la mb occ v is b =
      if b + is.countP (fun i => occ (i * g.N + v) && decide (true_lits_in g (i * g.K) la = 1))
          ≤ mb then
        b + is.countP (fun i => occ (i * g.N + v) && decide (true_lits_in g (i * g.K) la = 1))
      else mb + 1 := by
  intro is
  induction is with
  | nil => intro b hb; simp [break_loop, hb]
  | cons i is ih =>
    intro b hb
    rw [break_loop, List.countP_cons]
    by_cases ho : occ (i * g.N + v) = true
    · by_cases ht : true_lits_in g (i * g.K) la = 1
      · simp only [ho, ht, if_true, Bool.true_and, decide_True]
        by_cases hgt : b + 1 > mb
        · rw [if_pos hgt, if_neg (by omega)]
          omega
        · rw [if_neg hgt, ih (b + 1) (by omega)]
          have e : ∀ n, b + 1 + n = b + (n + 1) := by intro n; omega
          simp only [e]
      · simp only [ho, ht, if_true, if_false, Bool.true_and, decide_False, Bool.false_eq_true,
          Nat.add_zero]
        rw [if_neg (by omega), ih b hb]
    · simp only [ho, if_false, Bool.false_eq_true, Bool.false_and, Nat.add_zero]
      exact ih b hb

theorem break_count_spec (g : Globals) (la : Nat → literal) (mb v : Nat) :
    break_count g la mb v = if break_all g la v ≤ mb then break_all g la v else mb + 1 := by
  unfold break_count break_all
  have e : breaks_at g la v = fun i =>
      (if (la v).truth_val then g.pos_lit_in else g.neg_lit_in) (i * g.N + v) &&
        decide (true_lits_in g (i * g.K) la = 1) := by
    funext i
    unfold breaks_at
    split_ifs <;> rfl
  rw [e]
  split_ifs with h1 h2 h2
  all_goals first
    | (rw [break_loop_spec g la mb _ v _ 0 (Nat.zero_le _)]
       simp only [Nat.zero_add, h1, if_true, if_false] at h2 ⊢
       first
         | rw [if_pos h2]
         | rw [if_neg h2])

theorem break_all_le (g : Globals) (la : Nat → literal) (v : Nat) : break_all g la v ≤ g.M := by
  unfold break_all
  have := List.countP_le_length (breaks_at g la v) (l := List.range g.M)
  rwa [List.length_range] at this

theorem shift_as_list_head (lits : List literal) (lit : literal) :
    shift (as_list_head lits) lit = as_list_head (lit :: lits) := by
  cases lits with
  | nil => simp [as_list_head, shift]
  | cons x xs => simp [as_list_head, shift]

theorem scan_lits_spec (g : Globals) (c : Nat) (la : Nat → literal) :
    ∀ (js P : List Nat) (mb : Nat) (lits : Option list_head),
    (∀ j, j ∈ P → mb ≤ break_all g la (sym_index (g.Problem (c + j)))) →
    (mb = g.M ∨ ∃ j, j ∈ P ∧ break_all g la (sym_index (g.Problem (c + j))) = mb) →
    lits = as_list_head (((P.filter fun j =>
      decide (break_all g la (sym_index (g.Problem (c + j))) = mb)).reverse).map
        fun j => la (sym_index (g.Problem (c + j)))) →
    ∃ m, (∀ j, j ∈ P ++ js → m ≤ break_all g la (sym_index (g.Problem (c + j)))) ∧
      (m = g.M ∨ ∃ j, j ∈ P ++ js ∧ break_all g la (sym_index (g.Problem (c + j))) = m) ∧
      scan_lits g c la js (mb, lits) = (m, as_list_head ((((P ++ js).filter fun j =>
        decide (break_all g la (sym_index (g.Problem (c + j))) = m)).reverse).map
          fun j => la (sym_index (g.Problem (c + j))))) := by
  intro js
  induction js with
  | nil =>
    intro P mb lits h1 h2 h3
    refine ⟨mb, by simpa using h1, by simpa using h2, ?_⟩
    rw [scan_lits, h3, List.append_nil]
  | cons j js ih =>
    intro P mb lits h1 h2 h3
    rw [scan_lits]
    rw [break_count_spec]
    have hle := break_all_le g la (sym_index (g.Problem (c + j)))
    have hmb : mb ≤ g.M := by
      rcases h2 with h | ⟨j', _, hj'⟩
      · omega
      · rw [← hj']; exact break_all_le g la _
    have happ : P ++ j :: js = (P ++ [j]) ++ js := by simp
    rw [happ]
    by_cases hc : break_all g la (sym_index (g.Problem (c + j))) ≤ mb
    · rw [if_pos hc]
      by_cases hlt : break_all g la (sym_index (g.Problem (c + j))) < mb
      · rw [if_pos hlt]
        apply ih (P ++ [j]) _ _
        · intro j' hj'
          rw [List.mem_append, List.mem_singleton] at hj'
          rcases hj' with h | rfl
          · have := h1 j' h; omega
          · exact Nat.le_refl _
        · exact Or.inr ⟨j, by simp, rfl⟩
        · rw [List.filter_append]
          have hnil : (P.filter fun j' => decide (break_all g la (sym_index (g.Problem (c + j'))) =
              break_all g la (sym_index (g.Problem (c + j))))) = [] := by
            rw [List.filter_eq_nil_iff]
            intro j' hj'
            have := h1 j' hj'
            simp only [decide_eq_true_eq]
            omega
          rw [hnil]
          simp [shift, as_list_head]
      · rw [if_neg hlt]
        have heq : break_all g la (sym_index (g.Problem (c + j))) = mb := by omega
        rw [if_pos heq]
        apply ih (P ++ [j]) _ _
        · intro j' hj'
          rw [List.mem_append, List.mem_singleton] at hj'
          rcases hj' with h | rfl
          · exact h1 j' h
          · omega
        · exact Or.inr ⟨j, by simp, heq⟩
        · rw [h3, shift_as_list_head, List.filter_append]
          simp [heq]
    · rw [if_neg hc, if_neg (by omega), if_neg (by omega)]
      apply ih (P ++ [j]) _ _
      · intro j' hj'
        rw [List.mem_append, List.mem_singleton] at hj'
        rcases hj' with h | rfl
        · exact h1 j' h
        · omega
      · rcases h2 with h | ⟨j', hj', e⟩
        · exact Or.inl h
        · exact Or.inr ⟨j', by simp [hj'], e⟩
      · rw [h3, List.filter_append]
        have : ¬ break_all g la (sym_index (g.Problem (c + j))) = mb := by omega
        simp [this]

theorem scan_lits_range (g : Globals) (c : Nat) (la : Nat → literal) (hK : 1 ≤ g.K) :
    ∃ m, (∀ j, j < g.K → m ≤ break_all g la (sym_index (g.Problem (c + j)))) ∧
      (∃ j, j < g.K ∧ break_all g la (sym_index (g.Problem (c + j))) = m) ∧
      scan_lits g c la (List.range g.K) (g.M, none) =
        (m, some
          { first := (((List.range g.K).filter fun j =>
              decide (break_all g la (sym_index (g.Problem (c + j))) = m)).reverse).map
                fun j => la (sym_index (g.Problem (c + j)))
            size := ((((List.range g.K).filter fun j =>
              decide (break_all g la (sym_index (g.Problem (c + j))) = m)).reverse).map
                fun j => la (sym_index (g.Problem (c + j)))).length }) := by
  obtain ⟨m, h1, h2, h3⟩ := scan_lits_spec g c la (List.range g.K) [] g.M none
    (by intro j hj; simp at hj) (Or.inl rfl) (by simp [as_list_head])
  simp only [List.nil_append, List.mem_range] at h1 h2 h3
  have hatt : ∃ j, j < g.K ∧ break_all g la (sym_index (g.Problem (c + j))) = m := by
    rcases h2 with h | h
    · refine ⟨0, by omega, ?_⟩
      have := h1 0 (by omega)
      have := break_all_le g la (sym_index (g.Problem (c + 0)))
      omega
    · exact h
  refine ⟨m, h1, hatt, ?_⟩
  rw [h3]
  unfold as_list_head
  rw [if_neg]
  obtain ⟨j, hj, e⟩ := hatt
  intro hnil
  rw [List.map_eq_nil_iff, List.reverse_eq_nil_iff, List.filter_eq_nil_iff] at hnil
  have := hnil j (List.mem_range.2 hj)
  simp [e] at this

theorem select_nd_some (h : list_head) (hs : h.size = h.first.length) (h1 : 1 ≤ h.size)
    (r : Nat) : r % h.size < h.first.length ∧
      ∃ l, select_nd (some h) (r % h.size) = some l ∧ l ∈ h.first := by
  have hlt : r % h.size < h.first.length := by
    rw [← hs]; exact Nat.mod_lt _ (by omega)
  refine ⟨hlt, h.first.get ⟨r % h.size, hlt⟩, ?_, List.get_mem _ _ _⟩
  unfold select_nd
  simp only
  rw [List.get?_eq_get hlt]

theorem pick_lit_cases (g : Globals) (env : Env) (c : Nat) (la : Nat → literal) (t : Nat)
    (h : list_head)
    (hst : (scan_lits g c la (List.range g.K) (g.M, none)).2 = some h)
    (hs : h.size = h.first.length) (h1 : 1 ≤ h.size) :
    ∃ l t', pick_lit g env c la t = some (l, t') ∧
      ((scan_lits g c la (List.range g.K) (g.M, none)).1 = 0 → t' = t + 1 ∧ l ∈ h.first) ∧
      (l ∈ h.first ∨ l = la (sym_index (g.Problem (c + env.rand (t + 1) % g.K)))) := by
  unfold pick_lit
  simp only [hst, select_random]
  by_cases h0 : (scan_lits g c la (List.range g.K) (g.M, none)).1 = 0
  · rw [if_pos h0]
    obtain ⟨-, l, hl, hm⟩ := select_nd_some h hs h1 (env.rand t)
    rw [hl]
    exact ⟨l, t + 1, rfl, fun _ => ⟨rfl, hm⟩, Or.inl hm⟩
  · rw [if_neg h0]
    by_cases hn : env.noise (env.rand t) = true
    · rw [if_pos hn]
      exact ⟨_, _, rfl, fun h' => absurd h' h0, Or.inr rfl⟩
    · rw [if_neg hn]
      obtain ⟨-, l, hl, hm⟩ := select_nd_some h hs h1 (env.rand (t + 1))
      rw [hl]
      exact ⟨l, t + 2, rfl, fun h' => absurd h' h0, Or.inl hm⟩

/-- C22: for every input that `walk_init` accepts, every assignment and every
clause `i`: `break_count` returns the count without the early return
(`break_all`) when that count does not exceed `min_brk`, and `min_brk + 1`
otherwise; and after the scanning loop of `pick_lit`, `min_brk` is the minimum
`m` of the `K` counts without early return, and `min_brk_lits` holds exactly
the literals of the clause whose count is `m` (one node per position, the last
position first), with `_size` their number. -/
theorem short_circuit_is_optimisation (mem : Malloc) (toks : List Token) (g : Globals)
    (h0 : walk_init mem toks = some g) (la : Nat → literal) (i : Nat) :
    (∀ mb v, break_count g la mb v =
      if break_all g la v ≤ mb then break_all g la v else mb + 1) ∧
    ∃ m, (∀ j, j < g.K → m ≤ break_all g la (sym_index (g.Problem (i * g.K + j)))) ∧
      (∃ j, j < g.K ∧ break_all g la (sym_index (g.Problem (i * g.K + j))) = m) ∧
      scan_lits g (i * g.K) la (List.range g.K) (g.M, none) =
        (m, some
          { first := (((List.range g.K).filter fun j =>
              decide (break_all g la (sym_index (g.Problem (i * g.K + j))) = m)).reverse).map
                fun j => la (sym_index (g.Problem (i * g.K + j)))
            size := ((((List.range g.K).filter fun j =>
              decide (break_all g la (sym_index (g.Problem (i * g.K + j))) = m)).reverse).map
                fun j => la (sym_index (g.Problem (i * g.K + j)))).length }) := by
  obtain ⟨-, -, hK⟩ := walk_init_header h0
  exact ⟨fun mb v => break_count_spec g la mb v, scan_lits_range g (i * g.K) la (by omega)⟩

/-- C26: for every input that `walk_init` accepts, every assignment and every
clause `i`: after the scanning loop of `pick_lit` the list `min_brk_lits` is
not `NULL`, its `_size` is the number of its nodes and lies between 1 and `K`,
so for every draw `r` the position `r % _size` is the position of a node and
`select_nd` returns the literal of that node; `pick_lit` returns a literal for
every stream of draws. -/
theorem tie_list_never_empty (mem : Malloc) (toks : List Token) (g : Globals)
    (h0 : walk_init mem toks = some g) (la : Nat → literal) (i : Nat) :
    ∃ h, (scan_lits g (i * g.K) la (List.range g.K) (g.M, none)).2 = some h ∧
      h.size = h.first.length ∧ 1 ≤ h.size ∧ h.size ≤ g.K ∧
      (∀ r, r % h.size < h.first.length ∧
        ∃ l, select_nd (some h) (r % h.size) = some l ∧ l ∈ h.first) ∧
      ∀ env t, ∃ l t', pick_lit g env (i * g.K) la t = some (l, t') := by
  obtain ⟨-, -, hK⟩ := walk_init_header h0
  obtain ⟨m, -, ⟨j, hj, e⟩, h3⟩ := scan_lits_range g (i * g.K) la (by omega)
  rw [h3]
  refine ⟨_, rfl, rfl, ?_, ?_, ?_, ?_⟩
  · simp only [List.length_map, List.length_reverse]
    apply List.length_pos_of_mem (a := j)
    rw [List.mem_filter]
    exact ⟨List.mem_range.2 hj, by simp [e]⟩
  · simp only [List.length_map, List.length_reverse]
    have := List.length_filter_le (fun j =>
      decide (break_all g la (sym_index (g.Problem (i * g.K + j))) = m)) (List.range g.K)
    rwa [List.length_range] at this
  · intro r
    apply select_nd_some _ rfl
    simp only [List.length_map, List.length_reverse]
    apply List.length_pos_of_mem (a := j)
    rw [List.mem_filter]
    exact ⟨List.mem_range.2 hj, by simp [e]⟩
  · intro env t
    obtain ⟨l, t', hp, -⟩ := pick_lit_cases g env (i * g.K) la t _ (by rw [h3]) rfl (by
      simp only [List.length_map, List.length_reverse]
      apply List.length_pos_of_mem (a := j)
      rw [List.mem_filter]
      exact ⟨List.mem_range.2 hj, by simp [e]⟩)
    exact ⟨l, t', hp⟩

theorem lit_truth_eq (z : Int) (hz : z ≠ 0) (la : Nat → literal) :
    neg_pos_truth_istrue z la =
      if z > 0 then (la (sym_index z)).truth_val else !(la (sym_index z)).truth_val := by
  unfold neg_pos_truth_istrue sym_index
  by_cases h : z > 0
  · have e : (z - 1).toNat = z.natAbs - 1 := by omega
    have h2 : ¬ z < 0 := by omega
    simp [h, e, h2]
  · have hlt : z < 0 := by omega
    have e : (-z - 1).toNat = z.natAbs - 1 := by omega
    simp [h, hlt, e]

theorem flip_truth_val_at (la : Nat → literal) (v u : Nat) :
    (flip_truth_val la v u).truth_val = (if u = v then !(la v).truth_val else (la u).truth_val) ∧
      (flip_truth_val la v u).lit_num = (la u).lit_num := by
  unfold flip_truth_val upd
  by_cases h : u = v
  · subst h
    cases hv : (la u).truth_val <;> simp [hv]
  · simp [h]

theorem lit_flip_other (z : Int) (hz : z ≠ 0) (la : Nat → literal) (v : Nat)
    (h : sym_index z ≠ v) :
    neg_pos_truth_istrue z (flip_truth_val la v) = neg_pos_truth_istrue z la := by
  rw [lit_truth_eq z hz, lit_truth_eq z hz, (flip_truth_val_at la v (sym_index z)).1, if_neg h]

theorem lit_flip_same (z : Int) (hz : z ≠ 0) (la : Nat → literal) (v : Nat)
    (h : sym_index z = v) :
    neg_pos_truth_istrue z (flip_truth_val la v) = !neg_pos_truth_istrue z la := by
  rw [lit_truth_eq z hz, lit_truth_eq z hz, (flip_truth_val_at la v (sym_index z)).1, if_pos h, h]
  split_ifs <;> simp

theorem broken_clause_counted {mem : Malloc} {g : Globals}
    (hl : walk_loaded mem g (g.M * g.K)) (nr : no_repeat g) (la : Nat → literal) (v i : Nat)
    (hi : i < g.M) (hs : clause_satisfaction g (i * g.K) la = true)
    (hu : clause_satisfaction g (i * g.K) (flip_truth_val la v) = false) :
    breaks_at g la v i = true := by
  unfold clause_satisfaction at hs hu
  rw [List.any_eq_true] at hs
  rw [List.any_eq_false] at hu
  obtain ⟨j0, hj0, ht0⟩ := hs
  rw [List.mem_range] at hj0
  have hr0 := hl.range i j0 hj0 (DPLL.flat_index_lt hi hj0)
  have hv0 : sym_index (g.Problem (i * g.K + j0)) = v := by
    by_contra hne
    have := hu j0 (List.mem_range.2 hj0)
    rw [lit_flip_other _ hr0.1 la v hne] at this
    exact this ht0
  have hothers : ∀ j, j < g.K →
      neg_pos_truth_istrue (g.Problem (i * g.K + j)) la = true → j = j0 := by
    intro j hj ht
    by_contra hne
    have hr := hl.range i j hj (DPLL.flat_index_lt hi hj)
    have hvj : sym_index (g.Problem (i * g.K + j)) ≠ v := by
      intro e
      exact hne (nr i hi j hj j0 hj0 (e.trans hv0.symm))
    have := hu j (List.mem_range.2 hj)
    rw [lit_flip_other _ hr.1 la v hvj] at this
    exact this ht
  have hone : true_lits_in g (i * g.K) la = 1 := by
    unfold true_lits_in
    exact (DPLL.countP_range_eq_one _ g.K j0 hj0 ht0).2 hothers
  unfold breaks_at
  rw [hone]
  simp only [decide_True, Bool.and_true]
  rw [lit_truth_eq _ hr0.1, hv0] at ht0
  by_cases hpos : g.Problem (i * g.K + j0) > 0
  · rw [if_pos hpos] at ht0
    rw [if_pos ht0]
    have := hl.pos i j0 hj0 (DPLL.flat_index_lt hi hj0) hpos
    rwa [hv0] at this
  · rw [if_neg hpos] at ht0
    have hf : (la v).truth_val = false := by simpa using ht0
    rw [hf]
    simp only [Bool.false_eq_true, if_false]
    have := hl.neg i j0 hj0 (DPLL.flat_index_lt hi hj0) (by omega)
    rwa [hv0] at this

theorem countP_lt_of_imp (p q : Nat → Bool) : ∀ (l : List Nat) (x0 : Nat),
    (∀ x, x ∈ l → q x = true → p x = true) → x0 ∈ l → p x0 = true → q x0 = false →
      l.countP q < l.countP p := by
  intro l
  induction l with
  | nil => intro x0 _ hm; simp at hm
  | cons a l ih =>
    intro x0 himp hm hp hq
    rw [List.countP_cons, List.countP_cons]
    have hmono : l.countP q ≤ l.countP p :=
      List.countP_mono_left (fun x hx hqx => himp x (List.mem_cons_of_mem a hx) hqx)
    rcases List.mem_cons.1 hm with rfl | hm'
    · simp only [hp, hq, if_true, Bool.false_eq_true, if_false]
      omega
    · have hlt := ih x0 (fun x hx => himp x (List.mem_cons_of_mem a hx)) hm' hp hq
      have ha := himp a (List.mem_cons_self a l)
      have e1 : (if q a = true then 1 else 0) ≤ (if p a = true then 1 else 0) := by
        cases hqa : q a <;> cases hpa : p a <;> simp_all
      omega

/-- C21 (the code breaks it): with `min_brk = M` and every variable true,
`break_count` returns 1 where the break value is 0, on two accepted inputs.
On `1 1 2 / 1 -1` (memory from `malloc` holding zeros) it counts the clause
`1 -1` for P1, which is satisfied whatever the value of P1. On `2 1 2 / 1 -2`
(memory from `malloc` holding nonzero values) it counts the clause `1 -2` for
P2, because the cell `pos_lit_in[0 * N + 1]` was never written, while flipping
P2 leaves the clause satisfied. -/
theorem break_count_differs_from_break_value :
    (∃ g, walk_init zero_mem tautology = some g ∧ g.N = 1 ∧ g.M = 1 ∧ g.K = 2 ∧
      g.Problem 0 = 1 ∧ g.Problem 1 = -1 ∧
      break_count g all_true g.M 0 = 1 ∧ break_value g all_true 0 = 0) ∧
    (∃ g, walk_init ones_mem mixed_clause = some g ∧ g.N = 2 ∧ g.M = 1 ∧ g.K = 2 ∧
      g.Problem 0 = 1 ∧ g.Problem 1 = -2 ∧
      break_count g all_true g.M 1 = 1 ∧ break_value g all_true 1 = 0) := by
  have h1 : (walk_init zero_mem tautology).map (fun g =>
      ([g.N, g.M, g.K, break_count g all_true g.M 0, break_value g all_true 0],
        [g.Problem 0, g.Problem 1])) = some ([1, 1, 2, 1, 0], [1, -1]) := by decide
  have h2 : (walk_init ones_mem mixed_clause).map (fun g =>
      ([g.N, g.M, g.K, break_count g all_true g.M 1, break_value g all_true 1],
        [g.Problem 0, g.Problem 1])) = some ([2, 1, 2, 1, 0], [1, -2]) := by decide
  constructor
  · cases h0 : walk_init zero_mem tautology with
    | none => rw [h0] at h1; simp at h1
    | some g =>
      rw [h0] at h1
      simp only [Option.map_some', Option.some.injEq, Prod.mk.injEq, List.cons.injEq,
        and_true] at h1
      obtain ⟨⟨a, b, c, d, e⟩, f, k⟩ := h1
      exact ⟨g, rfl, a, b, c, f, k, d, e⟩
  · cases h0 : walk_init ones_mem mixed_clause with
    | none => rw [h0] at h2; simp at h2
    | some g =>
      rw [h0] at h2
      simp only [Option.map_some', Option.some.injEq, Prod.mk.injEq, List.cons.injEq,
        and_true] at h2
      obtain ⟨⟨a, b, c, d, e⟩, f, k⟩ := h2
      exact ⟨g, rfl, a, b, c, f, k, d, e⟩

theorem choose_clause_some (g : Globals) (env : Env) (la : Nat → literal) (hM : 1 ≤ g.M) :
    ∀ (draws t cn t1 : Nat), choose_clause g env la draws t = some (cn, t1) →
      cn < g.M ∧ clause_satisfaction g (cn * g.K) la = false ∧ t < t1 ∧
        cn = env.rand (t1 - 1) % g.M := by
  intro draws
  induction draws with
  | zero => intro t cn t1 h; simp [choose_clause] at h
  | succ d ih =>
    intro t cn t1 h
    rw [choose_clause] at h
    split_ifs at h with hs
    · obtain ⟨h1, h2, h3, h4⟩ := ih _ _ _ h
      exact ⟨h1, h2, by omega, h4⟩
    · simp only [Option.some.injEq, Prod.mk.injEq] at h
      obtain ⟨rfl, rfl⟩ := h
      exact ⟨Nat.mod_lt _ (by omega), by simpa using hs, by omega, by simp⟩

theorem walk_loop_step (g : Globals) (env : Env) (draws remaining steps : Nat)
    (la : Nat → literal) (t cn t1 : Nat) (l : literal) (t2 : Nat)
    (hs : satisfiable g env la = false)
    (hc : choose_clause g env la draws t = some (cn, t1))
    (hp : pick_lit g env (cn * g.K) la t1 = some (l, t2)) :
    walk_loop g env draws (remaining + 1) steps la t =
      walk_loop g env draws remaining (steps + 1) (flip_truth_val la l.lit_num) t2 := by
  rw [walk_loop]
  simp [hs, hc, hp]

/-- C24: for every input that `walk_init` accepts, every assignment (an array
whose entry `v` names the variable `v`, as `walksat` builds it) that does not
satisfy the formula and every stream of draws on which the clause selection
ends: the clause handed to `pick_lit` is not satisfied, `pick_lit` returns a
variable of that clause (whichever branch it takes), the iteration of
`walksat` continues with the array in which the truth value of that variable
is negated and every other entry is unchanged. -/
theorem step_flips_variable_of_clause (mem : Malloc) (toks : List Token) (g : Globals)
    (h0 : walk_init mem toks = some g) (env : Env) (la : Nat → literal)
    (hla : ∀ v, v < g.N → (la v).lit_num = v) (hs : satisfiable g env la = false)
    (draws t cn t1 : Nat) (hc : choose_clause g env la draws t = some (cn, t1)) :
    cn < g.M ∧ clause_satisfaction g (cn * g.K) la = false ∧
    ∃ l t2, pick_lit g env (cn * g.K) la t1 = some (l, t2) ∧
      (∃ j, j < g.K ∧ l.lit_num = sym_index (g.Problem (cn * g.K + j))) ∧
      l.lit_num < g.N ∧
      (∀ remaining steps, walk_loop g env draws (remaining + 1) steps la t =
        walk_loop g env draws remaining (steps + 1) (flip_truth_val la l.lit_num) t2) ∧
      (flip_truth_val la l.lit_num l.lit_num).truth_val = (!(la l.lit_num).truth_val) ∧
      (∀ u, u ≠ l.lit_num → flip_truth_val la l.lit_num u = la u) ∧
      (∀ v, v < g.N → (flip_truth_val la l.lit_num v).lit_num = v) := by
  obtain ⟨-, hM, hK⟩ := walk_init_header h0
  have hl := walk_init_loaded h0
  obtain ⟨hcn, hunsat, -, -⟩ := choose_clause_some g env la hM _ _ _ _ hc
  refine ⟨hcn, hunsat, ?_⟩
  obtain ⟨m, -, ⟨j1, hj1, e1⟩, h3⟩ := scan_lits_range g (cn * g.K) la (by omega)
  have hpos : 1 ≤ ((((List.range g.K).filter fun j =>
      decide (break_all g la (sym_index (g.Problem (cn * g.K + j))) = m)).reverse).map
        fun j => la (sym_index (g.Problem (cn * g.K + j)))).length := by
    simp only [List.length_map, List.length_reverse]
    apply List.length_pos_of_mem (a := j1)
    rw [List.mem_filter]
    exact ⟨List.mem_range.2 hj1, by simp [e1]⟩
  obtain ⟨l, t2, hp, -, hmem⟩ := pick_lit_cases g env (cn * g.K) la t1 _ (by rw [h3]) rfl hpos
  have hin : ∃ j, j < g.K ∧ l = la (sym_index (g.Problem (cn * g.K + j))) := by
    rcases hmem with hmem | hmem
    · simp only [List.mem_map, List.mem_reverse, List.mem_filter, List.mem_range] at hmem
      obtain ⟨j, ⟨hj, -⟩, hlj⟩ := hmem
      exact ⟨j, hj, hlj.symm⟩
    · exact ⟨env.rand (t1 + 1) % g.K, Nat.mod_lt _ (by omega), hmem⟩
  obtain ⟨j, hj, hlj⟩ := hin
  have hr := hl.range cn j hj (DPLL.flat_index_lt hcn hj)
  have hnum : l.lit_num = sym_index (g.Problem (cn * g.K + j)) := by
    rw [hlj]; exact hla _ hr.2
  refine ⟨l, t2, hp, ⟨j, hj, hnum⟩, by rw [hnum]; exact hr.2, ?_, ?_, ?_, ?_⟩
  · intro remaining steps
    exact walk_loop_step g env draws remaining steps la t cn t1 l t2 hs hc hp
  · rw [(flip_truth_val_at la l.lit_num l.lit_num).1, if_pos rfl]
  · intro u hu
    unfold flip_truth_val upd
    rw [if_neg hu]
  · intro v hv
    rw [(flip_truth_val_at la l.lit_num v).2]
    exact hla v hv

theorem pick_lit_some (g : Globals) (hK : 1 ≤ g.K) (env : Env) (c : Nat) (la : Nat → literal)
    (t : Nat) : ∃ l t', pick_lit g env c la t = some (l, t') := by
  obtain ⟨m, -, ⟨j, hj, e⟩, h3⟩ := scan_lits_range g c la hK
  obtain ⟨l, t', hp, -⟩ := pick_lit_cases g env c la t _ (by rw [h3]) rfl (by
    simp only [List.length_map, List.length_reverse]
    apply List.length_pos_of_mem (a := j)
    rw [List.mem_filter]
    exact ⟨List.mem_range.2 hj, by simp [e]⟩)
  exact ⟨l, t', hp⟩

theorem walk_loop_some (g : Globals) (env : Env) (draws : Nat) :
    ∀ (remaining steps : Nat) (la : Nat → literal) (t : Nat) (o : Outcome),
    walk_loop g env draws remaining steps la t = some o →
      ∃ k t', k ≤ remaining ∧ o.steps = steps + k ∧
        flips g env draws k la t = some (o.lit_assign, t') ∧
        (∀ k', k' < k → ∀ la' t'', flips g env draws k' la t = some (la', t'') →
          satisfiable g env la' = false) ∧
        (o.found = true → k < remaining ∧ satisfiable g env o.lit_assign = true) ∧
        (o.found = false → k = remaining) := by
  intro remaining
  induction remaining with
  | zero =>
    intro steps la t o h
    simp only [walk_loop, Option.some.injEq] at h
    subst h
    exact ⟨0, t, Nat.le_refl _, rfl, rfl, fun k' hk' => absurd hk' (Nat.not_lt_zero _),
      fun hf => by simp at hf, fun _ => rfl⟩
  | succ r ih =>
    intro steps la t o h
    rw [walk_loop] at h
    by_cases hs : satisfiable g env la = true
    · simp only [hs, if_true, Option.some.injEq] at h
      subst h
      exact ⟨0, t, Nat.zero_le _, rfl, rfl, fun k' hk' => absurd hk' (Nat.not_lt_zero _),
        fun _ => ⟨Nat.succ_pos _, hs⟩, fun hf => by simp at hf⟩
    · have hs' : satisfiable g env la = false := by simpa using hs
      simp only [hs', Bool.false_eq_true, if_false] at h
      cases hc : choose_clause g env la draws t with
      | none => simp [hc] at h
      | some p =>
        obtain ⟨cn, t1⟩ := p
        simp only [hc] at h
        cases hp : pick_lit g env (cn * g.K) la t1 with
        | none => simp [hp] at h
        | some q =>
          obtain ⟨l, t2⟩ := q
          simp only [hp] at h
          obtain ⟨k, t', h1, h2, h3, h4, h5, h6⟩ := ih _ _ _ _ h
          refine ⟨k + 1, t', by omega, by omega, ?_, ?_, ?_, ?_⟩
          · rw [flips]; simp only [hc, hp]; exact h3
          · intro k' hk' la' t'' hf
            cases k' with
            | zero =>
              simp only [flips, Option.some.injEq, Prod.mk.injEq] at hf
              rw [← hf.1]; exact hs'
            | succ k'' =>
              rw [flips] at hf
              simp only [hc, hp] at hf
              exact h4 k'' (by omega) la' t'' hf
          · intro hf
            obtain ⟨a, b⟩ := h5 hf
            exact ⟨by omega, b⟩
          · intro hf
            have := h6 hf
            omega

theorem walk_loop_none (g : Globals) (hK : 1 ≤ g.K) (env : Env) (draws : Nat) :
    ∀ (remaining steps : Nat) (la : Nat → literal) (t : Nat),
    walk_loop g env draws remaining steps la t = none →
      ∃ k la' t', k < remaining ∧ flips g env draws k la t = some (la', t') ∧
        choose_clause g env la' draws t' = none := by
  intro remaining
  induction remaining with
  | zero => intro steps la t h; simp [walk_loop] at h
  | succ r ih =>
    intro steps la t h
    rw [walk_loop] at h
    by_cases hs : satisfiable g env la = true
    · simp [hs] at h
    · have hs' : satisfiable g env la = false := by simpa using hs
      simp only [hs', Bool.false_eq_true, if_false] at h
      cases hc : choose_clause g env la draws t with
      | none => exact ⟨0, la, t, Nat.succ_pos _, rfl, hc⟩
      | some p =>
        obtain ⟨cn, t1⟩ := p
        simp only [hc] at h
        obtain ⟨l, t2, hp⟩ := pick_lit_some g hK env (cn * g.K) la t1
        simp only [hp] at h
        obtain ⟨k, la', t', h1, h2, h3⟩ := ih _ _ _ h
        refine ⟨k + 1, la', t', by omega, ?_, h3⟩
        rw [flips]; simp only [hc, hp]; exact h2

/-- C25 (amended): for every input that `walk_init` accepts and every
stream of draws, when `walksat` returns, the reported number of steps is the
number of flips performed and is at most `max_steps`, none of the assignments
held before a flip satisfies the formula, a report of a solution comes with
fewer than `max_steps` flips and an assignment that satisfies the formula, and
no solution is reported exactly when `max_steps` flips were performed, that is
when none of the assignments held after `0, ..., max_steps - 1` flips satisfies
the formula (the assignment after the last flip is not tested). `walksat` can
only fail to return when a clause selection does not end. -/
theorem step_budget (mem : Malloc) (toks : List Token) (g : Globals)
    (h0 : walk_init mem toks = some g) (env : Env) (draws : Nat) :
    (∀ o, walksat g env draws = some o →
      o.steps ≤ max_steps ∧
      (∃ t', flips g env draws o.steps (init_assign env g.N) g.N = some (o.lit_assign, t')) ∧
      (∀ k, k < o.steps → ∀ la t',
        flips g env draws k (init_assign env g.N) g.N = some (la, t') → satisfies g la = false) ∧
      (o.found = true → o.steps < max_steps ∧ satisfies g o.lit_assign = true) ∧
      (o.found = false → o.steps = max_steps) ∧
      (o.found = false ↔ ∀ k, k < max_steps → ∀ la t',
        flips g env draws k (init_assign env g.N) g.N = some (la, t') →
          satisfies g la = false)) ∧
    (walksat g env draws = none →
      ∃ k la t', k < max_steps ∧
        flips g env draws k (init_assign env g.N) g.N = some (la, t') ∧
        choose_clause g env la draws t' = none) := by
  obtain ⟨-, hM, hK⟩ := walk_init_header h0
  constructor
  · intro o ho
    unfold walksat walksat_steps at ho
    obtain ⟨k, t', h1, h2, h3, h4, h5, h6⟩ := walk_loop_some g env draws _ _ _ _ o ho
    rw [Nat.zero_add] at h2
    subst h2
    have h4' : ∀ k, k < o.steps → ∀ la t',
        flips g env draws k (init_assign env g.N) g.N = some (la, t') →
          satisfies g la = false := by
      intro k hk la t'' hf
      rw [← satisfiable_eq g env la hM]
      exact h4 k hk la t'' hf
    have h5' : o.found = true → o.steps < max_steps ∧ satisfies g o.lit_assign = true := by
      intro hf
      obtain ⟨a, b⟩ := h5 hf
      exact ⟨a, by rw [← satisfiable_eq g env _ hM]; exact b⟩
    refine ⟨h1, ⟨t', h3⟩, h4', h5', h6, ?_⟩
    constructor
    · intro hf
      rw [← h6 hf]
      exact h4'
    · intro hall
      cases hf : o.found with
      | false => rfl
      | true =>
        obtain ⟨a, b⟩ := h5' hf
        rw [hall o.steps a _ _ h3] at b
        exact absurd b Bool.false_ne_true
  · intro hn
    unfold walksat walksat_steps at hn
    exact walk_loop_none g (by omega) env draws _ _ _ _ hn

theorem walk_init_stall : walk_init zero_mem stall_input = some stall_globals := by
  have h : (walk_init zero_mem stall_input).isSome = true := by decide
  unfold stall_globals
  cases h0 : walk_init zero_mem stall_input with
  | none => rw [h0] at h; simp at h
  | some g => rfl

theorem flip_flip (la : Nat → literal) (v : Nat) :
    flip_truth_val (flip_truth_val la v) v = la := by
  funext u
  unfold flip_truth_val upd
  by_cases h : u = v
  · subst h
    cases hv : (la u).truth_val <;> simp [hv] <;> (cases hl : la u; simp_all)
  · simp [h]

theorem choose_clause_first (g : Globals) (env : Env) (la : Nat → literal) (d t : Nat)
    (h : clause_satisfaction g (env.rand t % g.M * g.K) la = false) :
    choose_clause g env la (d + 1) t = some (env.rand t % g.M, t + 1) := by
  rw [choose_clause]
  simp [h]

theorem pick_lit_noise (g : Globals) (env : Env) (c : Nat) (la : Nat → literal) (t : Nat)
    (hscan : (scan_lits g c la (List.range g.K) (g.M, none)).1 ≠ 0)
    (hn : env.noise (env.rand t) = true) :
    pick_lit g env c la t =
      some (la (sym_index (g.Problem (c + env.rand (t + 1) % g.K))), t + 2) := by
  unfold pick_lit
  simp only [hscan, hn, if_true, if_false]

theorem stall_rand_cycle (k r : Nat) (hr : r < 6) (hk : k < 9999) :
    stall_rand (3 + 6 * k + r) = [0, 2147483647, 0, 1, 2147483647, 0].getD r 0 := by
  unfold stall_rand
  rw [if_neg (by omega), if_pos (by omega)]
  have : (3 + 6 * k + r - 3) % 6 = r := by omega
  rw [this]

theorem stall_step_start (t : Nat) (h0 : stall_rand t = 0) (h1 : stall_rand (t + 1) = 2147483647)
    (h2 : stall_rand (t + 2) = 0) (remaining steps : Nat) :
    walk_loop stall_globals stall_env 1 (remaining + 1) steps stall_start t =
      walk_loop stall_globals stall_env 1 remaining (steps + 1)
        (flip_truth_val stall_start 0) (t + 3) := by
  have e0 : stall_env.rand t = 0 := h0
  have e1 : stall_env.rand (t + 1) = 2147483647 := h1
  have e2 : stall_env.rand (t + 1 + 1) = 0 := h2
  have hc : choose_clause stall_globals stall_env stall_start (0 + 1) t = some (0, t + 1) := by
    have := choose_clause_first stall_globals stall_env stall_start 0 t (by rw [e0]; decide)
    rw [e0] at this
    exact this
  have hp : pick_lit stall_globals stall_env (0 * stall_globals.K) stall_start (t + 1) =
      some (stall_start 0, t + 3) := by
    have := pick_lit_noise stall_globals stall_env (0 * stall_globals.K) stall_start (t + 1)
      (by decide) (by rw [e1]; decide)
    rw [e2] at this
    exact this
  exact walk_loop_step stall_globals stall_env 1 remaining steps stall_start t 0 (t + 1)
    (stall_start 0) (t + 3) (by decide) hc hp

theorem stall_step_back (t : Nat) (h0 : stall_rand t = 1) (h1 : stall_rand (t + 1) = 2147483647)
    (h2 : stall_rand (t + 2) = 0) (remaining steps : Nat) :
    walk_loop stall_globals stall_env 1 (remaining + 1) steps (flip_truth_val stall_start 0) t =
      walk_loop stall_globals stall_env 1 remaining (steps + 1) stall_start (t + 3) := by
  have e0 : stall_env.rand t = 1 := h0
  have e1 : stall_env.rand (t + 1) = 2147483647 := h1
  have e2 : stall_env.rand (t + 1 + 1) = 0 := h2
  have hc : choose_clause stall_globals stall_env (flip_truth_val stall_start 0) (0 + 1) t =
      some (1, t + 1) := by
    have := choose_clause_first stall_globals stall_env (flip_truth_val stall_start 0) 0 t
      (by rw [e0]; decide)
    rw [e0] at this
    exact this
  have hp : pick_lit stall_globals stall_env (1 * stall_globals.K) (flip_truth_val stall_start 0)
      (t + 1) = some (flip_truth_val stall_start 0 0, t + 3) := by
    have := pick_lit_noise stall_globals stall_env (1 * stall_globals.K)
      (flip_truth_val stall_start 0) (t + 1) (by decide) (by rw [e1]; decide)
    rw [e2] at this
    exact this
  have := walk_loop_step stall_globals stall_env 1 remaining steps (flip_truth_val stall_start 0)
    t 1 (t + 1) (flip_truth_val stall_start 0 0) (t + 3) (by decide) hc hp
  rw [this]
  have hnum : (flip_truth_val stall_start 0 0).lit_num = 0 := by decide
  rw [hnum, flip_flip]

theorem stall_cycle (k : Nat) (hk : k < 9999) (remaining steps : Nat) :
    walk_loop stall_globals stall_env 1 (remaining + 2) steps stall_start (3 + 6 * k) =
      walk_loop stall_globals stall_env 1 remaining (steps + 2) stall_start
        (3 + 6 * (k + 1)) := by
  have r0 := stall_rand_cycle k 0 (by omega) hk
  have r1 := stall_rand_cycle k 1 (by omega) hk
  have r2 := stall_rand_cycle k 2 (by omega) hk
  have r3 := stall_rand_cycle k 3 (by omega) hk
  have r4 := stall_rand_cycle k 4 (by omega) hk
  have r5 := stall_rand_cycle k 5 (by omega) hk
  have s1 := stall_step_start (3 + 6 * k) r0 r1 r2 (remaining + 1) steps
  have s2 := stall_step_back (3 + 6 * k + 3) r3 r4 r5 remaining (steps + 1)
  have e : 3 + 6 * k + 3 + 3 = 3 + 6 * (k + 1) := by omega
  rw [e] at s2
  exact s1.trans s2

theorem stall_cycles (r : Nat) : ∀ (m k steps : Nat), k + m ≤ 9999 →
    walk_loop stall_globals stall_env 1 (2 * m + r) steps stall_start (3 + 6 * k) =
      walk_loop stall_globals stall_env 1 r (steps + 2 * m) stall_start (3 + 6 * (k + m)) := by
  intro m
  induction m with
  | zero => intro k steps _; simp
  | succ m ih =>
    intro k steps h
    have e1 : 2 * (m + 1) + r = 2 * m + r + 2 := by omega
    rw [e1, stall_cycle k (by omega), ih (k + 1) (steps + 2) (by omega)]
    have e2 : steps + 2 + 2 * m = steps + 2 * (m + 1) := by omega
    have e3 : k + 1 + m = k + (m + 1) := by omega
    rw [e2, e3]

/-- C25 (as stated, false): on the accepted input
`3 3 2 / 1 3 / -1 3 / -3 2` with the draws `stall_rand`, `walksat` performs
`max_steps` flips and reports no solution (`found = 0`, step count 20000),
while the assignment it holds after the last flip (P1 false, P2 true, P3 true)
satisfies the formula. -/
theorem walksat_unsat_report_on_satisfying_assignment :
    ∃ g o, walk_init zero_mem stall_input = some g ∧ walksat g stall_env 1 = some o ∧
      o.found = false ∧ o.steps = max_steps ∧ satisfies g o.lit_assign = true := by
  have hN : stall_globals.N = 3 := by decide
  have hfin : (walk_loop stall_globals stall_env 1 2 19998 stall_start 59997).map
      (fun o => (o.found, o.steps, satisfies stall_globals o.lit_assign)) =
        some (false, 20000, true) := by decide
  have hcyc : walk_loop stall_globals stall_env 1 20000 0 stall_start 3 =
      walk_loop stall_globals stall_env 1 2 19998 stall_start 59997 :=
    stall_cycles 2 9999 0 0 (by omega)
  have hrun : walksat stall_globals stall_env 1 =
      walk_loop stall_globals stall_env 1 2 19998 stall_start 59997 := by
    unfold walksat walksat_steps max_steps
    rw [hN]
    exact hcyc
  cases ho : walk_loop stall_globals stall_env 1 2 19998 stall_start 59997 with
  | none => rw [ho] at hfin; simp at hfin
  | some o =>
    rw [ho] at hfin
    simp only [Option.map_some', Option.some.injEq, Prod.mk.injEq] at hfin
    exact ⟨stall_globals, o, walk_init_stall, by rw [hrun, ho], hfin.1, hfin.2.1, hfin.2.2⟩

theorem counted_clause_broken {mem : Malloc} {g : Globals}
    (hl : walk_loaded mem g (g.M * g.K))
    (hz : ∀ x, mem.pos_lit_in x = false ∧ mem.neg_lit_in x = false)
    (nr : no_repeat g) (la : Nat → literal) (v i : Nat) (hv : v < g.N) (hi : i < g.M)
    (hb : breaks_at g la v i = true) :
    clause_satisfaction g (i * g.K) la = true ∧
      clause_satisfaction g (i * g.K) (flip_truth_val la v) = false := by
  unfold breaks_at at hb
  rw [Bool.and_eq_true, decide_eq_true_eq] at hb
  obtain ⟨hcell, hone⟩ := hb
  have hocc : ∃ b, b < g.K ∧ sym_index (g.Problem (i * g.K + b)) = v ∧
      neg_pos_truth_istrue (g.Problem (i * g.K + b)) la = true := by
    cases htv : (la v).truth_val with
    | true =>
      rw [htv] at hcell
      simp only [if_true] at hcell
      rcases hl.pos_only _ hcell with h | ⟨a, b, hb, hlt, hgt, hx⟩
      · rw [(hz _).1] at h; exact absurd h Bool.false_ne_true
      · have hr := hl.range a b hb hlt
        obtain ⟨rfl, hvb⟩ := DPLL.flat_index_unique hv hr.2 hx
        refine ⟨b, hb, hvb.symm, ?_⟩
        rw [lit_truth_eq _ hr.1, if_pos hgt, ← hvb, htv]
    | false =>
      rw [htv] at hcell
      simp only [Bool.false_eq_true, if_false] at hcell
      rcases hl.neg_only _ hcell with h | ⟨a, b, hb, hlt, hgt, hx⟩
      · rw [(hz _).2] at h; exact absurd h Bool.false_ne_true
      · have hr := hl.range a b hb hlt
        obtain ⟨rfl, hvb⟩ := DPLL.flat_index_unique hv hr.2 hx
        refine ⟨b, hb, hvb.symm, ?_⟩
        rw [lit_truth_eq _ hr.1, if_neg (by omega), ← hvb, htv]
        rfl
  obtain ⟨b, hb, hvb, htb⟩ := hocc
  unfold true_lits_in at hone
  have honly := (DPLL.countP_range_eq_one _ g.K b hb htb).1 hone
  constructor
  · unfold clause_satisfaction
    rw [List.any_eq_true]
    exact ⟨b, List.mem_range.2 hb, htb⟩
  · unfold clause_satisfaction
    rw [List.any_eq_false]
    intro j hj
    rw [List.mem_range] at hj
    have hr := hl.range i j hj (DPLL.flat_index_lt hi hj)
    by_cases hjb : j = b
    · subst hjb
      rw [lit_flip_same _ hr.1 la v hvb, htb]
      simp
    · have hvj : sym_index (g.Problem (i * g.K + j)) ≠ v := by
        intro e
        exact hjb (nr i hi j hj b hb (e.trans hvb.symm))
      rw [lit_flip_other _ hr.1 la v hvj]
      intro ht
      exact hjb (honly j hj ht)

theorem break_all_exact {mem : Malloc} {g : Globals}
    (hl : walk_loaded mem g (g.M * g.K))
    (hz : ∀ x, mem.pos_lit_in x = false ∧ mem.neg_lit_in x = false)
    (nr : no_repeat g) (la : Nat → literal) (v : Nat) (hv : v < g.N) :
    break_all g la v = break_value g la v := by
  unfold break_all break_value
  apply List.countP_congr
  intro i hi
  rw [List.mem_range] at hi
  constructor
  · intro hb
    obtain ⟨h1, h2⟩ := counted_clause_broken hl hz nr la v i hv hi hb
    simp [h1, h2]
  · intro hb
    simp only [Bool.and_eq_true, Bool.not_eq_true'] at hb
    exact broken_clause_counted hl nr la v i hi hb.1 hb.2

/-- What C21 states holds when no clause holds the same variable twice and
the memory from `malloc` held zeros: for a bound `min_brk ≥ M`, `break_count`
returns the break value of the specification. -/
theorem break_count_exact (toks : List Token) (mem : Malloc) (g : Globals)
    (h0 : walk_init mem toks = some g)
    (hz : ∀ x, mem.pos_lit_in x = false ∧ mem.neg_lit_in x = false)
    (nr : no_repeat g) (la : Nat → literal) (v : Nat) (hv : v < g.N) (mb : Nat)
    (hmb : g.M ≤ mb) :
    break_count g la mb v = break_value g la v := by
  rw [break_count_spec, if_pos (le_trans (break_all_le g la v) hmb)]
  exact break_all_exact (walk_init_loaded h0) hz nr la v hv

theorem init_assign_succ (env : Env) (N : Nat) :
    init_assign env (N + 1) =
      upd (init_assign env N) N { lit_num := N, truth_val := decide (env.rand N % 2 ≠ 0) } := by
  unfold init_assign
  rw [List.range_succ, List.foldl_append]
  rfl

theorem init_assign_lit_num (env : Env) : ∀ (N v : Nat), v < N →
    (init_assign env N v).lit_num = v := by
  intro N
  induction N with
  | zero => intro v hv; omega
  | succ N ih =>
    intro v hv
    rw [init_assign_succ]
    unfold upd
    by_cases h : v = N
    · simp [h]
    · rw [if_neg h]
      exact ih v (by omega)

/-- C23 (the code breaks it): `walk_init` accepts `3 2 2 / 1 2 / 3 -2`, in
which no clause holds a variable twice; with memory from `malloc` that held
nonzero values and every variable false, clause 0 (`1 2`) is not satisfied
and P1 has break value 0, so the minimum break value is 0. Yet the scanning
loop of `pick_lit` ends with `min_brk = 1` (the cell `neg_lit_in[1 * N + 0]`
was never written, so clause 1 is counted for P1), `pick_lit` makes two draws
and returns P2, whose break value is 1, by a greedy move (draws 0) as by a
noise move (draws 1); flipping P2 breaks clause 1 (`3 -2`), and one clause is
unsatisfied after the flip as before. -/
theorem freebie_missed_with_malloc_values :
    ∃ g, walk_init ones_mem missed_freebie = some g ∧ no_repeat g ∧
      g.N = 3 ∧ g.M = 2 ∧ g.K = 2 ∧
      clause_satisfaction g (0 * g.K) all_false = false ∧
      sym_index (g.Problem (0 * g.K + 0)) = 0 ∧ sym_index (g.Problem (0 * g.K + 1)) = 1 ∧
      break_value g all_false 0 = 0 ∧ break_value g all_false 1 = 1 ∧
      (scan_lits g (0 * g.K) all_false (List.range g.K) (g.M, none)).1 = 1 ∧
      pick_lit g (const_env 0) (0 * g.K) all_false 0 = some (all_false 1, 2) ∧
      pick_lit g (const_env 1) (0 * g.K) all_false 0 = some (all_false 1, 2) ∧
      clause_satisfaction g (1 * g.K) all_false = true ∧
      clause_satisfaction g (1 * g.K) (flip_truth_val all_false 1) = false ∧
      unsat_count g all_false = 1 ∧ unsat_count g (flip_truth_val all_false 1) = 1 := by
  have h : (walk_init ones_mem missed_freebie).map (fun g =>
      ([decide (no_repeat g),
        !clause_satisfaction g (0 * g.K) all_false,
        decide (pick_lit g (const_env 0) (0 * g.K) all_false 0 = some (all_false 1, 2)),
        decide (pick_lit g (const_env 1) (0 * g.K) all_false 0 = some (all_false 1, 2)),
        clause_satisfaction g (1 * g.K) all_false,
        !clause_satisfaction g (1 * g.K) (flip_truth_val all_false 1)],
       [g.N, g.M, g.K, sym_index (g.Problem (0 * g.K + 0)), sym_index (g.Problem (0 * g.K + 1)),
        break_value g all_false 0, break_value g all_false 1,
        (scan_lits g (0 * g.K) all_false (List.range g.K) (g.M, none)).1,
        unsat_count g all_false, unsat_count g (flip_truth_val all_false 1)])) =
      some ([true, true, true, true, true, true], [3, 2, 2, 0, 1, 0, 1, 1, 1, 1]) := by decide
  cases h0 : walk_init ones_mem missed_freebie with
  | none => rw [h0] at h; simp at h
  | some g =>
    rw [h0] at h
    simp only [Option.map_some', Option.some.injEq, Prod.mk.injEq, List.cons.injEq,
      and_true, decide_eq_true_eq, Bool.not_eq_true'] at h
    obtain ⟨⟨a1, a2, a3, a4, a5, a6⟩, b1, b2, b3, b4, b5, b6, b7, b8, b9, b10⟩ := h
    exact ⟨g, rfl, a1, b1, b2, b3, a2, b4, b5, b6, b7, b8, a3, a4, a5, a6, b9, b10⟩

/-- What holds of the freebie flip for any content of the memory from
`malloc`: for every input that `walk_init` accepts and in which no clause
holds the same variable twice, every assignment (an array whose entry `v`
names the variable `v`, as `walksat` builds it) and every clause `i` that the
assignment does not satisfy, if `min_brk` is 0 after the scanning loop of
`pick_lit`, then for every stream of draws `pick_lit` makes one draw (no noise
move) and returns a variable of the clause whose count is 0 and whose break
value is 0; after flipping it every clause that was satisfied is still
satisfied, clause `i` is satisfied, and fewer clauses are unsatisfied than
before. When the memory from `malloc` held zeros, `min_brk` is 0 as soon as
the break value of some literal of the clause is 0. -/
theorem freebie_flip (mem : Malloc) (toks : List Token) (g : Globals)
    (h0 : walk_init mem toks = some g) (nr : no_repeat g) (la : Nat → literal)
    (hla : ∀ v, v < g.N → (la v).lit_num = v) (i : Nat) (hi : i < g.M)
    (hu : clause_satisfaction g (i * g.K) la = false) :
    ((scan_lits g (i * g.K) la (List.range g.K) (g.M, none)).1 = 0 →
      ∀ (env : Env) (t : Nat), ∃ l, pick_lit g env (i * g.K) la t = some (l, t + 1) ∧
        (∃ j, j < g.K ∧ l.lit_num = sym_index (g.Problem (i * g.K + j))) ∧
        break_all g la l.lit_num = 0 ∧ break_value g la l.lit_num = 0 ∧
        (∀ i', i' < g.M → clause_satisfaction g (i' * g.K) la = true →
          clause_satisfaction g (i' * g.K) (flip_truth_val la l.lit_num) = true) ∧
        clause_satisfaction g (i * g.K) (flip_truth_val la l.lit_num) = true ∧
        unsat_count g (flip_truth_val la l.lit_num) < unsat_count g la) ∧
    ((∀ x, mem.pos_lit_in x = false ∧ mem.neg_lit_in x = false) →
      (∃ j, j < g.K ∧ break_value g la (sym_index (g.Problem (i * g.K + j))) = 0) →
        (scan_lits g (i * g.K) la (List.range g.K) (g.M, none)).1 = 0) := by
  obtain ⟨-, -, hK⟩ := walk_init_header h0
  have hl := walk_init_loaded h0
  obtain ⟨m, hmin, ⟨j1, hj1, e1⟩, h3⟩ := scan_lits_range g (i * g.K) la (by omega)
  constructor
  · intro hm env t
    have hm0 : m = 0 := by rw [h3] at hm; exact hm
    subst hm0
    have hpos : 1 ≤ ((((List.range g.K).filter fun j =>
        decide (break_all g la (sym_index (g.Problem (i * g.K + j))) = 0)).reverse).map
          fun j => la (sym_index (g.Problem (i * g.K + j)))).length := by
      simp only [List.length_map, List.length_reverse]
      apply List.length_pos_of_mem (a := j1)
      rw [List.mem_filter]
      exact ⟨List.mem_range.2 hj1, by simp [e1]⟩
    obtain ⟨l, t', hp, hfree, -⟩ := pick_lit_cases g env (i * g.K) la t _ (by rw [h3]) rfl hpos
    obtain ⟨ht', hmem⟩ := hfree hm
    subst ht'
    simp only [List.mem_map, List.mem_reverse, List.mem_filter, List.mem_range,
      decide_eq_true_eq] at hmem
    obtain ⟨j, ⟨hj, hcount⟩, hlj⟩ := hmem
    have hr := hl.range i j hj (DPLL.flat_index_lt hi hj)
    have hnum : l.lit_num = sym_index (g.Problem (i * g.K + j)) := by
      rw [← hlj]; exact hla _ hr.2
    have hall : break_all g la l.lit_num = 0 := by rw [hnum]; exact hcount
    have hnone : ∀ i', i' < g.M → breaks_at g la l.lit_num i' = false := by
      intro i' hi'
      unfold break_all at hall
      rw [List.countP_eq_zero] at hall
      simpa using hall i' (List.mem_range.2 hi')
    have hkeep : ∀ i', i' < g.M → clause_satisfaction g (i' * g.K) la = true →
        clause_satisfaction g (i' * g.K) (flip_truth_val la l.lit_num) = true := by
      intro i' hi' hs
      by_contra hc
      have hc' : clause_satisfaction g (i' * g.K) (flip_truth_val la l.lit_num) = false := by
        simpa using hc
      have := broken_clause_counted hl nr la l.lit_num i' hi' hs hc'
      rw [hnone i' hi'] at this
      exact Bool.false_ne_true this
    have hsel : clause_satisfaction g (i * g.K) (flip_truth_val la l.lit_num) = true := by
      unfold clause_satisfaction at hu ⊢
      rw [List.any_eq_false] at hu
      rw [List.any_eq_true]
      refine ⟨j, List.mem_range.2 hj, ?_⟩
      rw [lit_flip_same _ hr.1 la _ hnum.symm]
      have := hu j (List.mem_range.2 hj)
      simpa using this
    refine ⟨l, hp, ⟨j, hj, hnum⟩, hall, ?_, hkeep, hsel, ?_⟩
    · unfold break_value
      rw [List.countP_eq_zero]
      intro i' hi'
      rw [List.mem_range] at hi'
      cases hs : clause_satisfaction g (i' * g.K) la with
      | false => simp
      | true => simp [hkeep i' hi' hs]
    · unfold unsat_count
      apply countP_lt_of_imp _ _ _ i
      · intro i' hi' hq
        rw [List.mem_range] at hi'
        cases hs : clause_satisfaction g (i' * g.K) la with
        | false => rfl
        | true => rw [hkeep i' hi' hs] at hq; simp at hq
      · exact List.mem_range.2 hi
      · simp [hu]
      · simp [hsel]
  · rintro hz ⟨j, hj, hbv⟩
    have hr := hl.range i j hj (DPLL.flat_index_lt hi hj)
    have := hmin j hj
    rw [break_all_exact hl hz nr la _ hr.2, hbv] at this
    rw [h3]
    show m = 0
    omega

/-- C22 on the input `2 1 2 / 1 2` with both variables false, for clause 0. -/
theorem short_circuit_is_optimisation_witness :
    walk_init zero_mem DPLL.one_clause = some (scenario3_globals zero_mem) ∧
    ((∀ mb v, break_count (scenario3_globals zero_mem) (init_assign (const_env 0) 2) mb v =
      if break_all (scenario3_globals zero_mem) (init_assign (const_env 0) 2) v ≤ mb then
        break_all (scenario3_globals zero_mem) (init_assign (const_env 0) 2) v
      else mb + 1) ∧
    ∃ m, (∀ j, j < (scenario3_globals zero_mem).K →
        m ≤ break_all (scenario3_globals zero_mem) (init_assign (const_env 0) 2)
          (sym_index ((scenario3_globals zero_mem).Problem
            (0 * (scenario3_globals zero_mem).K + j)))) ∧
      (∃ j, j < (scenario3_globals zero_mem).K ∧
        break_all (scenario3_globals zero_mem) (init_assign (const_env 0) 2)
          (sym_index ((scenario3_globals zero_mem).Problem
            (0 * (scenario3_globals zero_mem).K + j))) = m) ∧
      scan_lits (scenario3_globals zero_mem) (0 * (scenario3_globals zero_mem).K)
          (init_assign (const_env 0) 2) (List.range (scenario3_globals zero_mem).K)
          ((scenario3_globals zero_mem).M, none) =
        (m, some
          { first := (((List.range (scenario3_globals zero_mem).K).filter fun j =>
              decide (break_all (scenario3_globals zero_mem) (init_assign (const_env 0) 2)
                (sym_index ((scenario3_globals zero_mem).Problem
                  (0 * (scenario3_globals zero_mem).K + j))) = m)).reverse).map
                fun j => init_assign (const_env 0) 2
                  (sym_index ((scenario3_globals zero_mem).Problem
                    (0 * (scenario3_globals zero_mem).K + j)))
            size := ((((List.range (scenario3_globals zero_mem).K).filter fun j =>
              decide (break_all (scenario3_globals zero_mem) (init_assign (const_env 0) 2)
                (sym_index ((scenario3_globals zero_mem).Problem
                  (0 * (scenario3_globals zero_mem).K + j))) = m)).reverse).map
                fun j => init_assign (const_env 0) 2
                  (sym_index ((scenario3_globals zero_mem).Problem
                    (0 * (scenario3_globals zero_mem).K + j)))).length })) :=
  ⟨walk_init_scenario3 zero_mem,
    short_circuit_is_optimisation zero_mem DPLL.one_clause (scenario3_globals zero_mem)
      (walk_init_scenario3 zero_mem) (init_assign (const_env 0) 2) 0⟩

/-- C26 on the input `2 1 2 / 1 2` with both variables false, for clause 0. -/
theorem tie_list_never_empty_witness :
    walk_init zero_mem DPLL.one_clause = some (scenario3_globals zero_mem) ∧
    ∃ h, (scan_lits (scenario3_globals zero_mem) (0 * (scenario3_globals zero_mem).K)
        (init_assign (const_env 0) 2) (List.range (scenario3_globals zero_mem).K)
        ((scenario3_globals zero_mem).M, none)).2 = some h ∧
      h.size = h.first.length ∧ 1 ≤ h.size ∧ h.size ≤ (scenario3_globals zero_mem).K ∧
      (∀ r, r % h.size < h.first.length ∧
        ∃ l, select_nd (some h) (r % h.size) = some l ∧ l ∈ h.first) ∧
      ∀ env t, ∃ l t', pick_lit (scenario3_globals zero_mem) env
        (0 * (scenario3_globals zero_mem).K) (init_assign (const_env 0) 2) t = some (l, t') :=
  ⟨walk_init_scenario3 zero_mem,
    tie_list_never_empty zero_mem DPLL.one_clause (scenario3_globals zero_mem)
      (walk_init_scenario3 zero_mem) (init_assign (const_env 0) 2) 0⟩

/-- The freebie flip on the input `2 1 2 / 1 2` with both variables false:
the clause is not satisfied, `min_brk` is 0 and the flip satisfies it. -/
theorem freebie_flip_witness :
    walk_init zero_mem DPLL.one_clause = some (scenario3_globals zero_mem) ∧
    no_repeat (scenario3_globals zero_mem) ∧
    clause_satisfaction (scenario3_globals zero_mem) (0 * (scenario3_globals zero_mem).K)
      (init_assign (const_env 0) 2) = false ∧
    (scan_lits (scenario3_globals zero_mem) (0 * (scenario3_globals zero_mem).K)
      (init_assign (const_env 0) 2) (List.range (scenario3_globals zero_mem).K)
      ((scenario3_globals zero_mem).M, none)).1 = 0 ∧
    ((scan_lits (scenario3_globals zero_mem) (0 * (scenario3_globals zero_mem).K)
      (init_assign (const_env 0) 2) (List.range (scenario3_globals zero_mem).K)
      ((scenario3_globals zero_mem).M, none)).1 = 0 →
      ∀ (env : Env) (t : Nat), ∃ l, pick_lit (scenario3_globals zero_mem) env
          (0 * (scenario3_globals zero_mem).K) (init_assign (const_env 0) 2) t =
            some (l, t + 1) ∧
        (∃ j, j < (scenario3_globals zero_mem).K ∧
          l.lit_num = sym_index ((scenario3_globals zero_mem).Problem
            (0 * (scenario3_globals zero_mem).K + j))) ∧
        break_all (scenario3_globals zero_mem) (init_assign (const_env 0) 2) l.lit_num = 0 ∧
        break_value (scenario3_globals zero_mem) (init_assign (const_env 0) 2) l.lit_num = 0 ∧
        (∀ i', i' < (scenario3_globals zero_mem).M →
          clause_satisfaction (scenario3_globals zero_mem)
            (i' * (scenario3_globals zero_mem).K) (init_assign (const_env 0) 2) = true →
          clause_satisfaction (scenario3_globals zero_mem)
            (i' * (scenario3_globals zero_mem).K)
            (flip_truth_val (init_assign (const_env 0) 2) l.lit_num) = true) ∧
        clause_satisfaction (scenario3_globals zero_mem) (0 * (scenario3_globals zero_mem).K)
          (flip_truth_val (init_assign (const_env 0) 2) l.lit_num) = true ∧
        unsat_count (scenario3_globals zero_mem)
            (flip_truth_val (init_assign (const_env 0) 2) l.lit_num) <
          unsat_count (scenario3_globals zero_mem) (init_assign (const_env 0) 2)) ∧
    ((∀ x, zero_mem.pos_lit_in x = false ∧ zero_mem.neg_lit_in x = false) →
      (∃ j, j < (scenario3_globals zero_mem).K ∧
        break_value (scenario3_globals zero_mem) (init_assign (const_env 0) 2)
          (sym_index ((scenario3_globals zero_mem).Problem
            (0 * (scenario3_globals zero_mem).K + j))) = 0) →
      (scan_lits (scenario3_globals zero_mem) (0 * (scenario3_globals zero_mem).K)
        (init_assign (const_env 0) 2) (List.range (scenario3_globals zero_mem).K)
        ((scenario3_globals zero_mem).M, none)).1 = 0) :=
  ⟨walk_init_scenario3 zero_mem, by decide, by decide, by decide,
    freebie_flip zero_mem DPLL.one_clause (scenario3_globals zero_mem)
      (walk_init_scenario3 zero_mem) (by decide) (init_assign (const_env 0) 2)
      (init_assign_lit_num (const_env 0) 2) 0 (by decide) (by decide)⟩

/-- C24 on the input `2 1 2 / 1 2` with both variables false and every draw
0: clause 0 is selected with one draw. -/
theorem step_flips_variable_of_clause_witness :
    walk_init zero_mem DPLL.one_clause = some (scenario3_globals zero_mem) ∧
    satisfiable (scenario3_globals zero_mem) (const_env 0) (init_assign (const_env 0) 2) = false ∧
    choose_clause (scenario3_globals zero_mem) (const_env 0) (init_assign (const_env 0) 2) 1 2 =
      some (0, 3) ∧
    (0 < (scenario3_globals zero_mem).M ∧
    clause_satisfaction (scenario3_globals zero_mem) (0 * (scenario3_globals zero_mem).K)
      (init_assign (const_env 0) 2) = false ∧
    ∃ l t2, pick_lit (scenario3_globals zero_mem) (const_env 0)
        (0 * (scenario3_globals zero_mem).K) (init_assign (const_env 0) 2) 3 = some (l, t2) ∧
      (∃ j, j < (scenario3_globals zero_mem).K ∧
        l.lit_num = sym_index ((scenario3_globals zero_mem).Problem
          (0 * (scenario3_globals zero_mem).K + j))) ∧
      l.lit_num < (scenario3_globals zero_mem).N ∧
      (∀ remaining steps,
        walk_loop (scenario3_globals zero_mem) (const_env 0) 1 (remaining + 1) steps
          (init_assign (const_env 0) 2) 2 =
        walk_loop (scenario3_globals zero_mem) (const_env 0) 1 remaining (steps + 1)
          (flip_truth_val (init_assign (const_env 0) 2) l.lit_num) t2) ∧
      (flip_truth_val (init_assign (const_env 0) 2) l.lit_num l.lit_num).truth_val =
        (!(init_assign (const_env 0) 2 l.lit_num).truth_val) ∧
      (∀ u, u ≠ l.lit_num →
        flip_truth_val (init_assign (const_env 0) 2) l.lit_num u =
          init_assign (const_env 0) 2 u) ∧
      (∀ v, v < (scenario3_globals zero_mem).N →
        (flip_truth_val (init_assign (const_env 0) 2) l.lit_num v).lit_num = v)) :=
  ⟨walk_init_scenario3 zero_mem, by decide, by decide,
    step_flips_variable_of_clause zero_mem DPLL.one_clause (scenario3_globals zero_mem)
      (walk_init_scenario3 zero_mem) (const_env 0) (init_assign (const_env 0) 2)
      (init_assign_lit_num (const_env 0) 2) (by decide) 1 2 0 3 (by decide)⟩

/-- C25 (amended) on the input `2 1 2 / 1 2` with every draw 0. -/
theorem step_budget_witness :
    walk_init zero_mem DPLL.one_clause = some (scenario3_globals zero_mem) ∧
    ((∀ o, walksat (scenario3_globals zero_mem) (const_env 0) 1 = some o →
      o.steps ≤ max_steps ∧
      (∃ t', flips (scenario3_globals zero_mem) (const_env 0) 1 o.steps
        (init_assign (const_env 0) (scenario3_globals zero_mem).N)
        (scenario3_globals zero_mem).N = some (o.lit_assign, t')) ∧
      (∀ k, k < o.steps → ∀ la t',
        flips (scenario3_globals zero_mem) (const_env 0) 1 k
          (init_assign (const_env 0) (scenario3_globals zero_mem).N)
          (scenario3_globals zero_mem).N = some (la, t') →
        satisfies (scenario3_globals zero_mem) la = false) ∧
      (o.found = true →
        o.steps < max_steps ∧ satisfies (scenario3_globals zero_mem) o.lit_assign = true) ∧
      (o.found = false → o.steps = max_steps) ∧
      (o.found = false ↔ ∀ k, k < max_steps → ∀ la t',
        flips (scenario3_globals zero_mem) (const_env 0) 1 k
          (init_assign (const_env 0) (scenario3_globals zero_mem).N)
          (scenario3_globals zero_mem).N = some (la, t') →
        satisfies (scenario3_globals zero_mem) la = false)) ∧
    (walksat (scenario3_globals zero_mem) (const_env 0) 1 = none →
      ∃ k la t', k < max_steps ∧
        flips (scenario3_globals zero_mem) (const_env 0) 1 k
          (init_assign (const_env 0) (scenario3_globals zero_mem).N)
          (scenario3_globals zero_mem).N = some (la, t') ∧
        choose_clause (scenario3_globals zero_mem) (const_env 0) la 1 t' = none)) :=
  ⟨walk_init_scenario3 zero_mem,
    step_budget zero_mem DPLL.one_clause (scenario3_globals zero_mem)
      (walk_init_scenario3 zero_mem) (const_env 0) 1⟩

end WalkSAT
